import Mathlib

/-!
# gencode-backmap: feature tree, transcript mapper and remap status

A shallow embedding of the parts of `featureTree.hh`, `gxf.hh`,
`transcriptMapper.cc` and `remapStatus.cc` that the properties below are
about.  C++ strings are `String`, `int` is `Int`, vectors are `List`, a
pointer that may be `NULL` is an `Option`, and an operation that can throw or
trip an `assert` returns `Except`.
-/

namespace GencodeBackmap

/-! ## remapStatus -/

/-- The remap status values, in the order in which `remapStatusToStr`
(remapStatus.cc) lists them. -/
inductive RemapStatus where
  | REMAP_STATUS_NONE
  | REMAP_STATUS_FULL_CONTIG
  | REMAP_STATUS_FULL_FRAGMENT
  | REMAP_STATUS_PARTIAL
  | REMAP_STATUS_DELETED
  | REMAP_STATUS_NO_SEQ_MAP
  | REMAP_STATUS_GENE_CONFLICT
  | REMAP_STATUS_GENE_SIZE_CHANGE
  | REMAP_STATUS_AUTO_SMALL_NCRNA
  | REMAP_STATUS_AUTOMATIC_GENE
  | REMAP_STATUS_PSEUDOGENE
  | REMAP_STATUS_INELIGIBLE
  deriving DecidableEq, Repr, Inhabited

open RemapStatus

/-! ## gxf.hh: attributes and feature records -/

/-- Errors raised by the embedded code: `invalid_argument` exceptions carry
their message, a failed `assert` carries the asserted condition, and a read
outside a vector or through a `NULL` pointer (undefined in C++) is
`out_of_range`. -/
inductive GxfError where
  | invalid_argument (msg : String)
  | assertion (cond : String)
  | out_of_range (what : String)
  deriving DecidableEq, Repr, Inhabited

/-- Attribute/value pair of gxf.hh (`class AttrVal`), maybe multi-valued. -/
structure AttrVal where
  fName : String
  fVals : List String
  fQuoted : Bool
  deriving DecidableEq, Repr, Inhabited

/-- `AttrVal::getName`. -/
def AttrVal.getName (a : AttrVal) : String := a.fName

/-- `AttrVal::getVals`. -/
def AttrVal.getVals (a : AttrVal) : List String := a.fVals

/-- `AttrVal::getVal`: the value at index 0 (`fVals[0]`); reading index 0 of
an empty vector is outside the defined behaviour and is `none` here. -/
def AttrVal.getVal (a : AttrVal) : Option String := a.fVals.head?

/-- List of attributes of gxf.hh (`class AttrVals`). -/
abbrev AttrVals := List AttrVal

/-- `AttrVals::findIdx`: index of the first attribute with the name, or -1. -/
def AttrVals.findIdx (attrs : AttrVals) (name : String) : Int :=
  go attrs 0
where
  /-- The loop of `findIdx`, from index `i` over the remaining entries. -/
  go : List AttrVal → Int → Int
    | [], _ => -1
    | a :: rest, i => if a.getName = name then i else go rest (i + 1)

/-- `AttrVals::exists`. -/
def AttrVals.exists (attrs : AttrVals) (name : String) : Bool :=
  decide (AttrVals.findIdx attrs name ≥ 0)

/-- `AttrVals::find`: the attribute at `findIdx`, `NULL` when it is negative. -/
def AttrVals.find (attrs : AttrVals) (name : String) : Option AttrVal :=
  let i := AttrVals.findIdx attrs name
  if i < 0 then none else attrs.get? i.toNat

/-- `AttrVals::get`: as `find`, but a missing attribute is an error. -/
def AttrVals.get (attrs : AttrVals) (name : String) : Except GxfError AttrVal :=
  match AttrVals.find attrs name with
  | none => .error (.invalid_argument ("Attribute not found: " ++ name))
  | some attrVal => .ok attrVal

/-- A row parsed from a GTF/GFF file (`class GxfFeature`). -/
structure GxfFeature where
  fSeqid : String
  fSource : String
  fType : String
  fStart : Int
  fEnd : Int
  fScore : String
  fStrand : String
  fPhase : String
  fAttrs : AttrVals
  deriving DecidableEq, Repr, Inhabited

/-- Modelled from the spec: the value of `GxfFeature::TRANSCRIPT` (gxf.hh
declares the constant, the file that defines it is absent): the feature type
`transcript`. -/
def GxfFeature.TRANSCRIPT : String := "transcript"
/-- Modelled from the spec: the value of `GxfFeature::EXON` (gxf.hh declares
the constant, the file that defines it is absent): the feature type `exon`. -/
def GxfFeature.EXON : String := "exon"
/-- Modelled from the spec: the value of `GxfFeature::ID_ATTR` (gxf.hh declares
the constant, the file that defines it is absent): the id attribute `ID` of
the dialect that links records by id and parent id. -/
def GxfFeature.ID_ATTR : String := "ID"
/-- Modelled from the spec: the value of `GxfFeature::GENE_ID_ATTR` (gxf.hh
declares the constant, the file that defines it is absent): the gene
identifier attribute `gene_id`. -/
def GxfFeature.GENE_ID_ATTR : String := "gene_id"
/-- Modelled from the spec: the value of `GxfFeature::TRANSCRIPT_ID_ATTR`
(gxf.hh declares the constant, the file that defines it is absent): the
transcript identifier attribute `transcript_id`. -/
def GxfFeature.TRANSCRIPT_ID_ATTR : String := "transcript_id"

/-- `getType`. -/
def GxfFeature.getType (f : GxfFeature) : String := f.fType

/-! ## featureTree.hh: the ownership tree -/

/-- Tree container for a feature and its children (`class FeatureNode`).
The tree is the ownership structure: a node owns its children, so the child
list holds the child nodes themselves.  The parent back-reference `fParent`
is the position of the node in the tree; it is explicit in the pointer model
`NodeStore` further down. -/
inductive FeatureNode where
  | mk (fFeature : GxfFeature) (fChildren : List FeatureNode)
       (fRemapStatus : RemapStatus) (fNumMappings : Int)
       (fMappedFeatures fUnmappedFeatures fAllOutputFeatures : List GxfFeature)

namespace FeatureNode

/-- The wrapped source record. -/
def fFeature : FeatureNode → GxfFeature
  | mk f _ _ _ _ _ _ => f
/-- The child nodes, in the order added. -/
def fChildren : FeatureNode → List FeatureNode
  | mk _ c _ _ _ _ _ => c
/-- The remap status. -/
def fRemapStatus : FeatureNode → RemapStatus
  | mk _ _ s _ _ _ _ => s
/-- The number of mappings. -/
def fNumMappings : FeatureNode → Int
  | mk _ _ _ n _ _ _ => n
/-- The mapped output records. -/
def fMappedFeatures : FeatureNode → List GxfFeature
  | mk _ _ _ _ m _ _ => m
/-- The unmapped output records. -/
def fUnmappedFeatures : FeatureNode → List GxfFeature
  | mk _ _ _ _ _ u _ => u
/-- The log of all output records. -/
def fAllOutputFeatures : FeatureNode → List GxfFeature
  | mk _ _ _ _ _ _ a => a

/-- The constructor `FeatureNode(GxfFeature* feature)`: no children, status
`none`, zero mappings, empty output lists. -/
def new (feature : GxfFeature) : FeatureNode :=
  mk feature [] REMAP_STATUS_NONE 0 [] [] []

/-- `setRemapStatus`. -/
def setRemapStatus : FeatureNode → RemapStatus → FeatureNode
  | mk f c _ n m u a, s => mk f c s n m u a

/-- `setNumMappings`. -/
def setNumMappings : FeatureNode → Int → FeatureNode
  | mk f c s _ m u a, n => mk f c s n m u a

mutual
/-- `FeatureNode::getMatching(hits, filter)`: push the node's own record if
the filter accepts it, then recurse into every child in order. -/
def getMatching (filter : GxfFeature → Bool) :
    FeatureNode → List GxfFeature → List GxfFeature
  | mk f children _ _ _ _ _, hits =>
      getMatchingChildren filter children (if filter f then hits ++ [f] else hits)
/-- The `for` loop of `getMatching` over the remaining children. -/
def getMatchingChildren (filter : GxfFeature → Bool) :
    List FeatureNode → List GxfFeature → List GxfFeature
  | [], hits => hits
  | c :: rest, hits => getMatchingChildren filter rest (getMatching filter c hits)
end

end FeatureNode

/-- The records of a subtree in depth-first order: the node's own record,
then the subtrees of its children in child-list order. -/
def FeatureNode.subtreeFeatures : FeatureNode → List GxfFeature
  | .mk f children _ _ _ _ _ => f :: subtreesFeatures children
where
  /-- The records of a list of subtrees, one subtree after the other. -/
  subtreesFeatures : List FeatureNode → List GxfFeature
    | [] => []
    | c :: rest => FeatureNode.subtreeFeatures c ++ subtreesFeatures rest

/-! ## featureTree.cc: remap status of a node -/

/-- Modelled from the spec: `FeatureNode::calcRemapStatus` (featureTree.cc,
which defines it, is absent).  The status of a node from its own mapping
outcome: whether the source sequence is in the alignment set is checked
first; otherwise nothing projected is `deleted`, some but not all bases
projected (mapped and unmapped outputs) is `partial`, all projected as one
record is `full_contig` and as two or more records `full_fragment`; a node
without any output has outcome `none`. -/
def FeatureNode.calcRemapStatus (node : FeatureNode) (srcSeqInMapping : Bool) : RemapStatus :=
  if !srcSeqInMapping then REMAP_STATUS_NO_SEQ_MAP
  else if node.fMappedFeatures.isEmpty then
    (if node.fUnmappedFeatures.isEmpty then REMAP_STATUS_NONE else REMAP_STATUS_DELETED)
  else if !node.fUnmappedFeatures.isEmpty then REMAP_STATUS_PARTIAL
  else if node.fMappedFeatures.length = 1 then REMAP_STATUS_FULL_CONTIG
  else REMAP_STATUS_FULL_FRAGMENT

/-- Modelled from the spec: the aggregation precedence
`no_seq_map > deleted > partial > full_fragment > full_contig` (featureTree.cc
is absent); the statuses outside this declared chain take no part in the
order and dominate nothing. -/
def RemapStatus.precedence : RemapStatus → Nat
  | REMAP_STATUS_NO_SEQ_MAP => 5
  | REMAP_STATUS_DELETED => 4
  | REMAP_STATUS_PARTIAL => 3
  | REMAP_STATUS_FULL_FRAGMENT => 2
  | REMAP_STATUS_FULL_CONTIG => 1
  | _ => 0

/-- Modelled from the spec: one step of the aggregation fold (featureTree.cc
is absent): a child's status replaces the status held so far exactly when it
dominates it. -/
def RemapStatus.childUpdate (status child : RemapStatus) : RemapStatus :=
  if status.precedence < child.precedence then child else status

/-- Modelled from the spec: the fold of a node's status from its children's
statuses (featureTree.cc is absent), starting from the base status: each
child's status replaces the status held so far exactly when it dominates
it. -/
def RemapStatus.fromChildren (baseStatus : RemapStatus) (children : List RemapStatus) :
    RemapStatus :=
  children.foldl RemapStatus.childUpdate baseStatus

mutual
/-- Modelled from the spec: `FeatureNode::setRemapStatusFromChildren(baseStatus)`
(featureTree.cc, which defines it, is absent; the header declares it with the
parameter `baseStatus`, `REMAP_STATUS_NONE` by default, and documents it as
recursively determining the remap status).  The children are aggregated
first; a childless node keeps its own value, and the status of a node with
children is folded from those of its children with `RemapStatus.fromChildren`,
starting from `baseStatus`; no other field changes. -/
def FeatureNode.setRemapStatusFromChildren : FeatureNode → RemapStatus → FeatureNode
  | .mk f children s n m u a, baseStatus =>
    .mk f (setRemapStatusFromChildrenList children baseStatus)
      (if children.isEmpty then s
       else RemapStatus.fromChildren baseStatus
        ((setRemapStatusFromChildrenList children baseStatus).map FeatureNode.fRemapStatus))
      n m u a
/-- Modelled from the spec: the recursion of `setRemapStatusFromChildren`
into each child, in child-list order. -/
def setRemapStatusFromChildrenList : List FeatureNode → RemapStatus → List FeatureNode
  | [], _ => []
  | c :: rest, baseStatus =>
    FeatureNode.setRemapStatusFromChildren c baseStatus ::
      setRemapStatusFromChildrenList rest baseStatus
end

/-! ## featureTree.hh: parent and child links

`addChild` works on pointers: the child list of a node holds pointers to the
children and each child holds a pointer to its parent.  A store of node
cells addressed by their index makes the pointers explicit. -/

/-- The link fields of one `FeatureNode` object, with pointers as addresses
in the store. -/
structure NodeCell where
  fFeature : GxfFeature
  fParent : Option Nat
  fChildren : List Nat
  deriving DecidableEq, Repr, Inhabited

/-- The allocated nodes; the address of a node is its index in `cells`. -/
structure NodeStore where
  cells : List NodeCell
  deriving DecidableEq, Repr, Inhabited

/-- The store before any node is allocated. -/
def NodeStore.empty : NodeStore := ⟨[]⟩

/-- `new FeatureNode(feature)`: allocate a node with `fParent(NULL)` and no
children; returns the store and the address of the new node. -/
def NodeStore.newNode (s : NodeStore) (feature : GxfFeature) : NodeStore × Nat :=
  (⟨s.cells ++ [⟨feature, none, []⟩]⟩, s.cells.length)

/-- Apply `f` to the cell at address `i`. -/
def NodeStore.modifyCell (s : NodeStore) (i : Nat) (f : NodeCell → NodeCell) : NodeStore :=
  match s.cells[i]? with
  | some cell => ⟨s.cells.set i (f cell)⟩
  | none => s

/-- `this->addChild(node)`: the `assert(node->fParent == NULL)`, then
`fChildren.push_back(node)` on `this` and `node->fParent = this`.  Both
pointers must be addresses of allocated nodes. -/
def NodeStore.addChild (s : NodeStore) (this node : Nat) : Except GxfError NodeStore :=
  match s.cells[node]?, s.cells[this]? with
  | some child, some _ =>
    if child.fParent ≠ none then .error (.assertion "node->fParent == NULL")
    else
      let s := s.modifyCell this (fun cell => { cell with fChildren := cell.fChildren ++ [node] })
      .ok (s.modifyCell node (fun cell => { cell with fParent := some this }))
  | _, _ => .error (.out_of_range "FeatureNode*")

/-- The child list of the node at address `p` (empty for an address that is
not allocated). -/
def NodeStore.children (s : NodeStore) (p : Nat) : List Nat :=
  match s.cells[p]? with
  | some cell => cell.fChildren
  | none => []

/-- The parent reference of the node at address `c`. -/
def NodeStore.parent (s : NodeStore) (c : Nat) : Option Nat :=
  match s.cells[c]? with
  | some cell => cell.fParent
  | none => none

/-- The stores that are built from freshly constructed nodes by successful
`addChild` calls. -/
inductive NodeStore.Built : NodeStore → Prop where
  | empty : NodeStore.Built NodeStore.empty
  | newNode (s : NodeStore) (feature : GxfFeature) :
      NodeStore.Built s → NodeStore.Built (s.newNode feature).1
  | addChild (s s' : NodeStore) (this node : Nat) :
      NodeStore.Built s → s.addChild this node = .ok s' → NodeStore.Built s'

/-! ## transcriptMapper.cc

`transcriptMapper.cc` names the tree node class `Feature`; it is the node
class that featureTree.hh declares as `FeatureNode`. -/

/-- `TranscriptMapper::getExons`: the records that `getMatching` collects
with the filter `f->getType() == GxfFeature::EXON`, starting from an empty
vector. -/
def getExons (transcript : FeatureNode) : List GxfFeature :=
  FeatureNode.getMatching (fun f => decide (f.getType = GxfFeature.EXON)) transcript []

/-- The exon set in the words of the specification: the records of the
transcript's direct children whose type is exon, in child-list order. -/
def directExonChildren (transcript : FeatureNode) : List GxfFeature :=
  (transcript.fChildren.map FeatureNode.fFeature).filter
    (fun f => decide (f.getType = GxfFeature.EXON))

/-- Alignment record (`struct psl` of the kent library): the fields that a
query/target alignment names. -/
structure Psl where
  qName : String
  qSize : Int
  qStart : Int
  qEnd : Int
  tName : String
  tStart : Int
  tEnd : Int
  strand : String
  deriving DecidableEq, Repr, Inhabited

/-- Modelled from the spec: `PslMapping` (pslMapping.hh is absent), the result
of projecting a set of features: the query-space representation `fSrcPsl`
and the candidate target projections `fMappedPsls` in rank order, the
first-ranked one being the primary mapping. -/
structure PslMapping where
  fSrcPsl : Psl
  fMappedPsls : List Psl
  deriving DecidableEq, Repr, Inhabited

/-- Modelled from the spec: `PslMapping::getSrcPsl` (pslMapping.hh is absent),
the query-space representation. -/
def PslMapping.getSrcPsl (m : PslMapping) : Option Psl := some m.fSrcPsl

/-- Modelled from the spec: `PslMapping::getMappedPsls` (pslMapping.hh is
absent), all candidate target projections. -/
def PslMapping.getMappedPsls (m : PslMapping) : List Psl := m.fMappedPsls

/-- Modelled from the spec: `PslMapping::haveMappings` (pslMapping.hh is
absent), whether a valid projection remains. -/
def PslMapping.haveMappings (m : PslMapping) : Bool := !m.fMappedPsls.isEmpty

/-- Modelled from the spec: `PslMapping::getMappedPsl` (pslMapping.hh is
absent), the one projection designated primary, `NULL` when there is none. -/
def PslMapping.getMappedPsl (m : PslMapping) : Option Psl := m.fMappedPsls.head?

/-- Modelled from the spec: `TransMap` (transMap.hh is absent), a coordinate
mapping built by `TransMap::factoryFromPsls` from an alignment, with query
and target swapped when `swapMap` is set; it is represented by the arguments
it was built from. -/
structure TransMap where
  psls : Option Psl
  swapMap : Bool
  deriving DecidableEq, Repr, Inhabited

/-- `TransMap::factoryFromPsls(psls, swapMap)`. -/
def TransMap.factoryFromPsls (psls : Option Psl) (swapMap : Bool) : TransMap :=
  ⟨psls, swapMap⟩

/-- Modelled from the spec: `FeatureTransMap` (featureTransMap.hh is absent),
the alignment-interval mapper over one coordinate mapping or a composition
of several; it is represented by the mappings it was built from. -/
structure FeatureTransMap where
  transMaps : List TransMap
  deriving DecidableEq, Repr, Inhabited

/-- Modelled from the spec: `ResultFeatures` (its declaration is absent), the
transcript-bounding pair: the source node, the mapped-output record and the
unmapped-output record, either of which may be absent. -/
structure ResultFeatures where
  src : FeatureNode
  mapped : Option FeatureNode
  unmapped : Option FeatureNode

/-- Modelled from the spec: the constructor `ResultFeatures(src)` (its
declaration is absent): a pair with no output record yet. -/
def ResultFeatures.new (src : FeatureNode) : ResultFeatures := ⟨src, none, none⟩

/-- The functions that transcriptMapper.cc calls and whose code is absent,
taken as parameters; `τ` is the type `TransMappedFeature`.
* `mapFeatures`, `mapFeature`: `FeatureTransMap::mapFeatures` and
  `FeatureTransMap::mapFeature`, the alignment-interval mapper;
* `sortMappedPsls`: `PslMapping::sortMappedPsls(targetTranscript, targetGene)`;
* `pslQueryFullyMapped`, `pslTStrand`: the alignment predicates;
* `mapBounding`, `mapBoundingSrc`: the two overloads of
  `FeatureMapper::mapBounding`, with target coordinates and without;
* `map`, `updateParents`: `FeatureMapper::map`, `FeatureMapper::updateParents`;
* `ofResult`: the constructor `TransMappedFeature(ResultFeatures)`;
* `setRemapStatus`: `TransMappedFeature::setRemapStatus(srcSeqInMapping)`;
* `boundingOf`: the bounding pair as it stands once children were linked
  through the `TransMappedFeature` that shares its records;
* `setBoundingFeatureRemapStatus`, `setNumMappingsAttr`: the methods of
  `ResultFeatures`. -/
structure Collaborators (τ : Type) where
  mapFeatures : FeatureTransMap → String → List GxfFeature → Option PslMapping
  mapFeature : FeatureTransMap → String → FeatureNode → Option PslMapping
  sortMappedPsls : PslMapping → Option FeatureNode → Option FeatureNode → PslMapping
  pslQueryFullyMapped : Psl → Bool
  pslTStrand : Psl → Char
  mapBounding : FeatureNode → String → Int → Int → String → FeatureNode
  mapBoundingSrc : FeatureNode → FeatureNode
  map : FeatureNode → Option PslMapping → τ
  updateParents : τ → τ → τ
  ofResult : ResultFeatures → τ
  setRemapStatus : τ → Bool → τ
  boundingOf : ResultFeatures → τ → ResultFeatures
  setBoundingFeatureRemapStatus : ResultFeatures → Bool → ResultFeatures
  setNumMappingsAttr : ResultFeatures → ResultFeatures

/-- The fields of `class TranscriptMapper` (the target annotation set is
only used by the constructor). -/
structure TranscriptMapper where
  fGenomeTransMap : TransMap
  fSrcSeqInMapping : Bool
  fExonsMapping : Option PslMapping
  fVaiExonsTransMaps : List TransMap
  fViaExonsFeatureTransMap : Option FeatureTransMap
  fTargetGene : Option FeatureNode
  fTargetTranscript : Option FeatureNode

/-- The value of `attr->getVal()` for an attribute reference obtained from a
lookup; an attribute without values has no value at index 0. -/
def attrGetVal (a : AttrVal) : Except GxfError String :=
  match a.getVal with
  | some v => .ok v
  | none => .error (.out_of_range "fVals[0]")

/-- `GxfFeature::getAttr`: `fAttrs.get(name)`. -/
def GxfFeature.getAttr (f : GxfFeature) (name : String) : Except GxfError AttrVal :=
  AttrVals.get f.fAttrs name

/-- `GxfFeature::findAttr`: `fAttrs.find(name)`. -/
def GxfFeature.findAttr (f : GxfFeature) (name : String) : Option AttrVal :=
  AttrVals.find f.fAttrs name

/-- `GxfFeature::getAttrValue(name)`: `getAttr(name)->getVal()`. -/
def GxfFeature.getAttrValue (f : GxfFeature) (name : String) : Except GxfError String :=
  match f.getAttr name with
  | .error e => .error e
  | .ok a => attrGetVal a

/-- `TranscriptMapper::allExonsTransMap`: the exon mapping of the transcript,
`NULL` if there are no mappings.  The mapper is `FeatureTransMap(fGenomeTransMap)`
and the ranking uses `fTargetTranscript` and `fTargetGene`; the debugging dump
has no effect on the result. -/
def allExonsTransMap {τ : Type} (env : Collaborators τ) (fGenomeTransMap : TransMap)
    (fTargetTranscript fTargetGene : Option FeatureNode) (transcript : FeatureNode) :
    Except GxfError (Option PslMapping) :=
  match transcript.fFeature.getAttr GxfFeature.TRANSCRIPT_ID_ATTR with
  | .error e => .error e
  | .ok attr =>
    match attrGetVal attr with
    | .error e => .error e
    | .ok qName =>
      let exons := getExons transcript
      match env.mapFeatures ⟨[fGenomeTransMap]⟩ qName exons with
      | none => .ok none
      | some exonsMapping =>
        let exonsMapping := env.sortMappedPsls exonsMapping fTargetTranscript fTargetGene
        if !exonsMapping.haveMappings then .ok none else .ok (some exonsMapping)

/-- `TranscriptMapper::makeViaExonsTransMap`: the two mappings used for the
two level mapping via exons. -/
def makeViaExonsTransMap (exonsMapping : PslMapping) : List TransMap :=
  [TransMap.factoryFromPsls exonsMapping.getSrcPsl true,
   TransMap.factoryFromPsls exonsMapping.getMappedPsl false]

/-- The calls that the mapping of a transcript makes to the collaborators,
in the order made. -/
inductive Call where
  | project (featureId : String) (feature : GxfFeature)
  | map (feature : GxfFeature) (pslMapping : Option PslMapping)
  | setRemapStatus (feature : GxfFeature) (srcSeqInMapping : Bool)
  | setBoundingFeatureRemapStatus (feature : GxfFeature) (srcSeqInMapping : Bool)
  deriving DecidableEq, Repr, Inhabited

/-- A call that involves no projection: it is not a request to the via-exons
mapper, and if it is a `FeatureMapper::map` call the alignment handed over is
absent. -/
def Call.withoutProjection : Call → Bool
  | .project _ _ => false
  | .map _ pslMapping => pslMapping.isNone
  | _ => true

/-- The flag that a status computation was called with, if the call is one. -/
def Call.statusFlag : Call → Option Bool
  | .setRemapStatus _ srcSeqInMapping => some srcSeqInMapping
  | .setBoundingFeatureRemapStatus _ srcSeqInMapping => some srcSeqInMapping
  | _ => none

/-- The feature whose status a `setRemapStatus` call computes, if the call is
one. -/
def Call.statusFeature : Call → Option GxfFeature
  | .setRemapStatus feature _ => some feature
  | _ => none

/-- The feature whose status a `setBoundingFeatureRemapStatus` call computes,
if the call is one. -/
def Call.boundingFeature : Call → Option GxfFeature
  | .setBoundingFeatureRemapStatus feature _ => some feature
  | _ => none

/-- `TranscriptMapper::featurePslMap`, for the via-exons mapper `viaExons`
(the caller has checked that it is not `NULL`): the id used is the `ID`
attribute's value, or `someFeature`. -/
def featurePslMap {τ : Type} (env : Collaborators τ) (viaExons : FeatureTransMap)
    (feature : FeatureNode) : Except GxfError (Option PslMapping × List Call) :=
  match feature.fFeature.findAttr GxfFeature.ID_ATTR with
  | some idAttr =>
    match attrGetVal idAttr with
    | .error e => .error e
    | .ok featureId =>
      .ok (env.mapFeature viaExons featureId feature, [Call.project featureId feature.fFeature])
  | none =>
    .ok (env.mapFeature viaExons "someFeature" feature,
         [Call.project "someFeature" feature.fFeature])

/-- `TranscriptMapper::mapFeature`: map one feature; returns the mapped
feature set and the calls made. -/
def mapFeature {τ : Type} (env : Collaborators τ) (tm : TranscriptMapper)
    (feature : FeatureNode) : Except GxfError (τ × List Call) :=
  let projected : Except GxfError (Option PslMapping × List Call) :=
    match tm.fViaExonsFeatureTransMap with
    | some viaExons => featurePslMap env viaExons feature
    | none => .ok (none, [])
  match projected with
  | .error e => .error e
  | .ok (pslMapping, calls) =>
    let transMappedFeature := env.map feature pslMapping
    let transMappedFeature := env.setRemapStatus transMappedFeature tm.fSrcSeqInMapping
    .ok (transMappedFeature,
         calls ++ [Call.map feature.fFeature pslMapping,
                   Call.setRemapStatus feature.fFeature tm.fSrcSeqInMapping])

mutual
/-- `TranscriptMapper::mapFeatures`: recursively map the features below the
transcript. -/
def mapFeatures {τ : Type} (env : Collaborators τ) (tm : TranscriptMapper) :
    FeatureNode → Except GxfError (τ × List Call)
  | .mk f children s n m u a =>
    match mapFeature env tm (.mk f children s n m u a) with
    | .error e => .error e
    | .ok (transMappedFeature, calls) =>
      mapFeaturesChildren env tm children transMappedFeature calls
/-- The loop over the children, shared by `mapFeatures` and
`mapTranscriptFeatures`: map each child subtree and link it to the parent
set with `FeatureMapper::updateParents`. -/
def mapFeaturesChildren {τ : Type} (env : Collaborators τ) (tm : TranscriptMapper) :
    List FeatureNode → τ → List Call → Except GxfError (τ × List Call)
  | [], parent, calls => .ok (parent, calls)
  | child :: rest, parent, calls =>
    match mapFeatures env tm child with
    | .error e => .error e
    | .ok (childFeatures, childCalls) =>
      mapFeaturesChildren env tm rest (env.updateParents parent childFeatures)
        (calls ++ childCalls)
end

/-- `TranscriptMapper::mapTranscriptFeature`: create the transcript records
that cover the alignment.  `mappedPsl` is `NULL` when there is no exon
mapping or it has no primary mapped alignment; `charToString` makes the
one-character string of the target strand. -/
def mapTranscriptFeature {τ : Type} (env : Collaborators τ) (tm : TranscriptMapper)
    (transcript : FeatureNode) : ResultFeatures :=
  let mappedTranscript := ResultFeatures.new transcript
  match tm.fExonsMapping with
  | none =>
    -- mappedPsl is NULL
    { mappedTranscript with unmapped := some (env.mapBoundingSrc transcript) }
  | some exonsMapping =>
    match exonsMapping.getMappedPsl with
    | none =>
      { mappedTranscript with unmapped := some (env.mapBoundingSrc transcript) }
    | some mappedPsl =>
      let mapped := (env.mapBounding transcript mappedPsl.tName mappedPsl.tStart
        mappedPsl.tEnd (String.singleton (env.pslTStrand mappedPsl))).setNumMappings
          (Int.ofNat exonsMapping.getMappedPsls.length)
      let mappedTranscript := { mappedTranscript with mapped := some mapped }
      if !env.pslQueryFullyMapped mappedPsl then
        { mappedTranscript with unmapped := some (env.mapBoundingSrc transcript) }
      else mappedTranscript

/-- Modelled from the spec: `AnnotationSet::getFeatureById` (annotationSet.hh
is absent), the target annotation lookup by identifier and sequence id. -/
abbrev AnnotationSet := String → String → Option FeatureNode

/-- The constructor `TranscriptMapper::TranscriptMapper`; writing the mapped
alignments to `transcriptPslFh` does not change the mapper. -/
def TranscriptMapper.new {τ : Type} (env : Collaborators τ) (genomeTransMap : TransMap)
    (transcript : FeatureNode) (targetAnnotations : Option AnnotationSet)
    (srcSeqInMapping : Bool) : Except GxfError TranscriptMapper :=
  if transcript.fFeature.getType ≠ GxfFeature.TRANSCRIPT then
    .error (.assertion "transcript->getType() == GxfFeature::TRANSCRIPT")
  else
    let targets : Except GxfError (Option FeatureNode × Option FeatureNode) :=
      match targetAnnotations with
      | none => .ok (none, none)
      | some getFeatureById =>
        match transcript.fFeature.getAttrValue GxfFeature.GENE_ID_ATTR with
        | .error e => .error e
        | .ok geneId =>
          match transcript.fFeature.getAttrValue GxfFeature.TRANSCRIPT_ID_ATTR with
          | .error e => .error e
          | .ok transcriptId =>
            .ok (getFeatureById geneId transcript.fFeature.fSeqid,
                 getFeatureById transcriptId transcript.fFeature.fSeqid)
    match targets with
    | .error e => .error e
    | .ok (fTargetGene, fTargetTranscript) =>
      match allExonsTransMap env genomeTransMap fTargetTranscript fTargetGene transcript with
      | .error e => .error e
      | .ok none =>
        .ok ⟨genomeTransMap, srcSeqInMapping, none, [], none, fTargetGene, fTargetTranscript⟩
      | .ok (some exonsMapping) =>
        let fVaiExonsTransMaps := makeViaExonsTransMap exonsMapping
        .ok ⟨genomeTransMap, srcSeqInMapping, some exonsMapping, fVaiExonsTransMaps,
             some ⟨fVaiExonsTransMaps⟩, fTargetGene, fTargetTranscript⟩

/-- `TranscriptMapper::mapTranscriptFeatures`: map one transcript's
annotations; returns the bounding pair and the calls made. -/
def mapTranscriptFeatures {τ : Type} (env : Collaborators τ) (tm : TranscriptMapper)
    (transcript : FeatureNode) : Except GxfError (ResultFeatures × List Call) :=
  let mappedTranscript := mapTranscriptFeature env tm transcript
  let mappedTranscriptSet := env.ofResult mappedTranscript
  match mapFeaturesChildren env tm transcript.fChildren mappedTranscriptSet [] with
  | .error e => .error e
  | .ok (mappedTranscriptSet, calls) =>
    let mappedTranscript := env.boundingOf mappedTranscript mappedTranscriptSet
    let mappedTranscript := env.setBoundingFeatureRemapStatus mappedTranscript tm.fSrcSeqInMapping
    let mappedTranscript := env.setNumMappingsAttr mappedTranscript
    .ok (mappedTranscript,
         calls ++ [Call.setBoundingFeatureRemapStatus transcript.fFeature tm.fSrcSeqInMapping])

/-! ## A concrete instance for evaluating the mapper -/

/-- A small instance of the collaborators on which the mapper can be
evaluated: the alignment-interval mapper answers every request with the
given `result`, ranking keeps the order, an alignment is fully mapped when it
covers its whole query, bounding records are fresh nodes carrying the target
or the source coordinates, and a `TransMappedFeature` is the list of the
source records linked into it. -/
def exampleCollaborators (result : Option PslMapping) : Collaborators (List GxfFeature) where
  mapFeatures := fun _ _ _ => result
  mapFeature := fun _ _ _ => result
  sortMappedPsls := fun m _ _ => m
  pslQueryFullyMapped := fun psl => decide (psl.qStart = 0 ∧ psl.qEnd = psl.qSize)
  pslTStrand := fun psl => if psl.strand.data.getD 1 '+' = '-' then '-' else '+'
  mapBounding := fun t seqid tStart tEnd strand =>
    FeatureNode.new { t.fFeature with fSeqid := seqid, fStart := tStart + 1, fEnd := tEnd,
                                      fStrand := strand }
  mapBoundingSrc := fun t => FeatureNode.new t.fFeature
  map := fun feature _ => [feature.fFeature]
  updateParents := fun parent child => parent ++ child
  ofResult := fun r => [r.src.fFeature]
  setRemapStatus := fun t _ => t
  boundingOf := fun r _ => r
  setBoundingFeatureRemapStatus := fun r _ => r
  setNumMappingsAttr := fun r => r

/-- A feature record on `chr1`, strand `+`, with the given type, span and
attributes. -/
def exampleFeature (type : String) (fStart fEnd : Int) (attrs : AttrVals) : GxfFeature :=
  ⟨"chr1", "HAVANA", type, fStart, fEnd, ".", "+", ".", attrs⟩

/-- A childless node holding `exampleFeature type fStart fEnd []`. -/
def exampleLeaf (type : String) (fStart fEnd : Int) : FeatureNode :=
  FeatureNode.new (exampleFeature type fStart fEnd [])

/-- A transcript with `transcript_id` `ENST01.1` and two exon children. -/
def exampleTranscript : FeatureNode :=
  .mk (exampleFeature "transcript" 101 200 [⟨"transcript_id", ["ENST01.1"], false⟩])
    [exampleLeaf "exon" 101 120, exampleLeaf "exon" 181 200] REMAP_STATUS_NONE 0 [] [] []

/-- A transcript without a `transcript_id` attribute, with one exon child. -/
def exampleTranscriptNoId : FeatureNode :=
  .mk (exampleFeature "transcript" 101 200 [⟨"gene_id", ["ENSG01.1"], false⟩])
    [exampleLeaf "exon" 101 120] REMAP_STATUS_NONE 0 [] [] []

/-- A transcript whose `CDS` child holds an exon of its own. -/
def exampleTranscriptNested : FeatureNode :=
  .mk (exampleFeature "transcript" 101 200 [⟨"transcript_id", ["ENST01.1"], false⟩])
    [exampleLeaf "exon" 101 120,
     .mk (exampleFeature "CDS" 105 120 []) [exampleLeaf "exon" 105 110] REMAP_STATUS_NONE 0 [] [] []]
    REMAP_STATUS_NONE 0 [] [] []

/-- Three freshly constructed nodes: a gene at address 0, a transcript at
address 1 and an exon at address 2. -/
def exampleStoreFresh : NodeStore :=
  (((NodeStore.empty.newNode (exampleFeature "gene" 101 200 [])).1.newNode
    (exampleFeature "transcript" 101 200 [])).1.newNode (exampleFeature "exon" 101 120 [])).1

/-- The three nodes after the gene's `addChild(transcript)`. -/
def exampleStoreLinked : NodeStore :=
  ⟨[⟨exampleFeature "gene" 101 200 [], none, [1]⟩,
    ⟨exampleFeature "transcript" 101 200 [], some 0, []⟩,
    ⟨exampleFeature "exon" 101 120 [], none, []⟩]⟩

/-- An alignment of a 40 base query, all of it aligned, to `chr1:1100-1200`. -/
def examplePslFull : Psl := ⟨"ENST01.1", 40, 0, 40, "chr1", 1100, 1200, "++"⟩

/-- An alignment of a 40 base query, of which 30 bases are aligned, to
`chrX:500-530` on the reverse strand. -/
def examplePslPart : Psl := ⟨"ENST01.1", 40, 0, 30, "chrX", 500, 530, "+-"⟩

/-- The query-space representation of the example transcript's exons. -/
def examplePslSrc : Psl := ⟨"ENST01.1", 40, 0, 40, "chr1", 100, 200, "+"⟩

/-- The identity genome mapping used in the examples. -/
def exampleGenomeTransMap : TransMap := ⟨none, false⟩

/-! ## featureTree.hh: output records of a node -/

/-- `FeatureNode::addMapped`: push the record on `fMappedFeatures` and on
`fAllOutputFeatures`. -/
def FeatureNode.addMapped : FeatureNode → GxfFeature → FeatureNode
  | .mk f c s n m u a, mappedFeature => .mk f c s n (m ++ [mappedFeature]) u (a ++ [mappedFeature])

/-- `FeatureNode::addUnmapped`: push the record on `fUnmappedFeatures` and on
`fAllOutputFeatures`. -/
def FeatureNode.addUnmapped : FeatureNode → GxfFeature → FeatureNode
  | .mk f c s n m u a, unmappedFeature =>
    .mk f c s n m (u ++ [unmappedFeature]) (a ++ [unmappedFeature])

/-- One call that adds an output record to a node. -/
inductive OutputCall where
  | addMapped (feature : GxfFeature)
  | addUnmapped (feature : GxfFeature)
  deriving DecidableEq, Repr, Inhabited

/-- The record that the call adds. -/
def OutputCall.feature : OutputCall → GxfFeature
  | .addMapped f => f
  | .addUnmapped f => f

/-- The record, if the call is an `addMapped`. -/
def OutputCall.mapped? : OutputCall → Option GxfFeature
  | .addMapped f => some f
  | .addUnmapped _ => none

/-- The record, if the call is an `addUnmapped`. -/
def OutputCall.unmapped? : OutputCall → Option GxfFeature
  | .addMapped _ => none
  | .addUnmapped f => some f

/-- Make one call on a node. -/
def FeatureNode.outputCall (node : FeatureNode) : OutputCall → FeatureNode
  | .addMapped f => node.addMapped f
  | .addUnmapped f => node.addUnmapped f

/-- Make a sequence of calls on a node, in order. -/
def FeatureNode.outputCalls (node : FeatureNode) (calls : List OutputCall) : FeatureNode :=
  calls.foldl FeatureNode.outputCall node

/-! ## gxf.hh: size and overlap of feature records -/

/-- The value of a C++ `int` (32 bits, two's complement) congruent to `x`:
what signed arithmetic yields when the exact result `x` does not fit, where
C++ leaves the result undefined. -/
def wrapInt32 (x : Int) : Int := (x + 2147483648) % 4294967296 - 2147483648

/-- Whether `x` is a value of the C++ type `int`. -/
def isInt32 (x : Int) : Prop := -2147483648 ≤ x ∧ x ≤ 2147483647

instance (x : Int) : Decidable (isInt32 x) := by unfold isInt32; infer_instance

/-- `GxfFeature::size`: `(fEnd - fStart)+1`, computed in `int`. -/
def GxfFeature.size (f : GxfFeature) : Int :=
  wrapInt32 (wrapInt32 (f.fEnd - f.fStart) + 1)

/-- `GxfFeature::overlaps`. -/
def GxfFeature.overlaps (f other : GxfFeature) : Bool :=
  if f.fSeqid ≠ other.fSeqid ∨ f.fStrand ≠ other.fStrand then false
  else if f.fStart > other.fEnd ∨ f.fEnd < other.fStart then false
  else true

/-! ## gxf.hh: construction and update of attributes -/

/-- Modelled from the spec: `stringEmpty` (typeOps.hh is absent), whether the
string is empty. -/
def stringEmpty (s : String) : Bool := s.data.isEmpty

/-- `AttrVal::checkName`. -/
def AttrVal.checkName (name : String) : Except GxfError Unit :=
  if stringEmpty name then .error (.invalid_argument "empty attribute name") else .ok ()

/-- `AttrVal::checkVal`. -/
def AttrVal.checkVal (val : String) : Except GxfError Unit :=
  if stringEmpty val then .error (.invalid_argument "empty attribute value") else .ok ()

/-- The loop of the vector constructor: `checkVal` on each value in order. -/
def AttrVal.checkVals : List String → Except GxfError Unit
  | [] => .ok ()
  | v :: rest =>
    match AttrVal.checkVal v with
    | .error e => .error e
    | .ok () => AttrVal.checkVals rest

/-- The constructor `AttrVal(name, val, quoted)`. -/
def AttrVal.new (name val : String) (quoted : Bool) : Except GxfError AttrVal :=
  match AttrVal.checkName name with
  | .error e => .error e
  | .ok () =>
    match AttrVal.checkVal val with
    | .error e => .error e
    | .ok () => .ok ⟨name, [val], quoted⟩

/-- The constructor `AttrVal(name, vals, quoted)`. -/
def AttrVal.newVals (name : String) (vals : List String) (quoted : Bool) :
    Except GxfError AttrVal :=
  match AttrVal.checkName name with
  | .error e => .error e
  | .ok () =>
    match AttrVal.checkVals vals with
    | .error e => .error e
    | .ok () => .ok ⟨name, vals, quoted⟩

/-- `AttrVal::addVal`. -/
def AttrVal.addVal (a : AttrVal) (val : String) : Except GxfError AttrVal :=
  match AttrVal.checkVal val with
  | .error e => .error e
  | .ok () => .ok { a with fVals := a.fVals ++ [val] }

/-- The copy constructor `AttrVal(const AttrVal& src)`. -/
def AttrVal.copy (src : AttrVal) : AttrVal := ⟨src.fName, src.fVals, src.fQuoted⟩

/-- The attributes that exist: those made by one of the two constructors,
and from these by `addVal` and by copying. -/
inductive AttrVal.Constructed : AttrVal → Prop where
  | new (name val : String) (quoted : Bool) (a : AttrVal) :
      AttrVal.new name val quoted = .ok a → AttrVal.Constructed a
  | newVals (name : String) (vals : List String) (quoted : Bool) (a : AttrVal) :
      AttrVal.newVals name vals quoted = .ok a → AttrVal.Constructed a
  | addVal (a b : AttrVal) (val : String) :
      AttrVal.Constructed a → a.addVal val = .ok b → AttrVal.Constructed b
  | copy (a : AttrVal) : AttrVal.Constructed a → AttrVal.Constructed a.copy

/-- `AttrVals::add`: push a copy of the attribute. -/
def AttrVals.add (attrs : AttrVals) (attrVal : AttrVal) : AttrVals :=
  attrs ++ [attrVal.copy]

/-- `AttrVals::update`: add the attribute, or replace the entry at
`findIdx(attrVal.getName())` by a copy of it. -/
def AttrVals.update (attrs : AttrVals) (attrVal : AttrVal) : AttrVals :=
  let idx := AttrVals.findIdx attrs attrVal.getName
  if idx < 0 then AttrVals.add attrs attrVal
  else attrs.set idx.toNat attrVal.copy

/-- `GxfFeature::hasAttr`. -/
def GxfFeature.hasAttr (f : GxfFeature) (name : String) : Bool :=
  AttrVals.exists f.fAttrs name

/-- `GxfFeature::getAttrValue(name, defaultVal)`: the first value of the
attribute, or the default if the attribute does not exist. -/
def GxfFeature.getAttrValueDefault (f : GxfFeature) (name defaultVal : String) :
    Except GxfError String :=
  match f.findAttr name with
  | none => .ok defaultVal
  | some attrVal => attrGetVal attrVal

/-! ## typeOps.hh: string helpers

The string helpers that gxf.hh and gxfIO.cc call are declared in typeOps.hh.
A C++ `string` is a `String`, read through its list of characters. -/

/-- Modelled from the spec: `stringStartsWith(str, pre)` (typeOps.hh is
absent), whether `str` begins with `pre`. -/
def stringStartsWith (str pre : String) : Bool := pre.data.isPrefixOf str.data

/-- Modelled from the spec: `stringEndsWith(str, suf)` (typeOps.hh is absent),
whether `str` ends with `suf`. -/
def stringEndsWith (str suf : String) : Bool := suf.data.isSuffixOf str.data

/-- Modelled from the spec: `stringSplit(str, sep)` (typeOps.hh is absent), the
texts between the occurrences of the separator, so one more than there are
separators: gxfIO.cc relies on the last one being empty when the text ends
with the separator, and on at least one being returned. -/
def stringSplit (str : String) (sep : Char) : List String :=
  (str.data.splitOn sep).map String.mk

/-- The white space characters of C (`isspace`). -/
def isSpace (c : Char) : Bool :=
  c = ' ' || c = '\t' || c = '\n' || c = '\x0b' || c = '\x0c' || c = '\r'

/-- Modelled from the spec: `stringTrim(str)` (typeOps.hh is absent), the text
without its leading and trailing white space. -/
def stringTrim (str : String) : String :=
  ⟨(str.data.dropWhile isSpace).rdropWhile isSpace⟩

/-- `string::find(c)`: the index of the first occurrence of the character,
`npos` (here `none`) if there is none. -/
def stringFind (str : String) (c : Char) : Option Nat :=
  if c ∈ str.data then some (str.data.indexOf c) else none

/-- `string::substr(pos, len)`. -/
def stringSubstr (str : String) (pos len : Nat) : String := ⟨(str.data.drop pos).take len⟩

/-- `string::substr(pos)`. -/
def stringSubstrFrom (str : String) (pos : Nat) : String := ⟨str.data.drop pos⟩

/-! ## gxfIO.cc: attribute columns -/

/-- `isQuoted`: longer than one character, starting and ending with a double
quote. -/
def isQuoted (s : String) : Bool :=
  decide (s.data.length > 1) && (s.data.head? == some '"') && (s.data.getLast? == some '"')

/-- The loop of `isNumeric`: the number of dots counted, `none` as soon as a
character is neither a dot nor a digit. -/
def isNumeric.loop : List Char → Nat → Option Nat
  | [], dotCount => some dotCount
  | c :: rest, dotCount =>
    if c = '.' then isNumeric.loop rest (dotCount + 1)
    else if !c.isDigit then none
    else isNumeric.loop rest dotCount

/-- `isNumeric`: only digits and at most one dot. -/
def isNumeric (s : String) : Bool :=
  match isNumeric.loop s.data 0 with
  | none => false
  | some dotCount => if dotCount > 1 then false else true

/-- `stripQuotes`: strip optional quotes. -/
def stripQuotes (s : String) : String :=
  if isQuoted s then stringSubstr s 1 (s.data.length - 2) else s

/-- Modelled from the spec: the value of `GxfFeature::PARENT_ATTR` (gxf.hh
declares the constant, the file that defines it is absent): the parent id
attribute `Parent` of the dialect that links records by id and parent id. -/
def GxfFeature.PARENT_ATTR : String := "Parent"

/-- Modelled from the spec: the value of `GxfFeature::TAG_ATTR` (its
definition is absent): the attribute `tag`. -/
def GxfFeature.TAG_ATTR : String := "tag"

/-- `isParIdNonUniqAttr`: is this an attribute that must be made unique in
GTF. -/
def isParIdNonUniqAttr (name : String) : Bool :=
  name == GxfFeature.GENE_ID_ATTR || name == GxfFeature.TRANSCRIPT_ID_ATTR

/-- The loop of `Gff3Parser::parseAttr` over `values[1..]`: `addVal` each. -/
def Gff3Parser.addVals (attrVal : AttrVal) : List String → Except GxfError AttrVal
  | [] => .ok attrVal
  | v :: rest =>
    match attrVal.addVal v with
    | .error e => .error e
    | .ok attrVal => Gff3Parser.addVals attrVal rest

/-- `Gff3Parser::parseAttr`: parse `name=value,value` and push the attribute
on the list. -/
def Gff3Parser.parseAttr (attrStr : String) (attrVals : AttrVals) : Except GxfError AttrVals :=
  match stringFind attrStr '=' with
  | none => .error (.invalid_argument ("Invalid GFF3 attribute \"" ++ attrStr ++ "\""))
  | some i =>
    let name := stringSubstr attrStr 0 i
    let value := stripQuotes (stringSubstrFrom attrStr (i + 1))
    match stringSplit value ',' with
    | [] => .error (.out_of_range "values[0]")
    | v0 :: rest =>
      match AttrVal.new name v0 false with
      | .error e => .error e
      | .ok attrVal =>
        match Gff3Parser.addVals attrVal rest with
        | .error e => .error e
        | .ok attrVal => .ok (attrVals ++ [attrVal])

/-- The loop of `Gff3Parser::parseAttrs` over the parts. -/
def Gff3Parser.parseParts : List String → AttrVals → Except GxfError AttrVals
  | [], attrVals => .ok attrVals
  | part :: rest, attrVals =>
    match Gff3Parser.parseAttr (stringTrim part) attrVals with
    | .error e => .error e
    | .ok attrVals => Gff3Parser.parseParts rest attrVals

/-- `Gff3Parser::parseAttrs`: `;` is a separator. -/
def Gff3Parser.parseAttrs (attrsStr : String) : Except GxfError AttrVals :=
  Gff3Parser.parseParts (stringSplit attrsStr ';') []

/-- `GtfParser::removeParUniqHack`: if a value has a non-unique hack, remove
it. -/
def GtfParser.removeParUniqHack (value : String) : String :=
  if stringStartsWith value "ENSGR" || stringStartsWith value "ENSTR" then
    stringSubstr value 0 4 ++ "0" ++ stringSubstrFrom value 5
  else if stringEndsWith value "_PAR_Y" then
    stringSubstr value 0 (value.data.length - 6)
  else value

/-- The end of `GtfParser::parseAttr`: add the value to the attribute found
by `findIdx(name)`, or push a new attribute if there is none. -/
def GtfParser.storeValue (name value : String) (attrVals : AttrVals) :
    Except GxfError AttrVals :=
  let idx := AttrVals.findIdx attrVals name
  if idx ≥ 0 then
    match attrVals.get? idx.toNat with
    | none => .error (.out_of_range "attrVals[idx]")
    | some attrVal =>
      match attrVal.addVal value with
      | .error e => .error e
      | .ok attrVal => .ok (attrVals.set idx.toNat attrVal)
  else
    match AttrVal.new name value false with
    | .error e => .error e
    | .ok attrVal => .ok (attrVals ++ [attrVal])

/-- `GtfParser::parseAttr`: parse `name value` and add the value to the
attribute of that name, or push a new attribute. -/
def GtfParser.parseAttr (attrStr : String) (attrVals : AttrVals) : Except GxfError AttrVals :=
  match stringFind attrStr ' ' with
  | none => .error (.invalid_argument ("Invalid GTF attribute \"" ++ attrStr ++ "\""))
  | some i =>
    let name := stringSubstr attrStr 0 i
    let value := stripQuotes (stringSubstrFrom attrStr (i + 1))
    let value := if isParIdNonUniqAttr name then GtfParser.removeParUniqHack value else value
    GtfParser.storeValue name value attrVals

/-- The loop of `GtfParser::parseAttrs` over the parts. -/
def GtfParser.parseParts : List String → AttrVals → Except GxfError AttrVals
  | [], attrVals => .ok attrVals
  | part :: rest, attrVals =>
    match GtfParser.parseAttr (stringTrim part) attrVals with
    | .error e => .error e
    | .ok attrVals => GtfParser.parseParts rest attrVals

/-- `GtfParser::parseAttrs`: `;` is a terminator, the loop runs over the
parts `0 .. parts.size()-2` and leaves the last part out (`stringSplit`
returns at least one part). -/
def GtfParser.parseAttrs (attrsStr : String) : Except GxfError AttrVals :=
  GtfParser.parseParts (stringSplit attrsStr ';').dropLast []

/-- The loop of `Gff3Writer::formatAttr` from value index `i`. -/
def Gff3Writer.formatAttr.loop : List String → Nat → String → String
  | [], _, strAttr => strAttr
  | v :: rest, i, strAttr =>
    Gff3Writer.formatAttr.loop rest (i + 1) ((if i > 0 then strAttr ++ "," else strAttr) ++ v)

/-- `Gff3Writer::formatAttr`: `name=value,value`. -/
def Gff3Writer.formatAttr (attrVal : AttrVal) : String :=
  Gff3Writer.formatAttr.loop attrVal.getVals 0 (attrVal.getName ++ "=")

/-- The loop of `Gff3Writer::formatAttrs` from attribute index `i`. -/
def Gff3Writer.formatAttrs.loop : List AttrVal → Nat → String → String
  | [], _, strAttrs => strAttrs
  | a :: rest, i, strAttrs =>
    Gff3Writer.formatAttrs.loop rest (i + 1)
      ((if i > 0 then strAttrs ++ ";" else strAttrs) ++ Gff3Writer.formatAttr a)

/-- `Gff3Writer::formatAttrs`: the attributes separated by `;`. -/
def Gff3Writer.formatAttrs (attrVals : AttrVals) : String :=
  Gff3Writer.formatAttrs.loop attrVals 0 ""

/-- Modelled from the spec: `ParIdHackMethod` (gxfIO.hh is absent), the two
ways to make an identifier of the pseudoautosomal region unique: the old one
that changes the prefix and the one that appends `_PAR_Y`. -/
inductive ParIdHackMethod where
  | PAR_ID_HACK_OLD
  | PAR_ID_HACK_NEW
  deriving DecidableEq, Repr, Inhabited

/-- `GtfWriter::hasParYTag`: does the `tag` attribute have the value `PAR`. -/
def GtfWriter.hasParYTag (attrVals : AttrVals) : Bool :=
  match AttrVals.find attrVals GxfFeature.TAG_ATTR with
  | some tagAttr => tagAttr.fVals.any (fun v => v == "PAR")
  | none => false

/-- `GtfWriter::addParUniqHack`: modify an id in the PAR; the old method
asserts `id[5] == '0'`. -/
def GtfWriter.addParUniqHack (fParIdHackMethod : ParIdHackMethod) (id : String) :
    Except GxfError String :=
  if fParIdHackMethod = .PAR_ID_HACK_OLD then
    if id.data.length < 5 then .error (.out_of_range "id[5]")
    else if id.data.get? 5 = some '0' then
      .ok (stringSubstr id 0 4 ++ "R" ++ stringSubstrFrom id 5)
    else .error (.assertion "id[5] == '0'")
  else .ok (id ++ "_PAR_Y")

/-- `GtfWriter::formatAttr(name, val, isParY)`: one `name value` pair, the
value quoted unless numeric. -/
def GtfWriter.formatAttrVal (fParIdHackMethod : ParIdHackMethod) (name val : String)
    (isParY : Bool) : Except GxfError String :=
  let numericAttr := isNumeric val
  let strAttr := name ++ " "
  let strAttr := if !numericAttr then strAttr ++ "\"" else strAttr
  let hacked : Except GxfError String :=
    if isParY && isParIdNonUniqAttr name then
      match GtfWriter.addParUniqHack fParIdHackMethod val with
      | .error e => .error e
      | .ok id => .ok (strAttr ++ id)
    else .ok (strAttr ++ val)
  match hacked with
  | .error e => .error e
  | .ok strAttr => .ok (if !numericAttr then strAttr ++ "\"" else strAttr)

/-- The loop of `GtfWriter::formatAttr(attrVal, isParY)` from value index `i`. -/
def GtfWriter.formatAttr.loop (fParIdHackMethod : ParIdHackMethod) (name : String)
    (isParY : Bool) : List String → Nat → String → Except GxfError String
  | [], _, strAttr => .ok strAttr
  | v :: rest, i, strAttr =>
    match GtfWriter.formatAttrVal fParIdHackMethod name v isParY with
    | .error e => .error e
    | .ok s =>
      GtfWriter.formatAttr.loop fParIdHackMethod name isParY rest (i + 1)
        ((if i > 0 then strAttr ++ " " else strAttr) ++ (s ++ ";"))

/-- `GtfWriter::formatAttr(attrVal, isParY)`: a pair for each value, each
terminated by `;`. -/
def GtfWriter.formatAttr (fParIdHackMethod : ParIdHackMethod) (attrVal : AttrVal)
    (isParY : Bool) : Except GxfError String :=
  GtfWriter.formatAttr.loop fParIdHackMethod attrVal.getName isParY attrVal.getVals 0 ""

/-- `GtfWriter::includeAttr`: drop the GFF3 linkage attributes. -/
def GtfWriter.includeAttr (attrVal : AttrVal) : Bool :=
  !(attrVal.getName == GxfFeature.ID_ATTR || attrVal.getName == GxfFeature.PARENT_ATTR
    || attrVal.getName == "remap_original_id")

/-- The loop of `GtfWriter::formatAttrs`. -/
def GtfWriter.formatAttrs.loop (fParIdHackMethod : ParIdHackMethod) (isParY : Bool) :
    List AttrVal → String → Except GxfError String
  | [], strAttrs => .ok strAttrs
  | a :: rest, strAttrs =>
    if GtfWriter.includeAttr a then
      match GtfWriter.formatAttr fParIdHackMethod a isParY with
      | .error e => .error e
      | .ok s =>
        GtfWriter.formatAttrs.loop fParIdHackMethod isParY rest
          ((if strAttrs.data.length > 0 then strAttrs ++ " " else strAttrs) ++ s)
    else GtfWriter.formatAttrs.loop fParIdHackMethod isParY rest strAttrs

/-- `GtfWriter::formatAttrs`. -/
def GtfWriter.formatAttrs (fParIdHackMethod : ParIdHackMethod) (attrVals : AttrVals) :
    Except GxfError String :=
  GtfWriter.formatAttrs.loop fParIdHackMethod (GtfWriter.hasParYTag attrVals) attrVals ""

/-! ## gxfIO.cc: reading records -/

/-- A record of a GxF file (`class GxfRecord`): a feature or a non-feature
line (`class GxfLine`). -/
inductive GxfRecord where
  | feature (f : GxfFeature)
  | line (l : String)
  deriving DecidableEq, Repr, Inhabited

/-- `GxfParser::splitFeatureLine`: split a feature line.  The statement under
`if (columns.size() != 9)` builds an `invalid_argument` and drops it, nothing
is thrown, so the columns are returned whatever their number. -/
def GxfParser.splitFeatureLine (line : String) : Except GxfError (List String) :=
  let columns := stringSplit line '\t'
  .ok columns

/-- `GxfParser::read`, given what `fIn->readLine` delivered (`none` at the end
of the file) and the dialect's `parseFeature`. -/
def GxfParser.read (parseFeature : List String → Except GxfError GxfFeature)
    (readLine : Option String) : Except GxfError (Option GxfRecord) :=
  match readLine with
  | none => .ok none
  | some line =>
    if line.data.length > 0 ∧ line.data.head? ≠ some '#' then
      match GxfParser.splitFeatureLine line with
      | .error e => .error e
      | .ok columns =>
        match parseFeature columns with
        | .error e => .error e
        | .ok f => .ok (some (.feature f))
    else .ok (some (.line line))

/-! ## Texts made of separated parts -/

/-- The concatenation of the texts, each preceded by the separator text:
what a loop of the form `if (i > 0) str += sep; str += part(i)` appends once
the first part is written. -/
def precededBy (sep : List Char) : List (List Char) → List Char
  | [] => []
  | x :: xs => sep ++ x ++ precededBy sep xs

/-- The concatenation of the texts with the separator text between them. -/
def separatedBy (sep : List Char) : List (List Char) → List Char
  | [] => []
  | x :: xs => x ++ precededBy sep xs

/-- The text that the values of the attribute form in a GFF3 attribute
column: the values with `,` between them. -/
def AttrVal.valuesText (a : AttrVal) : String :=
  ⟨separatedBy [','] (a.fVals.map String.data)⟩

/-- What every attribute that `Gff3Parser::parseAttrs` returns satisfies: it
is not flagged as quoted, its name is not empty, has no `=` and no `;` and
does not start with white space, and it has at least one value, each of them
not empty and without `,` and `;`. -/
def Gff3Parser.Parsed (a : AttrVal) : Prop :=
  a.fQuoted = false ∧ a.fName ≠ "" ∧ '=' ∉ a.fName.data ∧ ';' ∉ a.fName.data ∧
  (∀ c, a.fName.data.head? = some c → isSpace c = false) ∧
  a.fVals ≠ [] ∧ ∀ v ∈ a.fVals, v ≠ "" ∧ ',' ∉ v.data ∧ ';' ∉ v.data

/-- The attributes whose value text is read back as it is written by the
GFF3 writer: the text of the values is not enclosed in double quotes and
does not end with white space. -/
def Gff3Writer.ReadBack (a : AttrVal) : Prop :=
  isQuoted a.valuesText = false ∧
  ∀ c, a.valuesText.data.getLast? = some c → isSpace c = false

/-- The identifier text that the GTF writer emits for a value when no hack or
the `_PAR_Y` hack is applied: the value, followed by `_PAR_Y` for the gene
and transcript id of a record tagged `PAR`. -/
def GtfWriter.emittedValue (isParY : Bool) (name val : String) : String :=
  if isParY && isParIdNonUniqAttr name then val ++ "_PAR_Y" else val

/-- The `name value` pair that the GTF writer emits for a value, without the
terminating `;`: the emitted value is enclosed in double quotes unless the
value is numeric. -/
def GtfWriter.pairText (isParY : Bool) (name val : String) : List Char :=
  name.data ++ ' ' ::
    (if isNumeric val then (GtfWriter.emittedValue isParY name val).data
     else '"' :: (GtfWriter.emittedValue isParY name val).data ++ ['"'])

/-- The pairs that the GTF writer emits for the attributes, in order, one for
each value of each attribute. -/
def GtfWriter.pairTexts (isParY : Bool) : List AttrVal → List (List Char)
  | [] => []
  | a :: rest =>
    a.fVals.map (GtfWriter.pairText isParY a.fName) ++ GtfWriter.pairTexts isParY rest

/-- The value that the GTF parser makes of an emitted value: the PAR hack is
removed from a gene or transcript id. -/
def GtfParser.readValue (name emitted : String) : String :=
  if isParIdNonUniqAttr name then GtfParser.removeParUniqHack emitted else emitted

/-- What every attribute that `GtfParser::parseAttrs` returns satisfies: it is
not flagged as quoted, its name is not empty, has no space and no `;` and
does not start with white space, and it has at least one value, each of them
not empty and without `;`, and not starting with `ENSGR` or `ENSTR` when the
attribute is the gene or transcript id. -/
def GtfParser.Parsed (a : AttrVal) : Prop :=
  a.fQuoted = false ∧ a.fName ≠ "" ∧ ' ' ∉ a.fName.data ∧ ';' ∉ a.fName.data ∧
  (∀ c, a.fName.data.head? = some c → isSpace c = false) ∧
  a.fVals ≠ [] ∧ ∀ v ∈ a.fVals, v ≠ "" ∧ ';' ∉ v.data ∧
    (isParIdNonUniqAttr a.fName = true →
      stringStartsWith v "ENSGR" = false ∧ stringStartsWith v "ENSTR" = false)

/-- The parts into which the text of the pairs is split at `;`: the first
pair as it is, each further pair after the space that separates it from the
`;` before it. -/
def GtfWriter.spacedParts : List (List Char) → List (List Char)
  | [] => []
  | b :: rest => b :: rest.map (' ' :: ·)

/-! ## gxf.hh, gxfIO.cc: non-feature lines, the pending queue and the writer -/

/-- `GxfLine::toString`: a non-feature line is a string and returns itself. -/
def GxfLine.toString (line : String) : String := line

/-- `GxfWriter::write(const GxfRecord*)`, as the new content of the output
`fOut`: the dialect's `formatFeature` for a feature, `toString` for a record
of another kind, each followed by `endl`. -/
def GxfWriter.write (formatFeature : GxfFeature → Except GxfError String) (fOut : String) :
    GxfRecord → Except GxfError String
  | .feature f =>
    match formatFeature f with
    | .error e => .error e
    | .ok s => .ok (fOut ++ s ++ "\n")
  | .line l => .ok (fOut ++ GxfLine.toString l ++ "\n")

/-- The state of a `GxfParser`: the lines that the input stream `fIn` has
still to deliver, and the queue `fPending` of pushed records, front first. -/
structure GxfParser where
  fIn : List String
  fPending : List GxfRecord
  deriving DecidableEq, Repr, Inhabited

/-- `GxfParser::push`: return a record to be read before the file, at the back
of the queue. -/
def GxfParser.push (p : GxfParser) (gxfRecord : GxfRecord) : GxfParser :=
  { p with fPending := p.fPending ++ [gxfRecord] }

/-- One call of `fIn->readLine`: the next line of the stream and the state
after it, `none` at the end of the file. -/
def GxfParser.readLine (p : GxfParser) : Option String × GxfParser :=
  match p.fIn with
  | [] => (none, p)
  | line :: rest => (some line, { p with fIn := rest })

/-- `GxfParser::next`: the front of the queue if it is not empty, popped from
it, else what `read` makes of the next line of the file; `none` at the end
of the file. -/
def GxfParser.next (parseFeature : List String → Except GxfError GxfFeature)
    (p : GxfParser) : Except GxfError (Option GxfRecord × GxfParser) :=
  match p.fPending with
  | rec :: rest => .ok (some rec, { p with fPending := rest })
  | [] =>
    match GxfParser.read parseFeature p.readLine.1 with
    | .error e => .error e
    | .ok rec => .ok (rec, p.readLine.2)

/-- A sequence of `push` calls, in the order of the list. -/
def GxfParser.pushAll (p : GxfParser) : List GxfRecord → GxfParser
  | [] => p
  | r :: rest => GxfParser.pushAll (p.push r) rest

/-- The records returned by `n` calls of `next` in a row, and the state after
them. -/
def GxfParser.nextN (parseFeature : List String → Except GxfError GxfFeature) :
    Nat → GxfParser → Except GxfError (List (Option GxfRecord) × GxfParser)
  | 0, p => .ok ([], p)
  | n + 1, p =>
    match GxfParser.next parseFeature p with
    | .error e => .error e
    | .ok (r, p) =>
      match GxfParser.nextN parseFeature n p with
      | .error e => .error e
      | .ok (rs, p) => .ok (r :: rs, p)

/-- A feature parser for evaluating `read` and `next`: it takes the first
three columns and fails without a third one. -/
def exampleParseFeature (columns : List String) : Except GxfError GxfFeature :=
  match columns with
  | seqid :: source :: type :: _ => .ok ⟨seqid, source, type, 1, 1, ".", "+", ".", []⟩
  | _ => .error (.out_of_range "columns[2]")

/-! ## gxf.hh: base identifiers -/

/-- `string::find_last_of(c)`: the index of the last occurrence of the
character, `npos` (here `none`) if there is none. -/
def stringFindLastOf (str : String) (c : Char) : Option Nat :=
  if c ∈ str.data then some (str.data.length - 1 - str.data.reverse.indexOf c) else none

/-- `getBaseId`: get a base id, deleting the version, if it exists, and undo
the `ENSTR` for `ENST0` PAR hack by `baseId[4] = '0'`. -/
def getBaseId (id : String) : String :=
  let baseId :=
    match stringFindLastOf id '.' with
    | none => id
    | some idot => stringSubstr id 0 idot
  if stringStartsWith baseId "ENSGR" || stringStartsWith baseId "ENSTR" then
    ⟨baseId.data.set 4 '0'⟩
  else baseId

/-! ## remapStatus.cc: names of the remap status values -/

/-- `REMAP_STATUS_NONE_STR`. -/
def REMAP_STATUS_NONE_STR : String := "none"
/-- `REMAP_STATUS_FULL_CONTIG_STR`. -/
def REMAP_STATUS_FULL_CONTIG_STR : String := "full_contig"
/-- `REMAP_STATUS_FULL_FRAGMENT_STR`. -/
def REMAP_STATUS_FULL_FRAGMENT_STR : String := "full_fragment"
/-- `REMAP_STATUS_PARTIAL_STR`. -/
def REMAP_STATUS_PARTIAL_STR : String := "partial"
/-- `REMAP_STATUS_DELETED_STR`. -/
def REMAP_STATUS_DELETED_STR : String := "deleted"
/-- `REMAP_STATUS_NO_SEQ_MAP_STR`. -/
def REMAP_STATUS_NO_SEQ_MAP_STR : String := "no_seq_map"
/-- `REMAP_STATUS_GENE_CONFLICT_STR`. -/
def REMAP_STATUS_GENE_CONFLICT_STR : String := "gene_conflict"
/-- `REMAP_STATUS_GENE_SIZE_CHANGE_STR`. -/
def REMAP_STATUS_GENE_SIZE_CHANGE_STR : String := "gene_size_change"
/-- `REMAP_STATUS_AUTO_SMALL_NCRNA_STR`. -/
def REMAP_STATUS_AUTO_SMALL_NCRNA_STR : String := "automatic_small_ncrna_gene"
/-- `REMAP_STATUS_AUTOMATIC_GENE_STR`. -/
def REMAP_STATUS_AUTOMATIC_GENE_STR : String := "automatic_gene"
/-- `REMAP_STATUS_PSEUDOGENE_STR`. -/
def REMAP_STATUS_PSEUDOGENE_STR : String := "pseudogene"
/-- `REMAP_STATUS_INELIGIBLE_STR`. -/
def REMAP_STATUS_INELIGIBLE_STR : String := "ineligible"

/-- `remapStatusToStr`: convert a remap status to a string.  The `switch` has a
case for each declared value; the `return emptyString` after it is reached
by no value of the type. -/
def remapStatusToStr : RemapStatus → String
  | REMAP_STATUS_NONE => REMAP_STATUS_NONE_STR
  | REMAP_STATUS_FULL_CONTIG => REMAP_STATUS_FULL_CONTIG_STR
  | REMAP_STATUS_FULL_FRAGMENT => REMAP_STATUS_FULL_FRAGMENT_STR
  | REMAP_STATUS_PARTIAL => REMAP_STATUS_PARTIAL_STR
  | REMAP_STATUS_DELETED => REMAP_STATUS_DELETED_STR
  | REMAP_STATUS_NO_SEQ_MAP => REMAP_STATUS_NO_SEQ_MAP_STR
  | REMAP_STATUS_GENE_CONFLICT => REMAP_STATUS_GENE_CONFLICT_STR
  | REMAP_STATUS_GENE_SIZE_CHANGE => REMAP_STATUS_GENE_SIZE_CHANGE_STR
  | REMAP_STATUS_AUTO_SMALL_NCRNA => REMAP_STATUS_AUTO_SMALL_NCRNA_STR
  | REMAP_STATUS_AUTOMATIC_GENE => REMAP_STATUS_AUTOMATIC_GENE_STR
  | REMAP_STATUS_PSEUDOGENE => REMAP_STATUS_PSEUDOGENE_STR
  | REMAP_STATUS_INELIGIBLE => REMAP_STATUS_INELIGIBLE_STR

/-- The text that the GTF writer emits for one attribute: a pair for each of
its values, in order, each terminated by `;`, with a space between them;
nothing for an attribute without values. -/
def GtfWriter.attrText (isParY : Bool) (a : AttrVal) : List Char :=
  separatedBy [' '] (a.fVals.map (fun v => GtfWriter.pairText isParY a.fName v ++ [';']))

/-! ## Merging of repeated names by the GTF parser -/

/-- The name and the value that `GtfParser::parseAttr` reads from an attribute
text, before it looks the name up: the text before the first space, and the
text after it without quotes and, for the gene and transcript id, without the
PAR hack; `none` if the text has no space. -/
def GtfParser.readPair (attrStr : String) : Option (String × String) :=
  match stringFind attrStr ' ' with
  | none => none
  | some i =>
    let name := stringSubstr attrStr 0 i
    let value := stripQuotes (stringSubstrFrom attrStr (i + 1))
    some (name, if isParIdNonUniqAttr name then GtfParser.removeParUniqHack value else value)

/-- The names of a sequence in the order of their first occurrence, after the
names `acc` that occurred before. -/
def firstOccurrences (acc : List String) : List String → List String
  | [] => acc
  | n :: rest => firstOccurrences (if n ∈ acc then acc else acc ++ [n]) rest

/-- The attribute list into which a sequence of name and value pairs is
merged: one entry for each name, in the order of the first occurrences of
the names, with the values of the name in the order of their occurrence. -/
def GtfParser.Merged (pairs : List (String × String)) (attrs : AttrVals) : Prop :=
  (attrs.map AttrVal.fName).Nodup ∧
  attrs.map AttrVal.fName = firstOccurrences [] (pairs.map Prod.fst) ∧
  (∀ a ∈ attrs, a.fVals = (pairs.filter (fun p => p.1 = a.fName)).map Prod.snd) ∧
  (∀ p ∈ pairs, ∃ a ∈ attrs, a.fName = p.1)

/-! ## Attribute texts that the GFF3 parser rejects -/

/-- The attribute texts that are no GFF3 attribute: a text without `=`, with
nothing before its first `=`, or with an empty value among the values that
the text after the first `=`, without its quotes, has between `,`. -/
def Gff3Parser.badPart (attrStr : String) : Bool :=
  match stringFind attrStr '=' with
  | none => true
  | some i =>
    stringSubstr attrStr 0 i == "" ||
      decide ("" ∈ stringSplit (stripQuotes (stringSubstrFrom attrStr (i + 1))) ',')

/-- The attributes made with the first value `first`: by the constructor
`AttrVal(name, val)` from `first`, by the constructor `AttrVal(name, vals)`
from values that start with `first`, and from these by `addVal`. -/
inductive AttrVal.ConstructedFrom (first : String) : AttrVal → Prop where
  | new (name : String) (quoted : Bool) (a : AttrVal) :
      AttrVal.new name first quoted = .ok a → AttrVal.ConstructedFrom first a
  | newVals (name : String) (rest : List String) (quoted : Bool) (a : AttrVal) :
      AttrVal.newVals name (first :: rest) quoted = .ok a → AttrVal.ConstructedFrom first a
  | addVal (a b : AttrVal) (val : String) :
      AttrVal.ConstructedFrom first a → a.addVal val = .ok b → AttrVal.ConstructedFrom first b

/-! ## gxf.hh: sorting a vector of features -/

/-- The comparison that `GxfFeatureVector::sort` passes to `std::sort`: by
decreasing start if the strand of the first feature is `+`, by increasing
start otherwise. -/
def GxfFeatureVector.sortLess (a b : GxfFeature) : Bool :=
  if a.fStrand = "+" then decide (a.fStart > b.fStart) else decide (a.fStart < b.fStart)

/-- What `std::sort` requires of its comparison on the values of the range: a
strict weak ordering, that is an irreflexive and transitive comparison whose
incomparability is transitive too. -/
def StrictWeakOrderOn {α : Type} (less : α → α → Bool) (v : List α) : Prop :=
  (∀ a ∈ v, less a a = false) ∧
  (∀ a ∈ v, ∀ b ∈ v, ∀ c ∈ v, less a b = true → less b c = true → less a c = true) ∧
  (∀ a ∈ v, ∀ b ∈ v, ∀ c ∈ v, less a b = false → less b a = false →
    less b c = false → less c b = false → less a c = false ∧ less c a = false)

instance {α : Type} (less : α → α → Bool) (v : List α) :
    Decidable (StrictWeakOrderOn less v) := by
  unfold StrictWeakOrderOn
  infer_instance

/-- `GxfFeatureVector::sort`: `std::sort` with the comparison.  The behaviour of
`std::sort` is defined only if the comparison is a strict weak ordering on
the values of the vector, `none` stands for the undefined behaviour; where it
is defined the result is the vector sorted by insertion, one of the orders
that `std::sort` may return (it leaves the order of equivalent values
open). -/
def GxfFeatureVector.sort (v : List GxfFeature) : Option (List GxfFeature) :=
  if StrictWeakOrderOn GxfFeatureVector.sortLess v then
    some (v.insertionSort (fun a b => GxfFeatureVector.sortLess b a = false))
  else none

end GencodeBackmap

namespace GencodeBackmap
open RemapStatus

/-! # Theorems -/


/-! ## Lemmas on the accessors -/

theorem FeatureNode.fNumMappings_setNumMappings (node : FeatureNode) (n : Int) :
    (node.setNumMappings n).fNumMappings = n := by
  cases node; rfl

/-! ## The transcript bounding records -/

/-- C1: `mapTranscriptFeature` creates the mapped bounding record exactly when
the exon mapping exists and has a primary mapped alignment, and the unmapped
bounding record (built by `mapBounding` from the source transcript alone)
exactly when there is no primary mapped alignment or its query is not fully
mapped; so at least one of the two exists, both exist exactly when a primary
alignment exists whose query is not fully mapped, and no unmapped record is
created when the query is fully mapped. -/
theorem mapTranscriptFeature_records {τ : Type} (env : Collaborators τ)
    (tm : TranscriptMapper) (transcript : FeatureNode) :
    ((mapTranscriptFeature env tm transcript).mapped.isSome = true ↔
      ∃ m psl, tm.fExonsMapping = some m ∧ m.getMappedPsl = some psl) ∧
    ((mapTranscriptFeature env tm transcript).unmapped.isSome = true ↔
      ((¬ ∃ m psl, tm.fExonsMapping = some m ∧ m.getMappedPsl = some psl) ∨
        ∃ m psl, tm.fExonsMapping = some m ∧ m.getMappedPsl = some psl ∧
          env.pslQueryFullyMapped psl = false)) ∧
    ((mapTranscriptFeature env tm transcript).unmapped = none ∨
      (mapTranscriptFeature env tm transcript).unmapped = some (env.mapBoundingSrc transcript)) ∧
    ((mapTranscriptFeature env tm transcript).mapped.isSome = true ∨
      (mapTranscriptFeature env tm transcript).unmapped.isSome = true) ∧
    (((mapTranscriptFeature env tm transcript).mapped.isSome = true ∧
        (mapTranscriptFeature env tm transcript).unmapped.isSome = true) ↔
      ∃ m psl, tm.fExonsMapping = some m ∧ m.getMappedPsl = some psl ∧
        env.pslQueryFullyMapped psl = false) ∧
    (∀ m psl, tm.fExonsMapping = some m → m.getMappedPsl = some psl →
      env.pslQueryFullyMapped psl = true →
      (mapTranscriptFeature env tm transcript).unmapped = none) := by
  unfold mapTranscriptFeature
  cases hm : tm.fExonsMapping with
  | none => simp [ResultFeatures.new]
  | some m =>
    cases hp : m.getMappedPsl with
    | none =>
      simp [ResultFeatures.new, hp]
      intro m1 psl1 h1 h2
      subst h1
      simp [hp] at h2
    | some psl =>
      cases hq : env.pslQueryFullyMapped psl
      · simp [ResultFeatures.new, hp, hq]
        intro m1 psl1 h1 h2
        subst h1
        rw [hp] at h2
        cases h2
        exact hq
      · simp [ResultFeatures.new, hp, hq]

/-- C1, evaluated: a transcript whose primary alignment covers the whole query
gets the mapped record only, one whose primary alignment covers part of the
query gets both, and one without exon mapping gets the unmapped record only. -/
theorem mapTranscriptFeature_records_witness :
    ((mapTranscriptFeature (exampleCollaborators none)
        ⟨exampleGenomeTransMap, true, some ⟨examplePslSrc, [examplePslFull]⟩, [], none, none, none⟩
        exampleTranscript).unmapped = none) ∧
    ((mapTranscriptFeature (exampleCollaborators none)
        ⟨exampleGenomeTransMap, true, some ⟨examplePslSrc, [examplePslPart]⟩, [], none, none, none⟩
        exampleTranscript).unmapped.isSome = true) ∧
    ((mapTranscriptFeature (exampleCollaborators none)
        ⟨exampleGenomeTransMap, true, none, [], none, none, none⟩
        exampleTranscript).mapped.isSome = false) :=
  ⟨(mapTranscriptFeature_records (exampleCollaborators none)
      ⟨exampleGenomeTransMap, true, some ⟨examplePslSrc, [examplePslFull]⟩, [], none, none, none⟩
      exampleTranscript).2.2.2.2.2 ⟨examplePslSrc, [examplePslFull]⟩ examplePslFull rfl rfl rfl,
   rfl, rfl⟩


/-- C2: when a primary mapped alignment exists, the mapped bounding record is
the record that `mapBounding` builds from the transcript and the target name,
start, end and strand of the primary alignment, which is the first-ranked of
the mapped alignments, and its mapping count is the number of all mapped
alignments of the exon mapping: 2 for two candidate loci, 1 for one. -/
theorem mapTranscriptFeature_numMappings {τ : Type} (env : Collaborators τ)
    (tm : TranscriptMapper) (transcript : FeatureNode) (m : PslMapping) (psl : Psl)
    (hm : tm.fExonsMapping = some m) (hp : m.getMappedPsl = some psl) :
    ∃ mapped rest,
      (mapTranscriptFeature env tm transcript).mapped = some mapped ∧
      m.getMappedPsls = psl :: rest ∧
      mapped = (env.mapBounding transcript psl.tName psl.tStart psl.tEnd
        (String.singleton (env.pslTStrand psl))).setNumMappings (Int.ofNat m.getMappedPsls.length) ∧
      mapped.fNumMappings = Int.ofNat m.getMappedPsls.length ∧
      (rest = [] → mapped.fNumMappings = 1) ∧
      (∀ other, rest = [other] → mapped.fNumMappings = 2) := by
  have hlist : ∃ rest, m.getMappedPsls = psl :: rest := by
    unfold PslMapping.getMappedPsl at hp
    unfold PslMapping.getMappedPsls
    cases hl : m.fMappedPsls with
    | nil => simp [hl] at hp
    | cons p rest =>
      rw [hl] at hp
      simp at hp
      exact ⟨rest, by rw [hp]⟩
  obtain ⟨rest, hrest⟩ := hlist
  refine ⟨_, rest, ?_, hrest, rfl, FeatureNode.fNumMappings_setNumMappings _ _, ?_, ?_⟩
  · unfold mapTranscriptFeature
    simp only [hm, hp]
    cases hq : env.pslQueryFullyMapped psl <;> simp [ResultFeatures.new]
  · intro h
    rw [FeatureNode.fNumMappings_setNumMappings, hrest, h]
    rfl
  · intro other h
    rw [FeatureNode.fNumMappings_setNumMappings, hrest, h]
    rfl

/-- C2, evaluated: with the two candidate loci `examplePslPart` (ranked first)
and `examplePslFull`, the mapped record carries the count 2 and lies on
`chrX`, the target of the first-ranked alignment. -/
theorem mapTranscriptFeature_numMappings_witness :
    ∃ mapped,
      (mapTranscriptFeature (exampleCollaborators none)
        ⟨exampleGenomeTransMap, true, some ⟨examplePslSrc, [examplePslPart, examplePslFull]⟩,
          [], none, none, none⟩ exampleTranscript).mapped = some mapped ∧
      mapped.fNumMappings = 2 ∧ mapped.fFeature.fSeqid = "chrX" ∧
      mapped.fFeature.fStart = 501 ∧ mapped.fFeature.fEnd = 530 ∧
      mapped.fFeature.fStrand = "-" := by
  obtain ⟨mapped, rest, h1, h2, h3, _, _, h6⟩ :=
    mapTranscriptFeature_numMappings (exampleCollaborators none)
      ⟨exampleGenomeTransMap, true, some ⟨examplePslSrc, [examplePslPart, examplePslFull]⟩,
        [], none, none, none⟩ exampleTranscript
      ⟨examplePslSrc, [examplePslPart, examplePslFull]⟩ examplePslPart rfl rfl
  refine ⟨mapped, h1, ?_, ?_, ?_, ?_, ?_⟩
  · apply h6 examplePslFull
    have : examplePslPart :: rest = [examplePslPart, examplePslFull] := h2.symm
    simpa using this
  all_goals (subst h3; rfl)


/-- C3 fails as stated: the transcript `exampleTranscriptNoId` has no
`transcript_id` attribute; the mapper would return a mapping for every query
name and that mapping keeps a mapped alignment after ranking, yet
`allExonsTransMap` returns neither that mapping nor `NULL`: it raises the
invalid-argument error of `AttrVals::get`. -/
theorem allExonsTransMap_counterexample :
    (∀ qName, (exampleCollaborators (some ⟨examplePslSrc, [examplePslFull]⟩)).mapFeatures
        ⟨[exampleGenomeTransMap]⟩ qName (getExons exampleTranscriptNoId) =
          some ⟨examplePslSrc, [examplePslFull]⟩) ∧
    ((exampleCollaborators (some ⟨examplePslSrc, [examplePslFull]⟩)).sortMappedPsls
        ⟨examplePslSrc, [examplePslFull]⟩ none none).haveMappings = true ∧
    allExonsTransMap (exampleCollaborators (some ⟨examplePslSrc, [examplePslFull]⟩))
        exampleGenomeTransMap none none exampleTranscriptNoId =
      .error (.invalid_argument "Attribute not found: transcript_id") ∧
    allExonsTransMap (exampleCollaborators (some ⟨examplePslSrc, [examplePslFull]⟩))
        exampleGenomeTransMap none none exampleTranscriptNoId ≠
      .ok (some ((exampleCollaborators (some ⟨examplePslSrc, [examplePslFull]⟩)).sortMappedPsls
        ⟨examplePslSrc, [examplePslFull]⟩ none none)) ∧
    allExonsTransMap (exampleCollaborators (some ⟨examplePslSrc, [examplePslFull]⟩))
        exampleGenomeTransMap none none exampleTranscriptNoId ≠ .ok none := by
  refine ⟨fun _ => rfl, rfl, rfl, ?_, ?_⟩
  · intro h
    have h2 : allExonsTransMap (exampleCollaborators (some ⟨examplePslSrc, [examplePslFull]⟩))
        exampleGenomeTransMap none none exampleTranscriptNoId =
      .error (.invalid_argument "Attribute not found: transcript_id") := rfl
    rw [h2] at h
    cases h
  · intro h
    have h2 : allExonsTransMap (exampleCollaborators (some ⟨examplePslSrc, [examplePslFull]⟩))
        exampleGenomeTransMap none none exampleTranscriptNoId =
      .error (.invalid_argument "Attribute not found: transcript_id") := rfl
    rw [h2] at h
    cases h

/-- C3, amended: for a transcript whose `transcript_id` attribute exists and
has the first value `qName`, `allExonsTransMap` returns (it raises no error),
it returns `NULL` exactly when the mapper returns nothing for `qName` and the
transcript's exons or the mapping it returns has no mappings after ranking
with the target transcript and gene, and in every other case it returns that
ranked mapping. -/
theorem allExonsTransMap_result {τ : Type} (env : Collaborators τ)
    (fGenomeTransMap : TransMap) (fTargetTranscript fTargetGene : Option FeatureNode)
    (transcript : FeatureNode) (attr : AttrVal) (qName : String)
    (hattr : transcript.fFeature.getAttr GxfFeature.TRANSCRIPT_ID_ATTR = .ok attr)
    (hval : attr.getVal = some qName) :
    (allExonsTransMap env fGenomeTransMap fTargetTranscript fTargetGene transcript = .ok none ↔
      (env.mapFeatures ⟨[fGenomeTransMap]⟩ qName (getExons transcript) = none ∨
       ∃ m, env.mapFeatures ⟨[fGenomeTransMap]⟩ qName (getExons transcript) = some m ∧
         (env.sortMappedPsls m fTargetTranscript fTargetGene).haveMappings = false)) ∧
    (∀ m, env.mapFeatures ⟨[fGenomeTransMap]⟩ qName (getExons transcript) = some m →
      (env.sortMappedPsls m fTargetTranscript fTargetGene).haveMappings = true →
      allExonsTransMap env fGenomeTransMap fTargetTranscript fTargetGene transcript =
        .ok (some (env.sortMappedPsls m fTargetTranscript fTargetGene))) ∧
    (∃ r, allExonsTransMap env fGenomeTransMap fTargetTranscript fTargetGene transcript = .ok r) := by
  have hq : attrGetVal attr = .ok qName := by simp [attrGetVal, hval]
  unfold allExonsTransMap
  simp only [hattr, hq]
  cases hmap : env.mapFeatures ⟨[fGenomeTransMap]⟩ qName (getExons transcript) with
  | none => simp
  | some m =>
    cases hh : (env.sortMappedPsls m fTargetTranscript fTargetGene).haveMappings <;> simp [hh]

/-- C3 amended, evaluated on `exampleTranscript` (query name `ENST01.1`): a
mapper without entry for the sequence gives `NULL`. -/
theorem allExonsTransMap_result_witness :
    allExonsTransMap (exampleCollaborators none) exampleGenomeTransMap none none
      exampleTranscript = .ok none :=
  (allExonsTransMap_result (exampleCollaborators none) exampleGenomeTransMap none none
    exampleTranscript ⟨"transcript_id", ["ENST01.1"], false⟩ "ENST01.1" rfl rfl).1.mpr
    (Or.inl rfl)


/-! ## A transcript without exon mapping -/

theorem mapFeature_of_no_viaExons {τ : Type} (env : Collaborators τ) (tm : TranscriptMapper)
    (h : tm.fViaExonsFeatureTransMap = none) (feature : FeatureNode) :
    mapFeature env tm feature =
      .ok (env.setRemapStatus (env.map feature none) tm.fSrcSeqInMapping,
           [Call.map feature.fFeature none,
            Call.setRemapStatus feature.fFeature tm.fSrcSeqInMapping]) := by
  simp [mapFeature, h]

mutual
theorem mapFeatures_withoutProjection {τ : Type} (env : Collaborators τ)
    (tm : TranscriptMapper) (h : tm.fViaExonsFeatureTransMap = none) :
    ∀ node : FeatureNode, ∃ t calls, mapFeatures env tm node = .ok (t, calls) ∧
      ∀ c ∈ calls, c.withoutProjection = true
  | .mk f children s n m u a => by
    rw [mapFeatures, mapFeature_of_no_viaExons env tm h]
    apply mapFeaturesChildren_withoutProjection env tm h children
    intro c hc
    simp at hc
    rcases hc with hc | hc <;> (subst hc; rfl)
theorem mapFeaturesChildren_withoutProjection {τ : Type} (env : Collaborators τ)
    (tm : TranscriptMapper) (h : tm.fViaExonsFeatureTransMap = none) :
    ∀ (children : List FeatureNode) (parent : τ) (calls0 : List Call),
      (∀ c ∈ calls0, c.withoutProjection = true) →
      ∃ t calls, mapFeaturesChildren env tm children parent calls0 = .ok (t, calls) ∧
        ∀ c ∈ calls, c.withoutProjection = true
  | [], parent, calls0, h0 => ⟨parent, calls0, by rw [mapFeaturesChildren], h0⟩
  | child :: rest, parent, calls0, h0 => by
    obtain ⟨t, calls, hc, hall⟩ := mapFeatures_withoutProjection env tm h child
    rw [mapFeaturesChildren, hc]
    apply mapFeaturesChildren_withoutProjection env tm h rest
    intro c hmem
    rcases List.mem_append.mp hmem with h1 | h1
    · exact h0 c h1
    · exact hall c h1
end

/-- C4: if the constructor leaves the exon mapping absent, the via-exons
mapper is not built (`fViaExonsFeatureTransMap` stays `NULL` and no
`TransMap` is made); `mapFeature` then makes no projection request for any
feature and hands `FeatureMapper::map` an absent alignment; mapping the
transcript's features returns, and none of its calls is a projection; and
the transcript has no mapped bounding record and the one unmapped bounding
record. -/
theorem absent_exonsMapping_all_unmapped {τ : Type} (env : Collaborators τ)
    (genomeTransMap : TransMap) (transcript : FeatureNode)
    (targetAnnotations : Option AnnotationSet) (srcSeqInMapping : Bool)
    (tm : TranscriptMapper)
    (hnew : TranscriptMapper.new env genomeTransMap transcript targetAnnotations
      srcSeqInMapping = .ok tm)
    (hnone : tm.fExonsMapping = none) :
    tm.fViaExonsFeatureTransMap = none ∧ tm.fVaiExonsTransMaps = [] ∧
    (∀ feature : FeatureNode, mapFeature env tm feature =
      .ok (env.setRemapStatus (env.map feature none) tm.fSrcSeqInMapping,
           [Call.map feature.fFeature none,
            Call.setRemapStatus feature.fFeature tm.fSrcSeqInMapping])) ∧
    (∃ r calls, mapTranscriptFeatures env tm transcript = .ok (r, calls) ∧
      ∀ c ∈ calls, c.withoutProjection = true) ∧
    (mapTranscriptFeature env tm transcript).mapped = none ∧
    (mapTranscriptFeature env tm transcript).unmapped = some (env.mapBoundingSrc transcript) := by
  have hvia : tm.fViaExonsFeatureTransMap = none ∧ tm.fVaiExonsTransMaps = [] := by
    unfold TranscriptMapper.new at hnew
    split at hnew
    · cases hnew
    · simp only at hnew
      split at hnew
      · cases hnew
      · split at hnew
        · cases hnew
        · cases hnew
          exact ⟨rfl, rfl⟩
        · cases hnew
          simp at hnone
  refine ⟨hvia.1, hvia.2, mapFeature_of_no_viaExons env tm hvia.1, ?_, ?_, ?_⟩
  · unfold mapTranscriptFeatures
    obtain ⟨t, calls, hc, hall⟩ := mapFeaturesChildren_withoutProjection env tm hvia.1
      transcript.fChildren (env.ofResult (mapTranscriptFeature env tm transcript)) []
      (by simp)
    simp only [hc]
    refine ⟨_, _, rfl, ?_⟩
    intro c hmem
    rcases List.mem_append.mp hmem with h1 | h1
    · exact hall c h1
    · simp at h1
      subst h1
      rfl
  · simp [mapTranscriptFeature, hnone, ResultFeatures.new]
  · simp [mapTranscriptFeature, hnone, ResultFeatures.new]

/-- C4, evaluated: for `exampleTranscript` and a mapper without entry for its
sequence the constructor succeeds with an absent exon mapping. -/
theorem absent_exonsMapping_all_unmapped_witness :
    ∃ tm, TranscriptMapper.new (exampleCollaborators none) exampleGenomeTransMap
        exampleTranscript none false = .ok tm ∧ tm.fExonsMapping = none ∧
      tm.fViaExonsFeatureTransMap = none ∧
      (mapTranscriptFeature (exampleCollaborators none) tm exampleTranscript).mapped = none :=
  ⟨⟨exampleGenomeTransMap, false, none, [], none, none, none⟩, rfl, rfl,
    (absent_exonsMapping_all_unmapped (exampleCollaborators none) exampleGenomeTransMap
      exampleTranscript none false ⟨exampleGenomeTransMap, false, none, [], none, none, none⟩
      rfl rfl).1,
    (absent_exonsMapping_all_unmapped (exampleCollaborators none) exampleGenomeTransMap
      exampleTranscript none false ⟨exampleGenomeTransMap, false, none, [], none, none, none⟩
      rfl rfl).2.2.2.2.1⟩


/-! ## The exons of a transcript -/

mutual
theorem FeatureNode.getMatching_eq (filter : GxfFeature → Bool) :
    ∀ (node : FeatureNode) (hits : List GxfFeature),
      FeatureNode.getMatching filter node hits = hits ++ node.subtreeFeatures.filter filter
  | .mk f children _ _ _ _ _, hits => by
    rw [FeatureNode.getMatching, FeatureNode.getMatchingChildren_eq filter children,
      FeatureNode.subtreeFeatures]
    by_cases hf : filter f = true <;> simp [List.filter_cons, hf]
theorem FeatureNode.getMatchingChildren_eq (filter : GxfFeature → Bool) :
    ∀ (children : List FeatureNode) (hits : List GxfFeature),
      FeatureNode.getMatchingChildren filter children hits =
        hits ++ (FeatureNode.subtreeFeatures.subtreesFeatures children).filter filter
  | [], hits => by
    simp [FeatureNode.getMatchingChildren, FeatureNode.subtreeFeatures.subtreesFeatures]
  | c :: rest, hits => by
    rw [FeatureNode.getMatchingChildren, FeatureNode.getMatching_eq filter c,
      FeatureNode.getMatchingChildren_eq filter rest,
      FeatureNode.subtreeFeatures.subtreesFeatures]
    simp
end

theorem subtreesFeatures_filter_of_shallow (filter : GxfFeature → Bool) :
    ∀ children : List FeatureNode,
      (∀ c ∈ children, ∀ f ∈ FeatureNode.subtreeFeatures.subtreesFeatures c.fChildren,
        filter f = false) →
      (FeatureNode.subtreeFeatures.subtreesFeatures children).filter filter =
        (children.map FeatureNode.fFeature).filter filter
  | [], _ => by simp [FeatureNode.subtreeFeatures.subtreesFeatures]
  | c :: rest, h => by
    have hrest := subtreesFeatures_filter_of_shallow filter rest
      (fun c' hc' => h c' (List.mem_cons_of_mem _ hc'))
    have hc := h c (List.mem_cons_self _ _)
    cases c with
    | mk f children s n m u a =>
      simp only [FeatureNode.fChildren] at hc
      have hnil : (FeatureNode.subtreeFeatures.subtreesFeatures children).filter filter = [] := by
        rw [List.filter_eq_nil_iff]
        intro x hx
        simp [hc x hx]
      rw [FeatureNode.subtreeFeatures.subtreesFeatures, FeatureNode.subtreeFeatures]
      simp only [List.map_cons, FeatureNode.fFeature, List.cons_append]
      by_cases hf : filter f = true <;>
        simp [List.filter_cons, hf, hnil, List.filter_append, hrest]

/-- C5 fails as stated: in `exampleTranscriptNested` the `CDS` child has an
exon child of its own; `getExons` returns that exon too, after the direct
exon child, so its result is not the list of the direct exon children. -/
theorem getExons_counterexample :
    getExons exampleTranscriptNested =
      [exampleFeature "exon" 101 120 [], exampleFeature "exon" 105 110 []] ∧
    directExonChildren exampleTranscriptNested = [exampleFeature "exon" 101 120 []] ∧
    getExons exampleTranscriptNested ≠ directExonChildren exampleTranscriptNested := by
  decide

/-- C5, amended: `getExons` returns exactly the records of type exon of the
whole transcript subtree (the transcript's own record and those of all its
descendants) in depth-first order; when the transcript's own record is not an
exon and no exon lies below the transcript's direct children, this is exactly
the direct children of type exon in child-list order. -/
theorem getExons_subtree (transcript : FeatureNode) :
    getExons transcript =
      transcript.subtreeFeatures.filter (fun f => decide (f.getType = GxfFeature.EXON)) ∧
    (transcript.fFeature.getType ≠ GxfFeature.EXON →
      (∀ c ∈ transcript.fChildren,
        ∀ f ∈ FeatureNode.subtreeFeatures.subtreesFeatures c.fChildren,
          f.getType ≠ GxfFeature.EXON) →
      getExons transcript = directExonChildren transcript) := by
  have h1 : getExons transcript =
      transcript.subtreeFeatures.filter (fun f => decide (f.getType = GxfFeature.EXON)) := by
    simp [getExons, FeatureNode.getMatching_eq]
  refine ⟨h1, ?_⟩
  intro hty hdeep
  rw [h1]
  cases transcript with
  | mk f children s n m u a =>
    simp only [FeatureNode.fFeature] at hty
    simp only [FeatureNode.fChildren] at hdeep
    rw [FeatureNode.subtreeFeatures, directExonChildren]
    simp only [FeatureNode.fChildren]
    rw [List.filter_cons_of_neg (by simpa using hty)]
    apply subtreesFeatures_filter_of_shallow
    intro c hc x hx
    simpa using hdeep c hc x hx

/-- C5 amended, evaluated on `exampleTranscript`, whose children are two
childless exons. -/
theorem getExons_subtree_witness :
    getExons exampleTranscript =
      [exampleFeature "exon" 101 120 [], exampleFeature "exon" 181 200 []] :=
  ((getExons_subtree exampleTranscript).2 (by decide) (by
    intro c hc f hf
    simp [exampleTranscript, FeatureNode.fChildren, exampleLeaf, FeatureNode.new] at hc
    rcases hc with hc | hc <;>
      (subst hc; simp [FeatureNode.fChildren, FeatureNode.subtreeFeatures.subtreesFeatures] at hf))).trans
    (by decide)


/-! ## Aggregation of the remap status -/

theorem RemapStatus.fromChildren_eq_own (own : RemapStatus) (children : List RemapStatus)
    (hall : ∀ c ∈ children, c.precedence ≤ own.precedence) :
    RemapStatus.fromChildren own children = own := by
  induction children with
  | nil => rfl
  | cons c rest ih =>
    have hc := hall c (List.mem_cons_self _ _)
    have hup : RemapStatus.childUpdate own c = own := by
      unfold RemapStatus.childUpdate
      rw [if_neg (by omega)]
    simp only [RemapStatus.fromChildren, List.foldl_cons, hup]
    exact ih (fun c' hc' => hall c' (List.mem_cons_of_mem _ hc'))

/-- C8: for a node with no children, whatever its current status and whatever
the base status of the call, `setRemapStatusFromChildren` returns the node as
it was: the remap status and all other fields are unchanged. -/
theorem setRemapStatusFromChildren_childless (node : FeatureNode)
    (h : node.fChildren = []) :
    node.setRemapStatusFromChildren REMAP_STATUS_NONE = node ∧
    (node.setRemapStatusFromChildren REMAP_STATUS_NONE).fRemapStatus = node.fRemapStatus ∧
    ∀ baseStatus : RemapStatus, node.setRemapStatusFromChildren baseStatus = node := by
  cases node with
  | mk f children s n m u a =>
    simp only [FeatureNode.fChildren] at h
    subst h
    exact ⟨rfl, rfl, fun _ => rfl⟩

/-- C8, evaluated on a childless exon node with status `partial`. -/
theorem setRemapStatusFromChildren_childless_witness :
    ((exampleLeaf "exon" 101 120).setRemapStatus
        REMAP_STATUS_PARTIAL).setRemapStatusFromChildren REMAP_STATUS_NONE
      = (exampleLeaf "exon" 101 120).setRemapStatus REMAP_STATUS_PARTIAL :=
  (setRemapStatusFromChildren_childless
    ((exampleLeaf "exon" 101 120).setRemapStatus REMAP_STATUS_PARTIAL) rfl).1


/-! ## The source sequence flag -/

theorem mapFeature_calls {τ : Type} (env : Collaborators τ) (tm : TranscriptMapper)
    (feature : FeatureNode) (t : τ) (calls : List Call)
    (h : mapFeature env tm feature = .ok (t, calls)) :
    (∃ pslMapping, t = env.setRemapStatus (env.map feature pslMapping) tm.fSrcSeqInMapping) ∧
    (∀ c ∈ calls, ∀ b, c.statusFlag = some b → b = tm.fSrcSeqInMapping) ∧
    calls.filterMap Call.statusFeature = [feature.fFeature] ∧
    calls.filterMap Call.boundingFeature = [] := by
  unfold mapFeature at h
  cases hvia : tm.fViaExonsFeatureTransMap with
  | none =>
    simp only [hvia] at h
    cases h
    refine ⟨⟨none, rfl⟩, ?_, rfl, rfl⟩
    intro c hc b hb
    simp at hc
    rcases hc with hc | hc <;> (subst hc; simp [Call.statusFlag] at hb)
    exact hb.symm
  | some viaExons =>
    simp only [hvia] at h
    unfold featurePslMap at h
    cases hid : feature.fFeature.findAttr GxfFeature.ID_ATTR with
    | none =>
      simp only [hid] at h
      cases h
      refine ⟨⟨_, rfl⟩, ?_, rfl, rfl⟩
      intro c hc b hb
      simp at hc
      rcases hc with hc | hc | hc <;> (subst hc; simp [Call.statusFlag] at hb)
      exact hb.symm
    | some idAttr =>
      simp only [hid] at h
      cases hv : attrGetVal idAttr with
      | error e => simp [hv] at h
      | ok featureId =>
        simp only [hv] at h
        cases h
        refine ⟨⟨_, rfl⟩, ?_, rfl, rfl⟩
        intro c hc b hb
        simp at hc
        rcases hc with hc | hc | hc <;> (subst hc; simp [Call.statusFlag] at hb)
        exact hb.symm

mutual
theorem mapFeatures_calls {τ : Type} (env : Collaborators τ) (tm : TranscriptMapper) :
    ∀ (node : FeatureNode) (t : τ) (calls : List Call),
      mapFeatures env tm node = .ok (t, calls) →
      (∀ c ∈ calls, ∀ b, c.statusFlag = some b → b = tm.fSrcSeqInMapping) ∧
      calls.filterMap Call.statusFeature = node.subtreeFeatures ∧
      calls.filterMap Call.boundingFeature = []
  | .mk f children s n m u a, t, calls, h => by
    rw [mapFeatures] at h
    cases hmf : mapFeature env tm (.mk f children s n m u a) with
    | error e => simp [hmf] at h
    | ok r =>
      obtain ⟨t0, calls0⟩ := r
      simp only [hmf] at h
      obtain ⟨_, hflag0, hfeat0, hb0⟩ := mapFeature_calls env tm _ t0 calls0 hmf
      obtain ⟨calls1, hcalls, hflag1, hfeat1, hb1⟩ :=
        mapFeaturesChildren_calls env tm children t0 calls0 t calls h
      subst hcalls
      refine ⟨?_, ?_, ?_⟩
      · intro c hc
        rcases List.mem_append.mp hc with h1 | h1
        · exact hflag0 c h1
        · exact hflag1 c h1
      · rw [List.filterMap_append, hfeat0, hfeat1, FeatureNode.subtreeFeatures]
        rfl
      · rw [List.filterMap_append, hb0, hb1]
        rfl
theorem mapFeaturesChildren_calls {τ : Type} (env : Collaborators τ) (tm : TranscriptMapper) :
    ∀ (children : List FeatureNode) (parent : τ) (calls0 : List Call) (t : τ)
      (calls : List Call),
      mapFeaturesChildren env tm children parent calls0 = .ok (t, calls) →
      ∃ calls1, calls = calls0 ++ calls1 ∧
        (∀ c ∈ calls1, ∀ b, c.statusFlag = some b → b = tm.fSrcSeqInMapping) ∧
        calls1.filterMap Call.statusFeature =
          FeatureNode.subtreeFeatures.subtreesFeatures children ∧
        calls1.filterMap Call.boundingFeature = []
  | [], parent, calls0, t, calls, h => by
    rw [mapFeaturesChildren] at h
    cases h
    exact ⟨[], by simp, by simp, rfl, rfl⟩
  | child :: rest, parent, calls0, t, calls, h => by
    rw [mapFeaturesChildren] at h
    cases hc : mapFeatures env tm child with
    | error e => simp [hc] at h
    | ok r =>
      obtain ⟨tc, callsc⟩ := r
      simp only [hc] at h
      obtain ⟨hflagc, hfeatc, hbc⟩ := mapFeatures_calls env tm child tc callsc hc
      obtain ⟨calls1, hcalls, hflag1, hfeat1, hb1⟩ :=
        mapFeaturesChildren_calls env tm rest _ _ t calls h
      refine ⟨callsc ++ calls1, by rw [hcalls, List.append_assoc], ?_, ?_, ?_⟩
      · intro c hmem
        rcases List.mem_append.mp hmem with h1 | h1
        · exact hflagc c h1
        · exact hflag1 c h1
      · rw [List.filterMap_append, hfeatc, hfeat1,
          FeatureNode.subtreeFeatures.subtreesFeatures]
      · rw [List.filterMap_append, hbc, hb1]
        rfl
end

theorem AttrVals.find_mem (attrs : AttrVals) (name : String) (a : AttrVal)
    (h : AttrVals.find attrs name = some a) : a ∈ attrs := by
  unfold AttrVals.find at h
  simp only at h
  split at h
  · cases h
  · exact List.get?_mem h

theorem mapFeature_returns {τ : Type} (env : Collaborators τ) (tm : TranscriptMapper)
    (feature : FeatureNode) (hvals : ∀ a ∈ feature.fFeature.fAttrs, a.fVals ≠ []) :
    ∃ r, mapFeature env tm feature = .ok r := by
  unfold mapFeature
  cases hvia : tm.fViaExonsFeatureTransMap with
  | none => exact ⟨_, rfl⟩
  | some viaExons =>
    simp only
    unfold featurePslMap
    cases hid : feature.fFeature.findAttr GxfFeature.ID_ATTR with
    | none => exact ⟨_, rfl⟩
    | some idAttr =>
      have hne := hvals idAttr (AttrVals.find_mem _ _ _ hid)
      cases hv : idAttr.fVals with
      | nil => exact absurd hv hne
      | cons v rest =>
        have : attrGetVal idAttr = .ok v := by simp [attrGetVal, AttrVal.getVal, hv]
        simp only [this]
        exact ⟨_, rfl⟩

mutual
theorem mapFeatures_returns {τ : Type} (env : Collaborators τ) (tm : TranscriptMapper) :
    ∀ node : FeatureNode, (∀ f ∈ node.subtreeFeatures, ∀ a ∈ f.fAttrs, a.fVals ≠ []) →
      ∃ r, mapFeatures env tm node = .ok r
  | .mk f children s n m u a, h => by
    rw [FeatureNode.subtreeFeatures] at h
    obtain ⟨r, hr⟩ := mapFeature_returns env tm (.mk f children s n m u a)
      (h f (List.mem_cons_self _ _))
    rw [mapFeatures, hr]
    exact mapFeaturesChildren_returns env tm children
      (fun x hx => h x (List.mem_cons_of_mem _ hx)) r.1 r.2
theorem mapFeaturesChildren_returns {τ : Type} (env : Collaborators τ)
    (tm : TranscriptMapper) :
    ∀ children : List FeatureNode,
      (∀ f ∈ FeatureNode.subtreeFeatures.subtreesFeatures children,
        ∀ a ∈ f.fAttrs, a.fVals ≠ []) →
      ∀ (parent : τ) (calls0 : List Call),
        ∃ r, mapFeaturesChildren env tm children parent calls0 = .ok r
  | [], _, parent, calls0 => ⟨_, by rw [mapFeaturesChildren]⟩
  | child :: rest, h, parent, calls0 => by
    rw [FeatureNode.subtreeFeatures.subtreesFeatures] at h
    obtain ⟨r, hr⟩ := mapFeatures_returns env tm child
      (fun x hx => h x (List.mem_append_left _ hx))
    rw [mapFeaturesChildren, hr]
    exact mapFeaturesChildren_returns env tm rest
      (fun x hx => h x (List.mem_append_right _ hx)) _ _
end

/-- C7: `calcRemapStatus` with `srcSeqInMapping = false` is `no_seq_map` for
every node, whatever its mapped and unmapped outputs; and the transcript
mapper hands its own `fSrcSeqInMapping` to every status computation: the
result of `mapFeature` is `setRemapStatus(fSrcSeqInMapping)` applied to what
`FeatureMapper::map` returned, and when `mapTranscriptFeatures` returns, every
status call it made carries `fSrcSeqInMapping`, there is one `setRemapStatus`
call for each descendant of the transcript, in depth-first order, and one
`setBoundingFeatureRemapStatus` call, for the transcript's bounding pair;
`mapTranscriptFeatures` does return when every attribute of the descendants
has a value, as every constructed attribute has. -/
theorem srcSeqInMapping_first_and_passed :
    (∀ node : FeatureNode, node.calcRemapStatus false = REMAP_STATUS_NO_SEQ_MAP) ∧
    (∀ (τ : Type) (env : Collaborators τ) (tm : TranscriptMapper) (feature : FeatureNode)
        (t : τ) (calls : List Call), mapFeature env tm feature = .ok (t, calls) →
      ∃ pslMapping, t = env.setRemapStatus (env.map feature pslMapping) tm.fSrcSeqInMapping) ∧
    (∀ (τ : Type) (env : Collaborators τ) (tm : TranscriptMapper) (transcript : FeatureNode)
        (r : ResultFeatures) (calls : List Call),
      mapTranscriptFeatures env tm transcript = .ok (r, calls) →
      (∃ r0, r = env.setNumMappingsAttr
        (env.setBoundingFeatureRemapStatus r0 tm.fSrcSeqInMapping)) ∧
      (∀ c ∈ calls, ∀ b, c.statusFlag = some b → b = tm.fSrcSeqInMapping) ∧
      calls.filterMap Call.statusFeature =
        FeatureNode.subtreeFeatures.subtreesFeatures transcript.fChildren ∧
      calls.filterMap Call.boundingFeature = [transcript.fFeature]) ∧
    (∀ (τ : Type) (env : Collaborators τ) (tm : TranscriptMapper) (transcript : FeatureNode),
      (∀ f ∈ FeatureNode.subtreeFeatures.subtreesFeatures transcript.fChildren,
        ∀ a ∈ f.fAttrs, a.fVals ≠ []) →
      ∃ r calls, mapTranscriptFeatures env tm transcript = .ok (r, calls)) := by
  refine ⟨fun node => by simp [FeatureNode.calcRemapStatus], ?_, ?_, ?_⟩
  · intro τ env tm feature t calls h
    exact (mapFeature_calls env tm feature t calls h).1
  · intro τ env tm transcript r calls h
    unfold mapTranscriptFeatures at h
    cases hc : mapFeaturesChildren env tm transcript.fChildren
        (env.ofResult (mapTranscriptFeature env tm transcript)) [] with
    | error e => simp [hc] at h
    | ok res =>
      obtain ⟨t1, calls1⟩ := res
      simp only [hc] at h
      cases h
      obtain ⟨calls2, hcalls, hflag, hfeat, hb⟩ :=
        mapFeaturesChildren_calls env tm _ _ _ t1 calls1 hc
      simp only [List.nil_append] at hcalls
      subst hcalls
      refine ⟨⟨_, rfl⟩, ?_, ?_, ?_⟩
      · intro c hmem b hbn
        rcases List.mem_append.mp hmem with h1 | h1
        · exact hflag c h1 b hbn
        · simp at h1
          subst h1
          simp [Call.statusFlag] at hbn
          exact hbn.symm
      · rw [List.filterMap_append, hfeat]
        simp [Call.statusFeature]
      · rw [List.filterMap_append, hb]
        simp [Call.boundingFeature]
  · intro τ env tm transcript hvals
    obtain ⟨res, hres⟩ := mapFeaturesChildren_returns env tm transcript.fChildren hvals
      (env.ofResult (mapTranscriptFeature env tm transcript)) []
    unfold mapTranscriptFeatures
    simp only [hres]
    exact ⟨_, _, rfl⟩

/-- C7, evaluated: mapping `exampleTranscriptNested` with the flag `false`
returns, and the status calls are made for its three descendants and for the
transcript, each with `false`. -/
theorem srcSeqInMapping_first_and_passed_witness :
    ∃ r calls,
      mapTranscriptFeatures (exampleCollaborators none)
        ⟨exampleGenomeTransMap, false, none, [], none, none, none⟩ exampleTranscriptNested
        = .ok (r, calls) ∧
      calls.filterMap Call.statusFlag = [false, false, false, false] ∧
      calls.filterMap Call.statusFeature =
        [exampleFeature "exon" 101 120 [], exampleFeature "CDS" 105 120 [],
         exampleFeature "exon" 105 110 []] :=
  ⟨_, _, rfl, by decide,
    (srcSeqInMapping_first_and_passed.2.2.1 _ (exampleCollaborators none)
      ⟨exampleGenomeTransMap, false, none, [], none, none, none⟩ exampleTranscriptNested
      _ _ rfl).2.2.1.trans (by decide)⟩


/-! ## Parent and child links -/

theorem NodeStore.modifyCell_getElem? (s : NodeStore) (i j : Nat) (f : NodeCell → NodeCell) :
    (s.modifyCell i f).cells[j]? = if j = i then (s.cells[i]?).map f else s.cells[j]? := by
  unfold NodeStore.modifyCell
  cases h : s.cells[i]? with
  | none =>
    by_cases hj : j = i
    · subst hj; simp [h]
    · simp [hj]
  | some cell =>
    have hlt : i < s.cells.length := by
      by_contra hge
      rw [List.getElem?_eq_none (by omega)] at h
      cases h
    by_cases hj : j = i
    · subst hj; simp [List.getElem?_set, hlt]
    · have hne : i ≠ j := fun e => hj e.symm
      simp [List.getElem?_set, hj, hne]

theorem NodeStore.addChild_ok (s s' : NodeStore) (this node : Nat)
    (h : s.addChild this node = .ok s') :
    s.parent node = none ∧ node < s.cells.length ∧ this < s.cells.length ∧
    (∀ q, s'.children q = if q = this then s.children this ++ [node] else s.children q) ∧
    (∀ c, s'.parent c = if c = node then some this else s.parent c) := by
  unfold NodeStore.addChild at h
  cases hn : s.cells[node]? with
  | none => simp [hn] at h
  | some child =>
    cases ht : s.cells[this]? with
    | none => simp [hn, ht] at h
    | some pcell =>
      simp only [hn, ht] at h
      by_cases hp : child.fParent = none
      · simp only [hp, ne_eq, not_true_eq_false, if_false] at h
        cases h
        have hnl : node < s.cells.length := by
          by_contra hge
          rw [List.getElem?_eq_none (by omega)] at hn
          cases hn
        have htl : this < s.cells.length := by
          by_contra hge
          rw [List.getElem?_eq_none (by omega)] at ht
          cases ht
        refine ⟨by simp [NodeStore.parent, hn, hp], hnl, htl, ?_, ?_⟩
        · intro q
          simp only [NodeStore.children, NodeStore.modifyCell_getElem?]
          by_cases hq : q = this
          · subst hq
            by_cases hqn : q = node
            · subst hqn; simp [ht]
            · simp [hqn, ht]
          · by_cases hqn : q = node
            · subst hqn; simp [hq, hn]
            · simp [hq, hqn]
        · intro c
          simp only [NodeStore.parent, NodeStore.modifyCell_getElem?]
          by_cases hc : c = node
          · subst hc
            by_cases hct : c = this
            · subst hct; simp [ht]
            · simp [hct, hn]
          · by_cases hct : c = this
            · subst hct; simp [hc, ht]
            · simp [hc, hct]
      · simp [hp] at h

/-- C9: for a node `this` and a node `node` whose parent reference is already
set, `this->addChild(node)` fails on its assertion; no store results from the
call, so neither the child list of `this` nor the parent reference of `node`
is changed. -/
theorem addChild_parented_fails (s : NodeStore) (this node parent : Nat)
    (hthis : this < s.cells.length) (hparent : s.parent node = some parent) :
    s.addChild this node = .error (.assertion "node->fParent == NULL") ∧
    ∀ s', s.addChild this node ≠ .ok s' := by
  have herr : s.addChild this node = .error (.assertion "node->fParent == NULL") := by
    unfold NodeStore.addChild
    unfold NodeStore.parent at hparent
    cases hn : s.cells[node]? with
    | none => simp [hn] at hparent
    | some child =>
      simp only [hn] at hparent
      have ht : s.cells[this]? = some (s.cells[this]) := List.getElem?_eq_getElem hthis
      simp [ht, hparent]
  refine ⟨herr, ?_⟩
  intro s' h
  rw [herr] at h
  cases h


/-- C9, evaluated: the transcript at address 1 already has the gene as
parent, so the exon's `addChild(transcript)` fails on the assertion. -/
theorem addChild_parented_fails_witness :
    exampleStoreLinked.addChild 2 1 = .error (.assertion "node->fParent == NULL") :=
  (addChild_parented_fails exampleStoreLinked 2 1 0 (by decide) rfl).1

theorem NodeStore.newNode_children (s : NodeStore) (feature : GxfFeature) (p : Nat) :
    (s.newNode feature).1.children p = s.children p := by
  simp only [NodeStore.children, NodeStore.newNode]
  by_cases hp : p < s.cells.length
  · rw [List.getElem?_append_left hp]
  · by_cases hp2 : p = s.cells.length
    · subst hp2; simp
    · rw [List.getElem?_eq_none (by simp; omega), List.getElem?_eq_none (by omega)]

theorem NodeStore.newNode_parent (s : NodeStore) (feature : GxfFeature) (c : Nat) :
    (s.newNode feature).1.parent c = s.parent c := by
  simp only [NodeStore.parent, NodeStore.newNode]
  by_cases hp : c < s.cells.length
  · rw [List.getElem?_append_left hp]
  · by_cases hp2 : c = s.cells.length
    · subst hp2; simp
    · rw [List.getElem?_eq_none (by simp; omega), List.getElem?_eq_none (by omega)]

theorem NodeStore.Built.links (s : NodeStore) (h : NodeStore.Built s) :
    (∀ p c, c ∈ s.children p ↔ s.parent c = some p) ∧ (∀ p, (s.children p).Nodup) := by
  induction h with
  | empty => simp [NodeStore.children, NodeStore.parent, NodeStore.empty]
  | newNode s feature _ ih =>
    simp only [NodeStore.newNode_children, NodeStore.newNode_parent]
    exact ih
  | addChild s s' this node _ hadd ih =>
    obtain ⟨hnone, _, _, hch, hpar⟩ := NodeStore.addChild_ok s s' this node hadd
    have hfree : ∀ q, node ∉ s.children q := by
      intro q hq
      rw [(ih.1 q node).mp hq] at hnone
      cases hnone
    constructor
    · intro p c
      rw [hch, hpar]
      by_cases hp : p = this
      · subst hp
        by_cases hc : c = node
        · subst hc; simp
        · simp only [if_true, hc, if_false, List.mem_append, List.mem_singleton, or_false]
          exact ih.1 p c
      · by_cases hc : c = node
        · subst hc
          simp only [hp, if_false, if_true, Option.some.injEq]
          constructor
          · intro hmem; exact absurd hmem (hfree p)
          · intro he; exact absurd he.symm hp
        · simp only [hp, hc, if_false]
          exact ih.1 p c
    · intro p
      rw [hch]
      by_cases hp : p = this
      · subst hp
        simp only [if_true]
        rw [List.nodup_append]
        refine ⟨ih.2 p, List.nodup_singleton _, ?_⟩
        intro a ha hb
        rw [List.mem_singleton] at hb
        subst hb
        exact hfree p ha
      · simp only [hp, if_false]
        exact ih.2 p

/-- C10: in every store built from freshly constructed nodes by successful
`addChild` calls, `c` is in the child list of `p` exactly when the parent
reference of `c` is `p`; no child list holds a node twice and no node is in
the child lists of two nodes; and a successful `addChild` appends the child
at the end of the child list of `this`, sets the child's parent reference to
`this` and leaves every other child list and parent reference as it was. -/
theorem addChild_links_bidirectional (s : NodeStore) (h : NodeStore.Built s) :
    (∀ p c, c ∈ s.children p ↔ s.parent c = some p) ∧
    (∀ p, (s.children p).Nodup) ∧
    (∀ p q c, c ∈ s.children p → c ∈ s.children q → p = q) ∧
    (∀ this node s', s.addChild this node = .ok s' →
      NodeStore.Built s' ∧
      s'.children this = s.children this ++ [node] ∧
      (∀ q, q ≠ this → s'.children q = s.children q) ∧
      s'.parent node = some this ∧
      (∀ c, c ≠ node → s'.parent c = s.parent c)) := by
  obtain ⟨hbi, hnd⟩ := NodeStore.Built.links s h
  refine ⟨hbi, hnd, ?_, ?_⟩
  · intro p q c hp hq
    have h1 := (hbi p c).mp hp
    have h2 := (hbi q c).mp hq
    rw [h1] at h2
    exact Option.some.inj h2
  · intro this node s' hadd
    obtain ⟨_, _, _, hch, hpar⟩ := NodeStore.addChild_ok s s' this node hadd
    refine ⟨NodeStore.Built.addChild s s' this node h hadd, ?_, ?_, ?_, ?_⟩
    · rw [hch]; simp
    · intro q hq; rw [hch]; simp [hq]
    · rw [hpar]; simp
    · intro c hc; rw [hpar]; simp [hc]

/-- C10, evaluated: the store of three fresh nodes is built, the gene's
`addChild(transcript)` succeeds on it, and a further `addChild(exon)` puts the
exon after the transcript in the gene's child list. -/
theorem addChild_links_bidirectional_witness :
    NodeStore.Built exampleStoreFresh ∧
    exampleStoreFresh.addChild 0 1 = .ok exampleStoreLinked ∧
    ∃ s', exampleStoreLinked.addChild 0 2 = .ok s' ∧ s'.children 0 = [1, 2] ∧
      s'.parent 2 = some 0 ∧ s'.parent 1 = some 0 := by
  have hfresh : NodeStore.Built exampleStoreFresh :=
    NodeStore.Built.newNode _ _ (NodeStore.Built.newNode _ _
      (NodeStore.Built.newNode _ _ NodeStore.Built.empty))
  have hlinked : exampleStoreFresh.addChild 0 1 = .ok exampleStoreLinked := rfl
  have h := (addChild_links_bidirectional exampleStoreLinked
    (NodeStore.Built.addChild _ _ 0 1 hfresh hlinked)).2.2.2 0 2 _ rfl
  exact ⟨hfresh, hlinked, _, rfl, h.2.1, h.2.2.2.1, (h.2.2.2.2 1 (by decide)).trans rfl⟩

/-! ## Output records of a node -/

theorem FeatureNode.outputCalls_lists (node : FeatureNode) (calls : List OutputCall) :
    (node.outputCalls calls).fAllOutputFeatures =
      node.fAllOutputFeatures ++ calls.map OutputCall.feature ∧
    (node.outputCalls calls).fMappedFeatures =
      node.fMappedFeatures ++ calls.filterMap OutputCall.mapped? ∧
    (node.outputCalls calls).fUnmappedFeatures =
      node.fUnmappedFeatures ++ calls.filterMap OutputCall.unmapped? := by
  induction calls generalizing node with
  | nil => simp [FeatureNode.outputCalls]
  | cons c rest ih =>
    have h := ih (node.outputCall c)
    simp only [FeatureNode.outputCalls, List.foldl_cons] at h ⊢
    rw [h.1, h.2.1, h.2.2]
    cases node with
    | mk f ch s n m u a =>
      cases c <;>
        simp [FeatureNode.outputCall, FeatureNode.addMapped, FeatureNode.addUnmapped,
          FeatureNode.fAllOutputFeatures, FeatureNode.fMappedFeatures,
          FeatureNode.fUnmappedFeatures, OutputCall.feature, OutputCall.mapped?,
          OutputCall.unmapped?]

/-- C11: after any sequence of `addMapped` and `addUnmapped` calls on a fresh
node, the log of all outputs is the sequence of added records in call order,
the mapped list is the records added with `addMapped` and the unmapped list
those added with `addUnmapped`, each in call order, so the length of the log
is the sum of the lengths of the two lists; `addMapped` leaves the unmapped
list of any node as it is and `addUnmapped` the mapped list. -/
theorem addMapped_addUnmapped_log (feature : GxfFeature) (calls : List OutputCall) :
    ((FeatureNode.new feature).outputCalls calls).fAllOutputFeatures =
      calls.map OutputCall.feature ∧
    ((FeatureNode.new feature).outputCalls calls).fMappedFeatures =
      calls.filterMap OutputCall.mapped? ∧
    ((FeatureNode.new feature).outputCalls calls).fUnmappedFeatures =
      calls.filterMap OutputCall.unmapped? ∧
    ((FeatureNode.new feature).outputCalls calls).fAllOutputFeatures.length =
      ((FeatureNode.new feature).outputCalls calls).fMappedFeatures.length +
      ((FeatureNode.new feature).outputCalls calls).fUnmappedFeatures.length ∧
    (∀ (node : FeatureNode) (f : GxfFeature),
      (node.addMapped f).fUnmappedFeatures = node.fUnmappedFeatures ∧
      (node.addMapped f).fMappedFeatures = node.fMappedFeatures ++ [f] ∧
      (node.addMapped f).fAllOutputFeatures = node.fAllOutputFeatures ++ [f]) ∧
    (∀ (node : FeatureNode) (f : GxfFeature),
      (node.addUnmapped f).fMappedFeatures = node.fMappedFeatures ∧
      (node.addUnmapped f).fUnmappedFeatures = node.fUnmappedFeatures ++ [f] ∧
      (node.addUnmapped f).fAllOutputFeatures = node.fAllOutputFeatures ++ [f]) := by
  obtain ⟨hall, hm, hu⟩ := FeatureNode.outputCalls_lists (FeatureNode.new feature) calls
  have hlen : (calls.map OutputCall.feature).length =
      (calls.filterMap OutputCall.mapped?).length +
      (calls.filterMap OutputCall.unmapped?).length := by
    induction calls with
    | nil => rfl
    | cons c rest ih =>
      have ih' := ih (FeatureNode.outputCalls_lists _ rest).1
        (FeatureNode.outputCalls_lists _ rest).2.1 (FeatureNode.outputCalls_lists _ rest).2.2
      cases c <;> simp [OutputCall.mapped?, OutputCall.unmapped?] at ih' ⊢ <;> omega
  replace hall : ((FeatureNode.new feature).outputCalls calls).fAllOutputFeatures =
      calls.map OutputCall.feature := hall.trans rfl
  replace hm : ((FeatureNode.new feature).outputCalls calls).fMappedFeatures =
      calls.filterMap OutputCall.mapped? := hm.trans rfl
  replace hu : ((FeatureNode.new feature).outputCalls calls).fUnmappedFeatures =
      calls.filterMap OutputCall.unmapped? := hu.trans rfl
  refine ⟨hall, hm, hu, ?_, ?_, ?_⟩
  · rw [hall, hm, hu]; exact hlen
  · intro node f; cases node; exact ⟨rfl, rfl, rfl⟩
  · intro node f; cases node; exact ⟨rfl, rfl, rfl⟩

/-! ## Size and overlap of feature records -/

theorem wrapInt32_of_isInt32 (x : Int) (h : isInt32 x) : wrapInt32 x = x := by
  unfold isInt32 at h
  unfold wrapInt32
  omega

theorem wrapInt32_wrapInt32_add (x y : Int) : wrapInt32 (wrapInt32 x + y) = wrapInt32 (x + y) := by
  unfold wrapInt32
  omega

/-- C12 fails as stated: the record with `start = 0` and `end = 2147483647`
(both values of `int`, `start <= end`) has `end - start + 1 = 2147483648`,
which no `int` equals; `size()` overflows and the two's-complement result is
negative. -/
theorem size_counterexample :
    isInt32 (exampleFeature "exon" 0 2147483647 []).fStart ∧
    isInt32 (exampleFeature "exon" 0 2147483647 []).fEnd ∧
    (exampleFeature "exon" 0 2147483647 []).fStart ≤
      (exampleFeature "exon" 0 2147483647 []).fEnd ∧
    (∀ r : Int, isInt32 r →
      r ≠ (exampleFeature "exon" 0 2147483647 []).fEnd -
        (exampleFeature "exon" 0 2147483647 []).fStart + 1) ∧
    (exampleFeature "exon" 0 2147483647 []).size = -2147483648 ∧
    ¬ (exampleFeature "exon" 0 2147483647 []).size ≥ 1 := by
  refine ⟨by decide, by decide, by decide, ?_, by decide, by decide⟩
  intro r hr
  unfold isInt32 at hr
  simp only [exampleFeature]
  omega

/-- C12, amended: for every feature record whose `end - start + 1` is a value
of `int`, as for every record of `int` coordinates with `1 <= start <= end`,
`size()` equals `end - start + 1`; hence `size() >= 1` for such a record
whenever `start <= end`. -/
theorem size_eq (f : GxfFeature) :
    (isInt32 (f.fEnd - f.fStart + 1) → f.size = f.fEnd - f.fStart + 1) ∧
    (isInt32 (f.fEnd - f.fStart + 1) → f.fStart ≤ f.fEnd → f.size ≥ 1) ∧
    (isInt32 f.fStart → isInt32 f.fEnd → 1 ≤ f.fStart → f.fStart ≤ f.fEnd →
      f.size = f.fEnd - f.fStart + 1 ∧ f.size ≥ 1) := by
  have h1 : isInt32 (f.fEnd - f.fStart + 1) → f.size = f.fEnd - f.fStart + 1 := by
    intro h
    unfold GxfFeature.size
    rw [wrapInt32_wrapInt32_add, wrapInt32_of_isInt32 _ h]
  refine ⟨h1, ?_, ?_⟩
  · intro h hle
    rw [h1 h]
    omega
  · intro hs he h1s hle
    have hfit : isInt32 (f.fEnd - f.fStart + 1) := by
      unfold isInt32 at hs he ⊢
      omega
    rw [h1 hfit]
    exact ⟨rfl, by omega⟩

/-- C12 amended, evaluated on the exon `chr1:101-120`. -/
theorem size_eq_witness : (exampleFeature "exon" 101 120 []).size = 20 :=
  ((size_eq (exampleFeature "exon" 101 120 [])).1 (by decide)).trans (by decide)

theorem GxfFeature.overlaps_eq_true_iff (a b : GxfFeature) :
    a.overlaps b = true ↔
      a.fSeqid = b.fSeqid ∧ a.fStrand = b.fStrand ∧ a.fStart ≤ b.fEnd ∧ b.fStart ≤ a.fEnd := by
  unfold GxfFeature.overlaps
  by_cases h1 : a.fSeqid = b.fSeqid
  · by_cases h2 : a.fStrand = b.fStrand
    · by_cases h3 : a.fStart > b.fEnd
      · simp [h1, h2, h3]
      · by_cases h4 : a.fEnd < b.fStart
        · simp [h1, h2, h4]
        · simp only [h1, h2, h3, h4, ne_eq, not_true_eq_false, or_self, if_false, true_and,
            true_iff]
          omega
    · simp [h1, h2]
  · simp [h1]

/-- C13: `a.overlaps(b)` is true exactly when `a` and `b` have the same
sequence id and the same strand and their closed intervals intersect
(`a.start <= b.end` and `b.start <= a.end`); it is false whenever the
sequence ids differ or the strands differ. -/
theorem overlaps_iff (a b : GxfFeature) :
    (a.overlaps b = true ↔
      a.fSeqid = b.fSeqid ∧ a.fStrand = b.fStrand ∧ a.fStart ≤ b.fEnd ∧ b.fStart ≤ a.fEnd) ∧
    (a.fSeqid ≠ b.fSeqid → a.overlaps b = false) ∧
    (a.fStrand ≠ b.fStrand → a.overlaps b = false) := by
  refine ⟨GxfFeature.overlaps_eq_true_iff a b, ?_, ?_⟩
  · intro h
    cases hab : a.overlaps b
    · rfl
    · exact absurd ((GxfFeature.overlaps_eq_true_iff a b).mp hab).1 h
  · intro h
    cases hab : a.overlaps b
    · rfl
    · exact absurd ((GxfFeature.overlaps_eq_true_iff a b).mp hab).2.1 h

/-- C13, evaluated: an exon and a transcript of `chr1`, strand `+`, with
intersecting spans overlap. -/
theorem overlaps_iff_witness :
    (exampleFeature "exon" 101 120 []).overlaps (exampleFeature "transcript" 101 200 []) = true :=
  (overlaps_iff _ _).1.mpr (by decide)

/-- C14: `overlaps` is symmetric, `a.overlaps(b) = b.overlaps(a)` for every
two feature records. -/
theorem overlaps_symm (a b : GxfFeature) : a.overlaps b = b.overlaps a := by
  have h1 := GxfFeature.overlaps_eq_true_iff a b
  have h2 := GxfFeature.overlaps_eq_true_iff b a
  cases hab : a.overlaps b <;> cases hba : b.overlaps a
  · rfl
  · obtain ⟨e1, e2, e3, e4⟩ := h2.mp hba
    have := h1.mpr ⟨e1.symm, e2.symm, e4, e3⟩
    rw [hab] at this
    cases this
  · obtain ⟨e1, e2, e3, e4⟩ := h1.mp hab
    have := h2.mpr ⟨e1.symm, e2.symm, e4, e3⟩
    rw [hba] at this
    cases this
  · rfl

/-! ## Construction of attributes -/

theorem stringEmpty_iff (s : String) : stringEmpty s = true ↔ s = "" := by
  unfold stringEmpty
  constructor
  · intro h
    have : s.data = [] := by simpa using h
    exact String.ext this
  · intro h; subst h; rfl

theorem AttrVal.checkVal_ok (val : String) :
    AttrVal.checkVal val = .ok () ↔ val ≠ "" := by
  unfold AttrVal.checkVal
  by_cases h : stringEmpty val = true
  · rw [if_pos h]
    constructor
    · intro hc; cases hc
    · intro hne; exact absurd ((stringEmpty_iff val).mp h) hne
  · rw [if_neg h]
    constructor
    · intro _ he; exact h ((stringEmpty_iff val).mpr he)
    · intro _; rfl

theorem AttrVal.checkVal_error (val : String) (e : GxfError)
    (h : AttrVal.checkVal val = .error e) :
    val = "" ∧ e = .invalid_argument "empty attribute value" := by
  unfold AttrVal.checkVal at h
  by_cases hs : stringEmpty val = true
  · simp [hs] at h
    exact ⟨(stringEmpty_iff val).mp hs, h.symm⟩
  · simp [hs] at h

theorem AttrVal.checkName_ok (name : String) :
    AttrVal.checkName name = .ok () ↔ name ≠ "" := by
  unfold AttrVal.checkName
  by_cases h : stringEmpty name = true
  · rw [if_pos h]
    constructor
    · intro hc; cases hc
    · intro hne; exact absurd ((stringEmpty_iff name).mp h) hne
  · rw [if_neg h]
    constructor
    · intro _ he; exact h ((stringEmpty_iff name).mpr he)
    · intro _; rfl

theorem AttrVal.checkVals_ok (vals : List String) :
    AttrVal.checkVals vals = .ok () ↔ ∀ v ∈ vals, v ≠ "" := by
  induction vals with
  | nil => simp [AttrVal.checkVals]
  | cons v rest ih =>
    unfold AttrVal.checkVals
    cases hv : AttrVal.checkVal v with
    | error e =>
      have := (AttrVal.checkVal_error v e hv).1
      simp [this]
    | ok u =>
      have := (AttrVal.checkVal_ok v).mp hv
      simp [ih, this]

theorem AttrVal.checkVals_error (vals : List String) (e : GxfError)
    (h : AttrVal.checkVals vals = .error e) : e = .invalid_argument "empty attribute value" := by
  induction vals with
  | nil => simp [AttrVal.checkVals] at h
  | cons v rest ih =>
    unfold AttrVal.checkVals at h
    cases hv : AttrVal.checkVal v with
    | error e' =>
      simp [hv] at h
      rw [← h]
      exact (AttrVal.checkVal_error v e' hv).2
    | ok u =>
      simp [hv] at h
      exact ih h



theorem AttrVal.new_ok (name val : String) (quoted : Bool) (a : AttrVal)
    (h : AttrVal.new name val quoted = .ok a) :
    name ≠ "" ∧ val ≠ "" ∧ a = ⟨name, [val], quoted⟩ := by
  unfold AttrVal.new at h
  cases hn : AttrVal.checkName name with
  | error e => simp [hn] at h
  | ok u =>
    cases hv : AttrVal.checkVal val with
    | error e => simp [hn, hv] at h
    | ok u' =>
      simp [hn, hv] at h
      exact ⟨(AttrVal.checkName_ok name).mp hn, (AttrVal.checkVal_ok val).mp hv, h.symm⟩

theorem AttrVal.newVals_ok (name : String) (vals : List String) (quoted : Bool) (a : AttrVal)
    (h : AttrVal.newVals name vals quoted = .ok a) :
    name ≠ "" ∧ (∀ v ∈ vals, v ≠ "") ∧ a = ⟨name, vals, quoted⟩ := by
  unfold AttrVal.newVals at h
  cases hn : AttrVal.checkName name with
  | error e => simp [hn] at h
  | ok u =>
    cases hv : AttrVal.checkVals vals with
    | error e => simp [hn, hv] at h
    | ok u' =>
      simp [hn, hv] at h
      exact ⟨(AttrVal.checkName_ok name).mp hn, (AttrVal.checkVals_ok vals).mp hv, h.symm⟩

theorem AttrVal.addVal_ok (a b : AttrVal) (val : String) (h : a.addVal val = .ok b) :
    val ≠ "" ∧ b = { a with fVals := a.fVals ++ [val] } := by
  unfold AttrVal.addVal at h
  cases hv : AttrVal.checkVal val with
  | error e => simp [hv] at h
  | ok u =>
    simp [hv] at h
    exact ⟨(AttrVal.checkVal_ok val).mp hv, h.symm⟩

theorem AttrVal.addVal_of_ne (a : AttrVal) (val : String) (h : val ≠ "") :
    a.addVal val = .ok { a with fVals := a.fVals ++ [val] } := by
  unfold AttrVal.addVal
  rw [(AttrVal.checkVal_ok val).mpr h]

theorem AttrVal.new_of_ne (name val : String) (quoted : Bool) (hn : name ≠ "") (hv : val ≠ "") :
    AttrVal.new name val quoted = .ok ⟨name, [val], quoted⟩ := by
  unfold AttrVal.new
  rw [(AttrVal.checkName_ok name).mpr hn, (AttrVal.checkVal_ok val).mpr hv]

theorem AttrVal.Constructed.nonempty (a : AttrVal) (h : AttrVal.Constructed a) :
    a.fName ≠ "" ∧ ∀ v ∈ a.fVals, v ≠ "" := by
  induction h with
  | new name val quoted a hnew =>
    obtain ⟨hn, hv, ha⟩ := AttrVal.new_ok name val quoted a hnew
    subst ha
    exact ⟨hn, by simpa using hv⟩
  | newVals name vals quoted a hnew =>
    obtain ⟨hn, hv, ha⟩ := AttrVal.newVals_ok name vals quoted a hnew
    subst ha
    exact ⟨hn, hv⟩
  | addVal a b val _ hadd ih =>
    obtain ⟨hv, hb⟩ := AttrVal.addVal_ok a b val hadd
    subst hb
    refine ⟨ih.1, ?_⟩
    intro v hmem
    rcases List.mem_append.mp hmem with h1 | h1
    · exact ih.2 v h1
    · simp at h1
      rw [h1]; exact hv
  | copy a _ ih => exact ih

/-- C15: both constructors fail with an invalid-argument error if the name is
empty or a supplied value is empty; `addVal` with an empty value fails with
an invalid-argument error and yields no changed attribute; so every
attribute made by the constructors, `addVal` and copying has a non-empty name
and only non-empty values; a successful `addVal` keeps the name and appends
the non-empty value, and a copy equals its source. -/
theorem attrVal_nonempty (name : String) (quoted : Bool) :
    (∀ val, name = "" ∨ val = "" →
      ∃ msg, AttrVal.new name val quoted = .error (.invalid_argument msg)) ∧
    (∀ vals : List String, name = "" ∨ "" ∈ vals →
      ∃ msg, AttrVal.newVals name vals quoted = .error (.invalid_argument msg)) ∧
    (∀ a : AttrVal, a.addVal "" = .error (.invalid_argument "empty attribute value")) ∧
    (∀ a : AttrVal, AttrVal.Constructed a → a.fName ≠ "" ∧ ∀ v ∈ a.fVals, v ≠ "") ∧
    (∀ (a b : AttrVal) (val : String), a.addVal val = .ok b →
      val ≠ "" ∧ b.fName = a.fName ∧ b.fVals = a.fVals ++ [val] ∧ b.fQuoted = a.fQuoted) ∧
    (∀ a : AttrVal, a.copy = a) := by
  refine ⟨?_, ?_, ?_, AttrVal.Constructed.nonempty, ?_, fun a => rfl⟩
  · intro val h
    cases hr : AttrVal.new name val quoted with
    | ok a =>
      obtain ⟨hn, hv, _⟩ := AttrVal.new_ok name val quoted a hr
      rcases h with h | h
      · exact absurd h hn
      · exact absurd h hv
    | error e =>
      unfold AttrVal.new at hr
      unfold AttrVal.checkName AttrVal.checkVal at hr
      by_cases h1 : stringEmpty name = true
      · simp [h1] at hr; exact ⟨_, by rw [← hr]⟩
      · by_cases h2 : stringEmpty val = true
        · simp [h1, h2] at hr; exact ⟨_, by rw [← hr]⟩
        · simp [h1, h2] at hr
  · intro vals h
    cases hr : AttrVal.newVals name vals quoted with
    | ok a =>
      obtain ⟨hn, hv, _⟩ := AttrVal.newVals_ok name vals quoted a hr
      rcases h with h | h
      · exact absurd h hn
      · exact absurd rfl (hv "" h)
    | error e =>
      unfold AttrVal.newVals at hr
      cases hn : AttrVal.checkName name with
      | error e' =>
        simp [hn] at hr
        unfold AttrVal.checkName at hn
        by_cases h1 : stringEmpty name = true
        · simp [h1] at hn; exact ⟨_, by rw [← hr, ← hn]⟩
        · simp [h1] at hn
      | ok u =>
        cases hv : AttrVal.checkVals vals with
        | error e' =>
          simp [hn, hv] at hr
          exact ⟨_, by rw [← hr, AttrVal.checkVals_error vals e' hv]⟩
        | ok u' => simp [hn, hv] at hr
  · intro a
    rfl
  · intro a b val h
    obtain ⟨hv, hb⟩ := AttrVal.addVal_ok a b val h
    subst hb
    exact ⟨hv, rfl, rfl, rfl⟩

/-- C15, evaluated: the constructor rejects the empty value, and the
attribute `tag` built with the value `basic` and extended by `addVal` with
`CCDS` has non-empty name and values. -/
theorem attrVal_nonempty_witness :
    (∃ msg, AttrVal.new "tag" "" false = .error (.invalid_argument msg)) ∧
    (AttrVal.addVal ⟨"tag", ["basic"], false⟩ "CCDS" = .ok ⟨"tag", ["basic", "CCDS"], false⟩) ∧
    ((⟨"tag", ["basic", "CCDS"], false⟩ : AttrVal).fName ≠ "" ∧
      ∀ v ∈ (⟨"tag", ["basic", "CCDS"], false⟩ : AttrVal).fVals, v ≠ "") :=
  ⟨(attrVal_nonempty "tag" false).1 "" (Or.inr rfl), rfl,
   (attrVal_nonempty "tag" false).2.2.2.1 _
    (AttrVal.Constructed.addVal ⟨"tag", ["basic"], false⟩ _ "CCDS"
      (AttrVal.Constructed.new "tag" "basic" false _ rfl) rfl)⟩

/-! ## Lookup and update of attribute lists -/

theorem AttrVals.findIdx_go_none (name : String) (attrs : List AttrVal) (i : Int)
    (h : ∀ a ∈ attrs, a.fName ≠ name) : AttrVals.findIdx.go name attrs i = -1 := by
  induction attrs generalizing i with
  | nil => rfl
  | cons a rest ih =>
    unfold AttrVals.findIdx.go
    have ha : a.getName ≠ name := h a (List.mem_cons_self _ _)
    rw [if_neg ha]
    exact ih (i + 1) (fun x hx => h x (List.mem_cons_of_mem _ hx))

theorem AttrVals.findIdx_go_first (name : String) (pre : List AttrVal) (a : AttrVal)
    (post : List AttrVal) (i : Int) (hpre : ∀ y ∈ pre, y.fName ≠ name) (ha : a.fName = name) :
    AttrVals.findIdx.go name (pre ++ a :: post) i = i + pre.length := by
  induction pre generalizing i with
  | nil =>
    simp only [List.nil_append, List.length_nil]
    unfold AttrVals.findIdx.go
    have ha' : a.getName = name := ha
    rw [if_pos ha']
    simp
  | cons y rest ih =>
    simp only [List.cons_append, List.length_cons]
    unfold AttrVals.findIdx.go
    have hy : y.getName ≠ name := hpre y (List.mem_cons_self _ _)
    rw [if_neg hy, ih (i + 1) (fun x hx => hpre x (List.mem_cons_of_mem _ hx))]
    push_cast
    omega

theorem AttrVals.first_named (name : String) (attrs : List AttrVal) :
    (∀ a ∈ attrs, a.fName ≠ name) ∨
    ∃ pre a post, attrs = pre ++ a :: post ∧ (∀ y ∈ pre, y.fName ≠ name) ∧ a.fName = name := by
  induction attrs with
  | nil => exact Or.inl (by simp)
  | cons x rest ih =>
    by_cases hx : x.fName = name
    · exact Or.inr ⟨[], x, rest, rfl, by simp, hx⟩
    · rcases ih with h | ⟨pre, a, post, h1, h2, h3⟩
      · left
        intro a ha
        rcases List.mem_cons.mp ha with h' | h'
        · rw [h']; exact hx
        · exact h a h'
      · right
        refine ⟨x :: pre, a, post, by rw [h1]; rfl, ?_, h3⟩
        intro y hy
        rcases List.mem_cons.mp hy with h' | h'
        · rw [h']; exact hx
        · exact h2 y h'

theorem AttrVals.findIdx_none (attrs : AttrVals) (name : String)
    (h : ∀ a ∈ attrs, a.fName ≠ name) : AttrVals.findIdx attrs name = -1 :=
  AttrVals.findIdx_go_none name attrs 0 h

theorem AttrVals.findIdx_first (name : String) (pre : List AttrVal) (a : AttrVal)
    (post : List AttrVal) (hpre : ∀ y ∈ pre, y.fName ≠ name) (ha : a.fName = name) :
    AttrVals.findIdx (pre ++ a :: post) name = pre.length := by
  unfold AttrVals.findIdx
  rw [AttrVals.findIdx_go_first name pre a post 0 hpre ha]
  simp

theorem AttrVals.find_none (attrs : AttrVals) (name : String)
    (h : ∀ a ∈ attrs, a.fName ≠ name) : AttrVals.find attrs name = none := by
  unfold AttrVals.find
  simp [AttrVals.findIdx_none attrs name h]

theorem AttrVals.find_first (name : String) (pre : List AttrVal) (a : AttrVal)
    (post : List AttrVal) (hpre : ∀ y ∈ pre, y.fName ≠ name) (ha : a.fName = name) :
    AttrVals.find (pre ++ a :: post) name = some a := by
  unfold AttrVals.find
  have hlt : ¬ ((pre.length : Int) < 0) := by omega
  simp only [AttrVals.findIdx_first name pre a post hpre ha, hlt, if_false, Int.toNat_ofNat]
  rw [List.get?_eq_getElem?, List.getElem?_append_right (le_refl _)]
  simp

theorem AttrVals.exists_eq_false_iff (attrs : AttrVals) (name : String) :
    AttrVals.exists attrs name = false ↔ ∀ a ∈ attrs, a.fName ≠ name := by
  unfold AttrVals.exists
  rcases AttrVals.first_named name attrs with h | ⟨pre, a, post, h1, h2, h3⟩
  · simp [AttrVals.findIdx_none attrs name h]
    exact h
  · subst h1
    rw [AttrVals.findIdx_first name pre a post h2 h3]
    simp
    exact ⟨a, Or.inr (Or.inl rfl), h3⟩

theorem AttrVals.exists_eq_true_iff (attrs : AttrVals) (name : String) :
    AttrVals.exists attrs name = true ↔ ∃ a ∈ attrs, a.fName = name := by
  have h := AttrVals.exists_eq_false_iff attrs name
  cases he : AttrVals.exists attrs name
  · simp
    exact h.mp he
  · simp
    by_contra hc
    push_neg at hc
    have := h.mpr hc
    rw [he] at this
    cases this

/-- C16: `update` is replace-or-add.  If no entry of the list has the name of
`a`, the result is the list with a copy of `a` appended; otherwise the first
entry with that name is replaced by a copy of `a`, the length is unchanged
and the entries before and after it stay as they are.  In both cases
`exists(a.name)` holds afterwards and `find(a.name)` returns an attribute
equal to `a`, so with the values of `a`. -/
theorem update_replace_or_add (attrs : AttrVals) (a : AttrVal) :
    ((∀ x ∈ attrs, x.fName ≠ a.fName) → AttrVals.update attrs a = attrs ++ [a]) ∧
    (∀ pre x post, attrs = pre ++ x :: post → (∀ y ∈ pre, y.fName ≠ a.fName) →
      x.fName = a.fName →
      AttrVals.update attrs a = pre ++ a :: post ∧
      (AttrVals.update attrs a).length = attrs.length) ∧
    AttrVals.exists (AttrVals.update attrs a) a.fName = true ∧
    AttrVals.find (AttrVals.update attrs a) a.fName = some a ∧
    (∀ b, AttrVals.find (AttrVals.update attrs a) a.fName = some b → b.getVals = a.getVals) := by
  have hadd : (∀ x ∈ attrs, x.fName ≠ a.fName) → AttrVals.update attrs a = attrs ++ [a] := by
    intro h
    unfold AttrVals.update
    simp [AttrVal.getName, AttrVals.findIdx_none attrs a.fName h, AttrVals.add, AttrVal.copy]
  have hrep : ∀ pre x post, attrs = pre ++ x :: post → (∀ y ∈ pre, y.fName ≠ a.fName) →
      x.fName = a.fName → AttrVals.update attrs a = pre ++ a :: post := by
    intro pre x post h1 h2 h3
    subst h1
    unfold AttrVals.update
    simp [AttrVal.getName, AttrVals.findIdx_first a.fName pre x post h2 h3, AttrVal.copy]
  have hfind : AttrVals.find (AttrVals.update attrs a) a.fName = some a := by
    rcases AttrVals.first_named a.fName attrs with h | ⟨pre, x, post, h1, h2, h3⟩
    · rw [hadd h]
      exact AttrVals.find_first a.fName attrs a [] h rfl
    · rw [hrep pre x post h1 h2 h3]
      exact AttrVals.find_first a.fName pre a post h2 rfl
  refine ⟨hadd, ?_, ?_, hfind, ?_⟩
  · intro pre x post h1 h2 h3
    refine ⟨hrep pre x post h1 h2 h3, ?_⟩
    rw [hrep pre x post h1 h2 h3, h1]
    simp
  · rw [AttrVals.exists_eq_true_iff]
    exact ⟨a, AttrVals.find_mem _ _ _ hfind, rfl⟩
  · intro b hb
    rw [hfind] at hb
    cases hb
    rfl

/-- C16, evaluated: updating `gene_id`, `tag`, `level`, `tag` with a new
`tag` replaces the first `tag` entry only. -/
theorem update_replace_or_add_witness :
    AttrVals.update [⟨"gene_id", ["ENSG01.1"], false⟩, ⟨"tag", ["basic"], false⟩,
        ⟨"level", ["2"], false⟩, ⟨"tag", ["CCDS"], false⟩] ⟨"tag", ["PAR"], false⟩ =
      [⟨"gene_id", ["ENSG01.1"], false⟩, ⟨"tag", ["PAR"], false⟩,
        ⟨"level", ["2"], false⟩, ⟨"tag", ["CCDS"], false⟩] :=
  ((update_replace_or_add _ ⟨"tag", ["PAR"], false⟩).2.1 [⟨"gene_id", ["ENSG01.1"], false⟩]
    ⟨"tag", ["basic"], false⟩ [⟨"level", ["2"], false⟩, ⟨"tag", ["CCDS"], false⟩] rfl
    (by decide) rfl).1

/-- C17 fails as stated: the record has the attribute `tag` with the first
value `basic`; `getAttrValue("tag", "basic")` returns `basic`, the default,
although an attribute named `tag` exists. -/
theorem getAttrValue_default_counterexample :
    (exampleFeature "exon" 101 120 [⟨"tag", ["basic"], false⟩]).getAttrValueDefault
      "tag" "basic" = .ok "basic" ∧
    (exampleFeature "exon" 101 120 [⟨"tag", ["basic"], false⟩]).hasAttr "tag" = true ∧
    ¬ ((exampleFeature "exon" 101 120 [⟨"tag", ["basic"], false⟩]).getAttrValueDefault
        "tag" "basic" = .ok "basic" ↔
      (exampleFeature "exon" 101 120 [⟨"tag", ["basic"], false⟩]).hasAttr "tag" = false) := by
  refine ⟨rfl, rfl, ?_⟩
  intro h
  have := h.mp rfl
  exact absurd this (by decide)

/-- C17, amended: `getAttrValue(name, d)` returns `d` if no attribute of the
feature is named `name`, that is if `exists(name)` is false; otherwise it
returns the first value of the first attribute in list order whose name is
`name` (a value that may itself equal `d`), so a result different from `d`
shows that the attribute exists; and the lookup `get(name)` fails with an
invalid-argument error exactly when `exists(name)` is false. -/
theorem getAttrValue_default (f : GxfFeature) (name d : String) :
    (f.hasAttr name = false ↔ ∀ a ∈ f.fAttrs, a.fName ≠ name) ∧
    (f.hasAttr name = false → f.getAttrValueDefault name d = .ok d) ∧
    (∀ pre a post v rest, f.fAttrs = pre ++ a :: post → (∀ y ∈ pre, y.fName ≠ name) →
      a.fName = name → a.fVals = v :: rest →
      f.hasAttr name = true ∧ f.getAttrValueDefault name d = .ok v) ∧
    (∀ v, f.getAttrValueDefault name d = .ok v → v ≠ d → f.hasAttr name = true) ∧
    ((∃ msg, f.getAttr name = .error (.invalid_argument msg)) ↔ f.hasAttr name = false) ∧
    ((∃ e, f.getAttr name = .error e) ↔ f.hasAttr name = false) := by
  have hnone : f.hasAttr name = false → f.findAttr name = none := by
    intro h
    exact AttrVals.find_none _ _ ((AttrVals.exists_eq_false_iff _ _).mp h)
  have hsome : f.hasAttr name = true → ∃ a, f.findAttr name = some a := by
    intro h
    rcases AttrVals.first_named name f.fAttrs with h1 | ⟨pre, a, post, h1, h2, h3⟩
    · have := (AttrVals.exists_eq_false_iff _ _).mpr h1
      unfold GxfFeature.hasAttr at h
      rw [h] at this
      cases this
    · exact ⟨a, by unfold GxfFeature.findAttr; rw [h1]; exact AttrVals.find_first name pre a post h2 h3⟩
  refine ⟨AttrVals.exists_eq_false_iff _ _, ?_, ?_, ?_, ?_, ?_⟩
  · intro h
    unfold GxfFeature.getAttrValueDefault
    rw [hnone h]
  · intro pre a post v rest h1 h2 h3 h4
    constructor
    · unfold GxfFeature.hasAttr
      rw [AttrVals.exists_eq_true_iff]
      exact ⟨a, by rw [h1]; simp, h3⟩
    · unfold GxfFeature.getAttrValueDefault GxfFeature.findAttr
      rw [h1, AttrVals.find_first name pre a post h2 h3]
      simp [attrGetVal, AttrVal.getVal, h4]
  · intro v hv hne
    cases he : f.hasAttr name
    · unfold GxfFeature.getAttrValueDefault at hv
      rw [hnone he] at hv
      simp at hv
      exact absurd hv.symm hne
    · rfl
  · constructor
    · rintro ⟨msg, hmsg⟩
      cases he : f.hasAttr name
      · rfl
      · obtain ⟨a, ha⟩ := hsome he
        unfold GxfFeature.getAttr AttrVals.get at hmsg
        unfold GxfFeature.findAttr at ha
        rw [ha] at hmsg
        cases hmsg
    · intro h
      refine ⟨"Attribute not found: " ++ name, ?_⟩
      have := hnone h
      unfold GxfFeature.findAttr at this
      unfold GxfFeature.getAttr AttrVals.get
      rw [this]
  · constructor
    · rintro ⟨e, hmsg⟩
      cases he : f.hasAttr name
      · rfl
      · obtain ⟨a, ha⟩ := hsome he
        unfold GxfFeature.getAttr AttrVals.get at hmsg
        unfold GxfFeature.findAttr at ha
        rw [ha] at hmsg
        cases hmsg
    · intro h
      refine ⟨.invalid_argument ("Attribute not found: " ++ name), ?_⟩
      have := hnone h
      unfold GxfFeature.findAttr at this
      unfold GxfFeature.getAttr AttrVals.get
      rw [this]

/-- C17 amended, evaluated: with two `tag` attributes the value returned is
the first value of the first one, and a name that does not occur gives the
default. -/
theorem getAttrValue_default_witness :
    (exampleFeature "exon" 101 120
        [⟨"gene_id", ["ENSG01.1"], false⟩, ⟨"tag", ["basic", "CCDS"], false⟩,
         ⟨"tag", ["PAR"], false⟩]).getAttrValueDefault "tag" "none" = .ok "basic" ∧
    (exampleFeature "exon" 101 120
        [⟨"gene_id", ["ENSG01.1"], false⟩]).getAttrValueDefault "tag" "none" = .ok "none" :=
  ⟨((getAttrValue_default _ "tag" "none").2.2.1 [⟨"gene_id", ["ENSG01.1"], false⟩]
      ⟨"tag", ["basic", "CCDS"], false⟩ [⟨"tag", ["PAR"], false⟩] "basic" ["CCDS"] rfl
      (by decide) rfl rfl).2,
   (getAttrValue_default _ "tag" "none").2.1 (by decide)⟩

/-! ## Reading feature lines -/

/-- C20, the code at the failing input: `splitFeatureLine` returns the
columns of every line, whatever their number; for the line
`chr1<TAB>HAVANA<TAB>gene` it returns the three columns, and `read` hands
them to the dialect's feature parser. -/
theorem splitFeatureLine_returns_short_rows :
    (∀ line, GxfParser.splitFeatureLine line = .ok (stringSplit line '\t')) ∧
    GxfParser.splitFeatureLine "chr1\tHAVANA\tgene" = .ok ["chr1", "HAVANA", "gene"] ∧
    (∀ parseFeature : List String → Except GxfError GxfFeature,
      GxfParser.read parseFeature (some "chr1\tHAVANA\tgene") =
        match parseFeature ["chr1", "HAVANA", "gene"] with
        | .error e => .error e
        | .ok f => .ok (some (.feature f))) :=
  ⟨fun _ => rfl, rfl, fun _ => rfl⟩

/-! ## Splitting and trimming texts -/

theorem String.mk_data_eq (s : String) : String.mk s.data = s := rfl

theorem String.map_mk_map_data (l : List String) : (l.map String.data).map String.mk = l := by
  induction l with
  | nil => rfl
  | cons x xs ih =>
    rw [List.map_cons, List.map_cons, ih]

theorem String.data_ne_nil_iff (s : String) : s.data ≠ [] ↔ s ≠ "" := by
  constructor
  · intro h he; subst he; exact h rfl
  · intro h he; exact h (String.ext he)

theorem splitOn_append_sep (sep : Char) (x rest : List Char) (hx : sep ∉ x) :
    (x ++ sep :: rest).splitOn sep = x :: rest.splitOn sep := by
  unfold List.splitOn
  apply List.splitOnP_first
  · intro c hc hcs
    have : c = sep := by simpa using hcs
    subst this
    exact hx hc
  · simp

theorem splitOn_of_not_mem (sep : Char) (x : List Char) (hx : sep ∉ x) :
    x.splitOn sep = [x] := by
  unfold List.splitOn
  apply List.splitOnP_eq_single
  intro c hc hcs
  have : c = sep := by simpa using hcs
  subst this
  exact hx hc

theorem splitOn_separatedBy (sep : Char) (x : List Char) (xs : List (List Char))
    (hx : sep ∉ x) (hxs : ∀ y ∈ xs, sep ∉ y) :
    (separatedBy [sep] (x :: xs)).splitOn sep = x :: xs := by
  induction xs generalizing x with
  | nil => simpa [separatedBy, precededBy] using splitOn_of_not_mem sep x hx
  | cons y ys ih =>
    have h := ih y (hxs y (List.mem_cons_self _ _))
      (fun z hz => hxs z (List.mem_cons_of_mem _ hz))
    simp only [separatedBy, precededBy, List.singleton_append, List.append_assoc,
      List.cons_append, List.nil_append] at h ⊢
    rw [splitOn_append_sep sep x _ hx, h]

theorem splitOnP_parts (P : Char → Bool) (l : List Char) :
    ∀ part ∈ l.splitOnP P, ∀ c ∈ part, P c = false ∧ c ∈ l := by
  induction l with
  | nil => simp
  | cons x xs ih =>
    rw [List.splitOnP_cons]
    by_cases hx : P x = true
    · rw [if_pos hx]
      intro part hpart c hc
      rcases List.mem_cons.mp hpart with h | h
      · subst h; cases hc
      · exact ⟨(ih part h c hc).1, List.mem_cons_of_mem _ (ih part h c hc).2⟩
    · rw [if_neg hx]
      cases hsp : xs.splitOnP P with
      | nil => exact absurd hsp (List.splitOnP_ne_nil P xs)
      | cons p ps =>
        rw [hsp] at ih
        simp only [List.modifyHead]
        intro part hpart c hc
        rcases List.mem_cons.mp hpart with h | h
        · subst h
          rcases List.mem_cons.mp hc with h' | h'
          · subst h'
            exact ⟨by simpa using hx, List.mem_cons_self _ _⟩
          · have := ih p (List.mem_cons_self _ _) c h'
            exact ⟨this.1, List.mem_cons_of_mem _ this.2⟩
        · have := ih part (List.mem_cons_of_mem _ h) c hc
          exact ⟨this.1, List.mem_cons_of_mem _ this.2⟩

theorem splitOn_parts (sep : Char) (l : List Char) :
    ∀ part ∈ l.splitOn sep, sep ∉ part ∧ ∀ c ∈ part, c ∈ l := by
  intro part hpart
  constructor
  · intro hmem
    have := (splitOnP_parts (· == sep) l part hpart sep hmem).1
    simp at this
  · intro c hc
    exact (splitOnP_parts (· == sep) l part hpart c hc).2

theorem stringSplit_ne_nil (s : String) (sep : Char) : stringSplit s sep ≠ [] := by
  unfold stringSplit List.splitOn
  intro h
  exact List.splitOnP_ne_nil _ _ (List.map_eq_nil_iff.mp h)

theorem stringSplit_parts (s : String) (sep : Char) :
    ∀ part ∈ stringSplit s sep, sep ∉ part.data ∧ ∀ c ∈ part.data, c ∈ s.data := by
  intro part hpart
  unfold stringSplit at hpart
  obtain ⟨l, hl, rfl⟩ := List.mem_map.mp hpart
  exact splitOn_parts sep s.data l hl

theorem stringTrim_of_trimmed (l : List Char)
    (hhead : ∀ c, l.head? = some c → isSpace c = false)
    (hlast : ∀ c, l.getLast? = some c → isSpace c = false) :
    stringTrim ⟨l⟩ = ⟨l⟩ := by
  unfold stringTrim
  have h1 : l.dropWhile isSpace = l := by
    cases l with
    | nil => rfl
    | cons c rest =>
      have := hhead c rfl
      simp [List.dropWhile_cons, this]
  simp only [h1]
  have h2 : l.rdropWhile isSpace = l := by
    rw [List.rdropWhile_eq_self_iff]
    intro hl hsp
    have := hlast (l.getLast hl) (List.getLast?_eq_getLast _ hl)
    rw [this] at hsp
    cases hsp
  rw [h2]

theorem stringTrim_space_cons (l : List Char) (c : Char) (hc : isSpace c = true) :
    stringTrim ⟨c :: l⟩ = stringTrim ⟨l⟩ := by
  unfold stringTrim
  simp [List.dropWhile_cons, hc]

theorem stringTrim_mem (s : String) : ∀ c ∈ (stringTrim s).data, c ∈ s.data := by
  intro c hc
  unfold stringTrim at hc
  have h1 : c ∈ s.data.dropWhile isSpace :=
    (List.rdropWhile_prefix isSpace _).subset hc
  exact (List.dropWhile_suffix isSpace).subset h1

theorem stringTrim_head (s : String) :
    ∀ c, (stringTrim s).data.head? = some c → isSpace c = false := by
  intro c hc
  unfold stringTrim at hc
  simp only at hc
  obtain ⟨t, ht⟩ := List.rdropWhile_prefix isSpace (s.data.dropWhile isSpace)
  cases hr : (s.data.dropWhile isSpace).rdropWhile isSpace with
  | nil => rw [hr] at hc; cases hc
  | cons x rest =>
    rw [hr] at hc ht
    simp at hc
    subst hc
    have hd : (s.data.dropWhile isSpace).head? = some x := by rw [← ht]; rfl
    have := List.head?_dropWhile_not isSpace s.data
    rw [hd] at this
    simpa using this

/-! ## The GFF3 attribute column -/

theorem Gff3Writer.formatAttr_loop_succ (vals : List String) (i : Nat) (acc : String) :
    (Gff3Writer.formatAttr.loop vals (i + 1) acc).data =
      acc.data ++ precededBy [','] (vals.map String.data) := by
  induction vals generalizing i acc with
  | nil => simp [Gff3Writer.formatAttr.loop, precededBy]
  | cons v rest ih =>
    rw [Gff3Writer.formatAttr.loop, ih]
    simp [precededBy]

theorem Gff3Writer.formatAttr_data (a : AttrVal) :
    (Gff3Writer.formatAttr a).data = a.fName.data ++ '=' :: a.valuesText.data := by
  unfold Gff3Writer.formatAttr AttrVal.valuesText AttrVal.getVals AttrVal.getName
  cases a.fVals with
  | nil => simp [Gff3Writer.formatAttr.loop, separatedBy]
  | cons v rest =>
    rw [Gff3Writer.formatAttr.loop, Gff3Writer.formatAttr_loop_succ]
    simp [separatedBy]

theorem Gff3Writer.formatAttrs_loop_succ (attrs : List AttrVal) (i : Nat) (acc : String) :
    (Gff3Writer.formatAttrs.loop attrs (i + 1) acc).data =
      acc.data ++ precededBy [';'] (attrs.map (fun a => (Gff3Writer.formatAttr a).data)) := by
  induction attrs generalizing i acc with
  | nil => simp [Gff3Writer.formatAttrs.loop, precededBy]
  | cons a rest ih =>
    rw [Gff3Writer.formatAttrs.loop, ih]
    simp [precededBy]

theorem Gff3Writer.formatAttrs_data (attrs : AttrVals) :
    (Gff3Writer.formatAttrs attrs).data =
      separatedBy [';'] (attrs.map (fun a => (Gff3Writer.formatAttr a).data)) := by
  unfold Gff3Writer.formatAttrs
  cases attrs with
  | nil => simp [Gff3Writer.formatAttrs.loop, separatedBy]
  | cons a rest =>
    rw [Gff3Writer.formatAttrs.loop, Gff3Writer.formatAttrs_loop_succ]
    simp [separatedBy]

theorem precededBy_mem (sep : List Char) (xs : List (List Char)) :
    ∀ c ∈ precededBy sep xs, c ∈ sep ∨ ∃ x ∈ xs, c ∈ x := by
  induction xs with
  | nil => simp [precededBy]
  | cons x rest ih =>
    intro c hc
    simp only [precededBy, List.mem_append] at hc
    rcases hc with (h | h) | h
    · exact Or.inl h
    · exact Or.inr ⟨x, List.mem_cons_self _ _, h⟩
    · rcases ih c h with h' | ⟨y, hy, hcy⟩
      · exact Or.inl h'
      · exact Or.inr ⟨y, List.mem_cons_of_mem _ hy, hcy⟩

theorem separatedBy_mem (sep : List Char) (xs : List (List Char)) :
    ∀ c ∈ separatedBy sep xs, c ∈ sep ∨ ∃ x ∈ xs, c ∈ x := by
  cases xs with
  | nil => simp [separatedBy]
  | cons x rest =>
    intro c hc
    simp only [separatedBy, List.mem_append] at hc
    rcases hc with h | h
    · exact Or.inr ⟨x, List.mem_cons_self _ _, h⟩
    · rcases precededBy_mem sep rest c h with h' | ⟨y, hy, hcy⟩
      · exact Or.inl h'
      · exact Or.inr ⟨y, List.mem_cons_of_mem _ hy, hcy⟩

theorem indexOf_append_cons (c : Char) (pre post : List Char) (h : c ∉ pre) :
    (pre ++ c :: post).indexOf c = pre.length := by
  induction pre with
  | nil => simp
  | cons x rest ih =>
    have hx : x ≠ c := fun e => h (by rw [e]; exact List.mem_cons_self _ _)
    have hrest : c ∉ rest := fun e => h (List.mem_cons_of_mem _ e)
    simp [List.indexOf_cons, hx, ih hrest]

theorem stringFind_append_cons (c : Char) (pre post : List Char) (h : c ∉ pre) :
    stringFind ⟨pre ++ c :: post⟩ c = some pre.length := by
  unfold stringFind
  simp [indexOf_append_cons c pre post h]

theorem mem_split_first (c : Char) (l : List Char) (h : c ∈ l) :
    ∃ pre post, l = pre ++ c :: post ∧ c ∉ pre := by
  induction l with
  | nil => cases h
  | cons x rest ih =>
    by_cases hx : x = c
    · exact ⟨[], rest, by rw [hx]; rfl, by simp⟩
    · have hrest : c ∈ rest := by
        rcases List.mem_cons.mp h with h' | h'
        · exact absurd h'.symm hx
        · exact h'
      obtain ⟨pre, post, h1, h2⟩ := ih hrest
      refine ⟨x :: pre, post, by rw [h1]; rfl, ?_⟩
      intro hm
      rcases List.mem_cons.mp hm with h' | h'
      · exact hx h'.symm
      · exact h2 h'

theorem Gff3Parser.addVals_ok (b : AttrVal) (vals : List String) (h : ∀ v ∈ vals, v ≠ "") :
    Gff3Parser.addVals b vals = .ok { b with fVals := b.fVals ++ vals } := by
  induction vals generalizing b with
  | nil => simp [Gff3Parser.addVals]
  | cons v rest ih =>
    rw [Gff3Parser.addVals, AttrVal.addVal_of_ne b v (h v (List.mem_cons_self _ _))]
    simp only
    rw [ih _ (fun x hx => h x (List.mem_cons_of_mem _ hx))]
    simp

theorem Gff3Parser.addVals_result (b c : AttrVal) (vals : List String)
    (h : Gff3Parser.addVals b vals = .ok c) :
    c = { b with fVals := b.fVals ++ vals } ∧ ∀ v ∈ vals, v ≠ "" := by
  induction vals generalizing b with
  | nil =>
    simp [Gff3Parser.addVals] at h
    subst h
    simp
  | cons v rest ih =>
    rw [Gff3Parser.addVals] at h
    cases hv : b.addVal v with
    | error e => simp [hv] at h
    | ok b' =>
      simp only [hv] at h
      obtain ⟨hne, hb'⟩ := AttrVal.addVal_ok b b' v hv
      obtain ⟨hc, hrest⟩ := ih b' h
      subst hb'
      refine ⟨by rw [hc]; simp, ?_⟩
      intro x hx
      rcases List.mem_cons.mp hx with h' | h'
      · rw [h']; exact hne
      · exact hrest x h'

theorem getLast?_append_cons (pre : List Char) (c : Char) (post : List Char) :
    (pre ++ c :: post).getLast? = (c :: post).getLast? := by
  induction pre with
  | nil => rfl
  | cons x rest ih =>
    cases h : rest ++ c :: post with
    | nil => simp at h
    | cons y l => rw [List.cons_append, h, List.getLast?_cons_cons, ← h, ih]

theorem drop_append_cons (pre : List Char) (c : Char) (post : List Char) :
    (pre ++ c :: post).drop (pre.length + 1) = post := by
  induction pre with
  | nil => rfl
  | cons x rest _ => simp

theorem take_append_cons (pre : List Char) (c : Char) (post : List Char) :
    (pre ++ c :: post).take pre.length = pre := by
  induction pre with
  | nil => rfl
  | cons x rest _ => simp

theorem Gff3Parser.parseAttr_formatAttr (a : AttrVal) (acc : AttrVals)
    (hwf : Gff3Parser.Parsed a) (hrb : Gff3Writer.ReadBack a) :
    Gff3Parser.parseAttr (stringTrim (Gff3Writer.formatAttr a)) acc = .ok (acc ++ [a]) := by
  obtain ⟨hq, hname, heq, _, hhead, hvals, hval⟩ := hwf
  obtain ⟨hnq, hlast⟩ := hrb
  have hfmt : Gff3Writer.formatAttr a = ⟨a.fName.data ++ '=' :: a.valuesText.data⟩ :=
    String.ext (Gff3Writer.formatAttr_data a)
  have hnd : a.fName.data ≠ [] := (String.data_ne_nil_iff _).mpr hname
  have htrim : stringTrim (Gff3Writer.formatAttr a) = Gff3Writer.formatAttr a := by
    rw [hfmt]
    apply stringTrim_of_trimmed
    · intro c hc
      apply hhead c
      cases hd : a.fName.data with
      | nil => exact absurd hd hnd
      | cons x rest => rw [hd] at hc; simpa using hc
    · intro c hc
      rw [getLast?_append_cons] at hc
      cases hj : a.valuesText.data with
      | nil =>
        rw [hj] at hc
        simp at hc
        subst hc
        decide
      | cons x rest =>
        rw [hj, List.getLast?_cons_cons] at hc
        exact hlast c (by rw [hj]; exact hc)
  rw [htrim, hfmt]
  unfold Gff3Parser.parseAttr
  rw [stringFind_append_cons '=' _ _ heq]
  have hsub : stringSubstr ⟨a.fName.data ++ '=' :: a.valuesText.data⟩ 0 a.fName.data.length
      = a.fName := by
    unfold stringSubstr
    apply String.ext
    exact take_append_cons _ _ _
  have hfrom : stringSubstrFrom ⟨a.fName.data ++ '=' :: a.valuesText.data⟩
      (a.fName.data.length + 1) = a.valuesText := by
    unfold stringSubstrFrom
    apply String.ext
    exact drop_append_cons _ _ _
  simp only [hsub, hfrom]
  have hstrip : stripQuotes a.valuesText = a.valuesText := by
    unfold stripQuotes
    rw [hnq]
    simp
  rw [hstrip]
  cases hv : a.fVals with
  | nil => exact absurd hv hvals
  | cons v0 rest =>
    have hsplit : stringSplit a.valuesText ',' = v0 :: rest := by
      unfold stringSplit AttrVal.valuesText
      simp only [hv, List.map_cons]
      rw [splitOn_separatedBy]
      · rw [← List.map_cons, String.map_mk_map_data]
      · exact (hval v0 (by rw [hv]; exact List.mem_cons_self _ _)).2.1
      · intro y hy
        obtain ⟨w, hw, rfl⟩ := List.mem_map.mp hy
        exact (hval w (by rw [hv]; exact List.mem_cons_of_mem _ hw)).2.1
    rw [hsplit]
    simp only
    rw [AttrVal.new_of_ne a.fName v0 false hname
      (hval v0 (by rw [hv]; exact List.mem_cons_self _ _)).1]
    simp only
    rw [Gff3Parser.addVals_ok _ rest
      (fun x hx => (hval x (by rw [hv]; exact List.mem_cons_of_mem _ hx)).1)]
    simp only [List.singleton_append]
    cases a with
    | mk n vs q =>
      simp only at hq hv
      subst hq hv
      rfl

theorem Gff3Parser.parseParts_formatAttr (attrs : List AttrVal) (acc : AttrVals)
    (hwf : ∀ a ∈ attrs, Gff3Parser.Parsed a) (hrb : ∀ a ∈ attrs, Gff3Writer.ReadBack a) :
    Gff3Parser.parseParts (attrs.map Gff3Writer.formatAttr) acc = .ok (acc ++ attrs) := by
  induction attrs generalizing acc with
  | nil => simp [Gff3Parser.parseParts]
  | cons a rest ih =>
    rw [List.map_cons, Gff3Parser.parseParts,
      Gff3Parser.parseAttr_formatAttr a acc (hwf a (List.mem_cons_self _ _))
        (hrb a (List.mem_cons_self _ _))]
    simp only
    rw [ih _ (fun x hx => hwf x (List.mem_cons_of_mem _ hx))
      (fun x hx => hrb x (List.mem_cons_of_mem _ hx))]
    simp

theorem Gff3Writer.valuesText_mem (a : AttrVal) (c : Char) (hc : c ∈ a.valuesText.data) :
    c = ',' ∨ ∃ v ∈ a.fVals, c ∈ v.data := by
  unfold AttrVal.valuesText at hc
  rcases separatedBy_mem [','] _ c hc with h | ⟨x, hx, hcx⟩
  · left; simpa using h
  · obtain ⟨v, hv, rfl⟩ := List.mem_map.mp hx
    exact Or.inr ⟨v, hv, hcx⟩

theorem Gff3Parser.parseAttrs_formatAttrs (attrs : AttrVals) (hne : attrs ≠ [])
    (hwf : ∀ a ∈ attrs, Gff3Parser.Parsed a) (hrb : ∀ a ∈ attrs, Gff3Writer.ReadBack a) :
    Gff3Parser.parseAttrs (Gff3Writer.formatAttrs attrs) = .ok attrs := by
  unfold Gff3Parser.parseAttrs
  have hsplit : stringSplit (Gff3Writer.formatAttrs attrs) ';' =
      attrs.map Gff3Writer.formatAttr := by
    unfold stringSplit
    rw [Gff3Writer.formatAttrs_data]
    cases attrs with
    | nil => exact absurd rfl hne
    | cons a rest =>
      have hpart : ∀ b ∈ a :: rest, ';' ∉ (Gff3Writer.formatAttr b).data := by
        intro b hb hmem
        rw [Gff3Writer.formatAttr_data] at hmem
        obtain ⟨_, _, _, hsn, _, _, hval⟩ := hwf b hb
        rcases List.mem_append.mp hmem with h | h
        · exact hsn h
        · rcases List.mem_cons.mp h with h' | h'
          · cases h'
          · rcases Gff3Writer.valuesText_mem b ';' h' with h'' | ⟨v, hv, hcv⟩
            · cases h''
            · exact (hval v hv).2.2 hcv
      rw [List.map_cons, splitOn_separatedBy]
      · rw [← List.map_cons (f := fun a => (Gff3Writer.formatAttr a).data), List.map_map]
        apply List.map_congr_left
        intro b _
        rfl
      · exact hpart a (List.mem_cons_self _ _)
      · intro y hy
        obtain ⟨b, hb, rfl⟩ := List.mem_map.mp hy
        exact hpart b (List.mem_cons_of_mem _ hb)
  rw [hsplit, Gff3Parser.parseParts_formatAttr attrs [] hwf hrb]
  simp

theorem stripQuotes_mem (s : String) : ∀ c ∈ (stripQuotes s).data, c ∈ s.data := by
  intro c hc
  unfold stripQuotes at hc
  split at hc
  · unfold stringSubstr at hc
    exact List.mem_of_mem_drop (List.mem_of_mem_take hc)
  · exact hc

theorem Gff3Parser.parseAttr_parsed (attrStr : String) (acc attrs : AttrVals)
    (h : Gff3Parser.parseAttr attrStr acc = .ok attrs) (hsemi : ';' ∉ attrStr.data)
    (hhead : ∀ c, attrStr.data.head? = some c → isSpace c = false) :
    ∃ a, attrs = acc ++ [a] ∧ Gff3Parser.Parsed a := by
  unfold Gff3Parser.parseAttr at h
  by_cases hmem : '=' ∈ attrStr.data
  · obtain ⟨pre, post, hdata, hpre⟩ := mem_split_first '=' attrStr.data hmem
    have hstr : attrStr = ⟨pre ++ '=' :: post⟩ := String.ext hdata
    rw [hstr, stringFind_append_cons '=' pre post hpre] at h
    have hsub : stringSubstr ⟨pre ++ '=' :: post⟩ 0 pre.length = ⟨pre⟩ :=
      String.ext (take_append_cons _ _ _)
    have hfrom : stringSubstrFrom ⟨pre ++ '=' :: post⟩ (pre.length + 1) = ⟨post⟩ :=
      String.ext (drop_append_cons _ _ _)
    simp only [hsub, hfrom] at h
    cases hsp : stringSplit (stripQuotes ⟨post⟩) ',' with
    | nil => exact absurd hsp (stringSplit_ne_nil _ _)
    | cons v0 rest =>
      rw [hsp] at h
      simp only at h
      cases hnew : AttrVal.new ⟨pre⟩ v0 false with
      | error e => simp [hnew] at h
      | ok b =>
        simp only [hnew] at h
        obtain ⟨hn, hv0, hb⟩ := AttrVal.new_ok _ _ _ _ hnew
        cases hadd : Gff3Parser.addVals b rest with
        | error e => simp [hadd] at h
        | ok a =>
          simp only [hadd] at h
          obtain ⟨ha, hrest⟩ := Gff3Parser.addVals_result b a rest hadd
          subst hb
          simp only [List.singleton_append] at ha
          refine ⟨a, by cases h; rfl, ?_⟩
          subst ha
          have hsub : ∀ c ∈ pre, c ∈ attrStr.data := by
            intro c hc; rw [hdata]; exact List.mem_append_left _ hc
          have hpostsub : ∀ c ∈ post, c ∈ attrStr.data := by
            intro c hc; rw [hdata]
            exact List.mem_append_right _ (List.mem_cons_of_mem _ hc)
          refine ⟨rfl, hn, hpre, fun hc => hsemi (hsub _ hc), ?_, by simp, ?_⟩
          · intro c hc
            apply hhead c
            rw [hdata]
            cases pre with
            | nil => cases hc
            | cons x xs => simpa using hc
          · intro v hv
            have hvs : v ∈ stringSplit (stripQuotes ⟨post⟩) ',' := by rw [hsp]; exact hv
            obtain ⟨hcomma, hsubv⟩ := stringSplit_parts _ _ v hvs
            refine ⟨?_, hcomma, ?_⟩
            · rcases List.mem_cons.mp hv with h' | h'
              · rw [h']; exact hv0
              · exact hrest v h'
            · intro hc
              exact hsemi (hpostsub _ (stripQuotes_mem ⟨post⟩ _ (hsubv _ hc)))
  · unfold stringFind at h
    simp [hmem] at h

theorem Gff3Parser.parseParts_parsed (parts : List String) (acc attrs : AttrVals)
    (h : Gff3Parser.parseParts parts acc = .ok attrs)
    (hsemi : ∀ p ∈ parts, ';' ∉ p.data) (hacc : ∀ a ∈ acc, Gff3Parser.Parsed a) :
    (∀ a ∈ attrs, Gff3Parser.Parsed a) ∧ attrs.length = acc.length + parts.length := by
  induction parts generalizing acc with
  | nil =>
    simp [Gff3Parser.parseParts] at h
    subst h
    exact ⟨hacc, rfl⟩
  | cons p rest ih =>
    rw [Gff3Parser.parseParts] at h
    cases hp : Gff3Parser.parseAttr (stringTrim p) acc with
    | error e => simp [hp] at h
    | ok acc' =>
      simp only [hp] at h
      obtain ⟨a, hacc', hpa⟩ := Gff3Parser.parseAttr_parsed (stringTrim p) acc acc' hp
        (fun hc => hsemi p (List.mem_cons_self _ _) (stringTrim_mem p _ hc))
        (stringTrim_head p)
      have := ih acc' h (fun q hq => hsemi q (List.mem_cons_of_mem _ hq)) (by
        intro x hx
        rw [hacc'] at hx
        rcases List.mem_append.mp hx with h' | h'
        · exact hacc x h'
        · simp at h'; rw [h']; exact hpa)
      refine ⟨this.1, ?_⟩
      rw [this.2, hacc']
      simp
      omega

theorem Gff3Parser.parseAttrs_parsed (s : String) (attrs : AttrVals)
    (h : Gff3Parser.parseAttrs s = .ok attrs) :
    attrs ≠ [] ∧ ∀ a ∈ attrs, Gff3Parser.Parsed a := by
  unfold Gff3Parser.parseAttrs at h
  obtain ⟨hp, hlen⟩ := Gff3Parser.parseParts_parsed _ [] attrs h
    (fun p hp => (stringSplit_parts s ';' p hp).1) (by simp)
  refine ⟨?_, hp⟩
  intro he
  subst he
  have := stringSplit_ne_nil s ';'
  cases hs : stringSplit s ';' with
  | nil => exact this hs
  | cons x xs => rw [hs] at hlen; simp at hlen

/-- C19 fails as stated: the column `a=""x""` is accepted and yields the value
`"x"` with its quote characters; the writer emits `a="x"`, which is read back
as the value `x`.  The column `a=" x "` yields the value ` x ` with
surrounding spaces; the writer emits `a= x `, which is read back as ` x`. -/
theorem gff3_roundtrip_counterexample :
    Gff3Parser.parseAttrs "a=\"\"x\"\"" = .ok [⟨"a", ["\"x\""], false⟩] ∧
    Gff3Writer.formatAttrs [⟨"a", ["\"x\""], false⟩] = "a=\"x\"" ∧
    Gff3Parser.parseAttrs (Gff3Writer.formatAttrs [⟨"a", ["\"x\""], false⟩]) =
      .ok [⟨"a", ["x"], false⟩] ∧
    Gff3Parser.parseAttrs "a=\" x \"" = .ok [⟨"a", [" x "], false⟩] ∧
    Gff3Writer.formatAttrs [⟨"a", [" x "], false⟩] = "a= x " ∧
    Gff3Parser.parseAttrs (Gff3Writer.formatAttrs [⟨"a", [" x "], false⟩]) =
      .ok [⟨"a", [" x"], false⟩] ∧
    AttrVals.find [⟨"a", ["x"], false⟩] "a" ≠ AttrVals.find [⟨"a", ["\"x\""], false⟩] "a" ∧
    AttrVals.find [⟨"a", [" x"], false⟩] "a" ≠ AttrVals.find [⟨"a", [" x "], false⟩] "a" :=
  ⟨rfl, rfl, rfl, rfl, rfl, rfl, by decide, by decide⟩

/-- C19, amended: for every GFF3 attribute column that `Gff3Parser::parseAttrs`
accepts, yielding the list `A`, if for every attribute of `A` the text of its
values (the values with `,` between them) is not enclosed in double quotes
and does not end with white space, then `Gff3Writer::formatAttrs(A)` is
accepted again and yields a list equal to `A`, names and ordered values. -/
theorem gff3_roundtrip (s : String) (attrs : AttrVals)
    (h : Gff3Parser.parseAttrs s = .ok attrs)
    (hrb : ∀ a ∈ attrs, Gff3Writer.ReadBack a) :
    Gff3Parser.parseAttrs (Gff3Writer.formatAttrs attrs) = .ok attrs := by
  obtain ⟨hne, hp⟩ := Gff3Parser.parseAttrs_parsed s attrs h
  exact Gff3Parser.parseAttrs_formatAttrs attrs hne hp hrb

/-- C19 amended, evaluated on a column with a quoted value and a value list:
what is written for the parsed list is `ID=ENSG01.1;gene_name=DDX 11;tag=basic,CCDS`
and it is read back as the same list. -/
theorem gff3_roundtrip_witness :
    Gff3Parser.parseAttrs "ID=ENSG01.1; gene_name=\"DDX 11\" ;tag=basic,CCDS" =
      .ok [⟨"ID", ["ENSG01.1"], false⟩, ⟨"gene_name", ["DDX 11"], false⟩,
           ⟨"tag", ["basic", "CCDS"], false⟩] ∧
    Gff3Parser.parseAttrs (Gff3Writer.formatAttrs
        [⟨"ID", ["ENSG01.1"], false⟩, ⟨"gene_name", ["DDX 11"], false⟩,
         ⟨"tag", ["basic", "CCDS"], false⟩]) =
      .ok [⟨"ID", ["ENSG01.1"], false⟩, ⟨"gene_name", ["DDX 11"], false⟩,
           ⟨"tag", ["basic", "CCDS"], false⟩] :=
  ⟨rfl, gff3_roundtrip "ID=ENSG01.1; gene_name=\"DDX 11\" ;tag=basic,CCDS" _ rfl (by
    intro a ha
    simp only [List.mem_cons, List.mem_singleton, List.not_mem_nil, or_false] at ha
    rcases ha with ha | ha | ha <;> subst ha <;>
      exact ⟨by decide, by intro c hc; cases hc; decide⟩)⟩

/-! ## The GTF attribute column -/

theorem precededBy_append (sep : List Char) (xs ys : List (List Char)) :
    precededBy sep (xs ++ ys) = precededBy sep xs ++ precededBy sep ys := by
  induction xs with
  | nil => rfl
  | cons x rest ih => simp [precededBy, ih]

theorem precededBy_cons_eq (sep : List Char) (x : List Char) (xs : List (List Char)) :
    precededBy sep (x :: xs) = sep ++ separatedBy sep (x :: xs) := by
  simp [precededBy, separatedBy]

theorem separatedBy_append (sep : List Char) (x : List Char) (xs ys : List (List Char)) :
    separatedBy sep (x :: xs ++ ys) = separatedBy sep (x :: xs) ++ precededBy sep ys := by
  simp [separatedBy, precededBy_append]

theorem GtfWriter.formatAttrVal_eq (m : ParIdHackMethod) (name val : String) (isParY : Bool)
    (hm : isParY = false ∨ m = .PAR_ID_HACK_NEW) :
    GtfWriter.formatAttrVal m name val isParY = .ok ⟨GtfWriter.pairText isParY name val⟩ := by
  unfold GtfWriter.formatAttrVal GtfWriter.pairText GtfWriter.emittedValue
  by_cases hh : (isParY && isParIdNonUniqAttr name) = true
  · have hpy : isParY = true := by
      cases isParY
      · simp at hh
      · rfl
    have hm' : m = .PAR_ID_HACK_NEW := by
      rcases hm with h | h
      · rw [hpy] at h; cases h
      · exact h
    subst hm'
    simp only [hh, if_true]
    unfold GtfWriter.addParUniqHack
    simp only [reduceCtorEq, if_false]
    cases hn : isNumeric val
    · simp only [Bool.not_false, if_true, Bool.false_eq_true, if_false]
      first | rfl | (congr 1; apply String.ext; simp)
    · simp only [Bool.not_true, Bool.false_eq_true, if_false, if_true]
      first | rfl | (congr 1; apply String.ext; simp)
  · simp only [hh, if_false, Bool.false_eq_true]
    cases hn : isNumeric val
    · simp only [Bool.not_false, if_true, Bool.false_eq_true, if_false]
      first | rfl | (congr 1; apply String.ext; simp)
    · simp only [Bool.not_true, Bool.false_eq_true, if_false, if_true]
      first | rfl | (congr 1; apply String.ext; simp)

theorem GtfWriter.formatAttr_loop_succ_gtf (m : ParIdHackMethod) (name : String) (isParY : Bool)
    (hm : isParY = false ∨ m = .PAR_ID_HACK_NEW) (vals : List String) (i : Nat) (acc : String) :
    GtfWriter.formatAttr.loop m name isParY vals (i + 1) acc =
      .ok ⟨acc.data ++ precededBy [' ']
        (vals.map (fun v => GtfWriter.pairText isParY name v ++ [';']))⟩ := by
  induction vals generalizing i acc with
  | nil => simp [GtfWriter.formatAttr.loop, precededBy]
  | cons v rest ih =>
    rw [GtfWriter.formatAttr.loop, GtfWriter.formatAttrVal_eq m name v isParY hm]
    simp only
    rw [ih]
    congr 1
    apply String.ext
    simp [precededBy]

theorem GtfWriter.formatAttr_eq (m : ParIdHackMethod) (a : AttrVal) (isParY : Bool)
    (hm : isParY = false ∨ m = .PAR_ID_HACK_NEW) :
    GtfWriter.formatAttr m a isParY =
      .ok ⟨separatedBy [' ']
        (a.fVals.map (fun v => GtfWriter.pairText isParY a.fName v ++ [';']))⟩ := by
  unfold GtfWriter.formatAttr AttrVal.getVals AttrVal.getName
  cases a.fVals with
  | nil => simp [GtfWriter.formatAttr.loop, separatedBy]
  | cons v rest =>
    rw [GtfWriter.formatAttr.loop, GtfWriter.formatAttrVal_eq m a.fName v isParY hm]
    simp only
    rw [GtfWriter.formatAttr_loop_succ_gtf m a.fName isParY hm]
    congr 1

theorem GtfWriter.pairTexts_filter_cons (isParY : Bool) (a : AttrVal) (rest : List AttrVal) :
    GtfWriter.pairTexts isParY ((a :: rest).filter GtfWriter.includeAttr) =
      (if GtfWriter.includeAttr a then a.fVals.map (GtfWriter.pairText isParY a.fName) else [])
        ++ GtfWriter.pairTexts isParY (rest.filter GtfWriter.includeAttr) := by
  by_cases h : GtfWriter.includeAttr a = true
  · simp [List.filter_cons, h, GtfWriter.pairTexts]
  · simp [List.filter_cons, h]

theorem GtfWriter.formatAttrs_loop_eq (m : ParIdHackMethod) (isParY : Bool)
    (hm : isParY = false ∨ m = .PAR_ID_HACK_NEW) (attrs : List AttrVal)
    (hvals : ∀ a ∈ attrs, a.fVals ≠ []) (acc : String) :
    GtfWriter.formatAttrs.loop m isParY attrs acc =
      .ok ⟨if acc.data = [] then
          separatedBy [' '] ((GtfWriter.pairTexts isParY
            (attrs.filter GtfWriter.includeAttr)).map (· ++ [';']))
        else acc.data ++ precededBy [' '] ((GtfWriter.pairTexts isParY
            (attrs.filter GtfWriter.includeAttr)).map (· ++ [';']))⟩ := by
  induction attrs generalizing acc with
  | nil =>
    simp only [GtfWriter.formatAttrs.loop, List.filter_nil, GtfWriter.pairTexts, List.map_nil,
      separatedBy, precededBy, List.append_nil]
    congr 1
    apply String.ext
    by_cases h : acc.data = [] <;> simp [h]
  | cons a rest ih =>
    have hrest : ∀ b ∈ rest, b.fVals ≠ [] := fun b hb => hvals b (List.mem_cons_of_mem _ hb)
    rw [GtfWriter.formatAttrs.loop, GtfWriter.pairTexts_filter_cons]
    by_cases hinc : GtfWriter.includeAttr a = true
    · simp only [hinc, if_true]
      rw [GtfWriter.formatAttr_eq m a isParY hm]
      simp only
      rw [ih hrest]
      congr 1
      apply String.ext
      cases hv : a.fVals with
      | nil => exact absurd hv (hvals a (List.mem_cons_self _ _))
      | cons v vs =>
        have hne : ¬ ((if acc.data.length > 0 then acc ++ " " else acc) ++
            (⟨separatedBy [' '] (List.map (fun v => GtfWriter.pairText isParY a.fName v ++ [';'])
              (v :: vs))⟩ : String)).data = [] := by
          simp [separatedBy]
        simp only [hne, if_false]
        by_cases hacc : acc.data = []
        · simp only [hacc, List.length_nil, gt_iff_lt, lt_self_iff_false, if_false, if_true,
            String.data_append, List.nil_append, List.map_cons, List.cons_append,
            List.map_append]
          simp [separatedBy, precededBy, precededBy_append, List.map_map, Function.comp_def]
        · have hpos : acc.data.length > 0 := List.length_pos.mpr hacc
          simp only [hpos, if_true, hacc, if_false, String.data_append, List.map_cons,
            List.cons_append, List.map_append, List.append_assoc]
          simp [separatedBy, precededBy, precededBy_append, List.map_map, Function.comp_def]
    · simp only [hinc, Bool.false_eq_true, if_false, List.nil_append]
      exact ih hrest acc

theorem GtfWriter.formatAttrs_eq (m : ParIdHackMethod) (attrs : AttrVals)
    (hm : GtfWriter.hasParYTag attrs = false ∨ m = .PAR_ID_HACK_NEW)
    (hvals : ∀ a ∈ attrs, a.fVals ≠ []) :
    GtfWriter.formatAttrs m attrs =
      .ok ⟨separatedBy [' '] ((GtfWriter.pairTexts (GtfWriter.hasParYTag attrs)
        (attrs.filter GtfWriter.includeAttr)).map (· ++ [';']))⟩ := by
  unfold GtfWriter.formatAttrs
  rw [GtfWriter.formatAttrs_loop_eq m _ hm attrs hvals]
  rfl

theorem splitOn_precededBy_terminated (bs : List (List Char)) (h : ∀ b ∈ bs, ';' ∉ b) :
    (precededBy [' '] (bs.map (· ++ [';']))).splitOn ';' = bs.map (' ' :: ·) ++ [[]] := by
  induction bs with
  | nil => rfl
  | cons b rest ih =>
    have hb : ';' ∉ ' ' :: b := by
      intro hm
      rcases List.mem_cons.mp hm with h' | h'
      · cases h'
      · exact h b (List.mem_cons_self _ _) h'
    have := ih (fun x hx => h x (List.mem_cons_of_mem _ hx))
    simp only [List.map_cons, precededBy, List.singleton_append, List.append_assoc,
      List.cons_append, List.nil_append]
    rw [← List.cons_append, splitOn_append_sep ';' (' ' :: b) _ hb, this]

theorem splitOn_separatedBy_terminated (bs : List (List Char)) (h : ∀ b ∈ bs, ';' ∉ b) :
    (separatedBy [' '] (bs.map (· ++ [';']))).splitOn ';' =
      GtfWriter.spacedParts bs ++ [[]] := by
  cases bs with
  | nil => rfl
  | cons b rest =>
    simp only [List.map_cons, separatedBy, List.append_assoc, List.singleton_append,
      GtfWriter.spacedParts, List.cons_append]
    rw [splitOn_append_sep ';' b _ (h b (List.mem_cons_self _ _)), List.nil_append,
      splitOn_precededBy_terminated rest (fun x hx => h x (List.mem_cons_of_mem _ hx))]

theorem GtfParser.parseParts_congr (ps qs : List String) (acc : AttrVals)
    (h : ps.map stringTrim = qs.map stringTrim) :
    GtfParser.parseParts ps acc = GtfParser.parseParts qs acc := by
  induction ps generalizing qs acc with
  | nil =>
    cases qs with
    | nil => rfl
    | cons q qs => simp at h
  | cons p ps ih =>
    cases qs with
    | nil => simp at h
    | cons q qs =>
      simp only [List.map_cons, List.cons.injEq] at h
      rw [GtfParser.parseParts, GtfParser.parseParts, h.1]
      cases GtfParser.parseAttr (stringTrim q) acc with
      | error e => rfl
      | ok acc' => exact ih qs acc' h.2

theorem GtfParser.parseParts_append (ps qs : List String) (acc : AttrVals) :
    GtfParser.parseParts (ps ++ qs) acc =
      match GtfParser.parseParts ps acc with
      | .error e => .error e
      | .ok acc' => GtfParser.parseParts qs acc' := by
  induction ps generalizing acc with
  | nil => rfl
  | cons p ps ih =>
    rw [List.cons_append, GtfParser.parseParts, GtfParser.parseParts]
    cases GtfParser.parseAttr (stringTrim p) acc with
    | error e => rfl
    | ok acc' => exact ih acc'

theorem GtfWriter.spacedParts_trim (bs : List (List Char)) :
    ((GtfWriter.spacedParts bs).map String.mk).map stringTrim =
      (bs.map String.mk).map stringTrim := by
  cases bs with
  | nil => rfl
  | cons b rest =>
    simp only [GtfWriter.spacedParts, List.map_cons, List.map_map, List.cons.injEq, true_and]
    apply List.map_congr_left
    intro x _
    exact stringTrim_space_cons x ' ' (by decide)

theorem isNumeric_loop_chars (l : List Char) (n k : Nat)
    (h : isNumeric.loop l n = some k) : ∀ c ∈ l, c = '.' ∨ c.isDigit = true := by
  induction l generalizing n with
  | nil => simp
  | cons x rest ih =>
    unfold isNumeric.loop at h
    intro c hc
    by_cases hx : x = '.'
    · rw [if_pos hx] at h
      rcases List.mem_cons.mp hc with h' | h'
      · left; rw [h']; exact hx
      · exact ih _ h c h'
    · rw [if_neg hx] at h
      by_cases hd : x.isDigit = true
      · simp only [hd, Bool.not_true, Bool.false_eq_true, if_false] at h
        rcases List.mem_cons.mp hc with h' | h'
        · right; rw [h']; exact hd
        · exact ih _ h c h'
      · simp [hd] at h

theorem isNumeric_chars (s : String) (h : isNumeric s = true) :
    ∀ c ∈ s.data, c = '.' ∨ c.isDigit = true := by
  unfold isNumeric at h
  cases hl : isNumeric.loop s.data 0 with
  | none => simp [hl] at h
  | some k => exact isNumeric_loop_chars s.data 0 k hl

theorem numericChar_props (c : Char) (h : c = '.' ∨ c.isDigit = true) :
    isSpace c = false ∧ c ≠ '"' := by
  rcases h with h | h
  · subst h; exact ⟨by decide, by decide⟩
  · constructor
    · cases hs : isSpace c
      · rfl
      · unfold isSpace at hs
        simp only [Bool.or_eq_true, decide_eq_true_eq] at hs
        rcases hs with ((((hs | hs) | hs) | hs) | hs) | hs <;> (subst hs; exact absurd h (by decide))
    · intro he
      subst he
      exact absurd h (by decide)

theorem stripQuotes_quoted (w : List Char) : stripQuotes ⟨'"' :: w ++ ['"']⟩ = ⟨w⟩ := by
  unfold stripQuotes
  have hq : isQuoted ⟨'"' :: w ++ ['"']⟩ = true := by
    unfold isQuoted
    have hl : ('"' :: w ++ ['"']).getLast? = some '"' := by
      rw [show '"' :: w ++ ['"'] = ('"' :: w) ++ ['"'] from rfl, List.getLast?_append]
      rfl
    have hl' : ('"' :: (w ++ ['"'])).getLast? = some '"' := hl
    simp [hl']
  rw [if_pos hq]
  unfold stringSubstr
  apply String.ext
  simp

theorem stripQuotes_of_head (s : String) (h : s.data.head? ≠ some '"') : stripQuotes s = s := by
  unfold stripQuotes
  have hq : isQuoted s = false := by
    unfold isQuoted
    cases hh : s.data.head? with
    | none => simp
    | some c =>
      rw [hh] at h
      have : c ≠ '"' := fun e => h (by rw [e])
      simp [this]
  rw [hq]
  simp

theorem GtfWriter.emittedValue_cases (isParY : Bool) (name v : String) :
    GtfWriter.emittedValue isParY name v = v ∨
    GtfWriter.emittedValue isParY name v = v ++ "_PAR_Y" := by
  unfold GtfWriter.emittedValue
  split
  · exact Or.inr rfl
  · exact Or.inl rfl

theorem GtfWriter.emittedValue_head (isParY : Bool) (name v : String) (hv : v ≠ "") :
    (GtfWriter.emittedValue isParY name v).data.head? = v.data.head? := by
  have hd : v.data ≠ [] := (String.data_ne_nil_iff v).mpr hv
  rcases GtfWriter.emittedValue_cases isParY name v with h | h
  · rw [h]
  · rw [h, String.data_append]
    cases hv' : v.data with
    | nil => exact absurd hv' hd
    | cons x xs => rfl

theorem GtfWriter.emittedValue_last (isParY : Bool) (name v : String)
    (hnum : isNumeric v = true) :
    ∀ c, (GtfWriter.emittedValue isParY name v).data.getLast? = some c → isSpace c = false := by
  intro c hc
  rcases GtfWriter.emittedValue_cases isParY name v with h | h
  · rw [h] at hc
    have hmem : c ∈ v.data := List.mem_of_getLast?_eq_some hc
    exact (numericChar_props c (isNumeric_chars v hnum c hmem)).1
  · rw [h, String.data_append] at hc
    have : (v.data ++ "_PAR_Y".data).getLast? = some 'Y' := by
      rw [show "_PAR_Y".data = ['_', 'P', 'A', 'R', '_'] ++ ['Y'] from rfl, ← List.append_assoc,
        List.getLast?_append]
      rfl
    rw [this] at hc
    cases hc
    decide

theorem GtfParser.parseAttr_pairText (isParY : Bool) (name v : String) (acc : AttrVals)
    (hname : name ≠ "") (hsp : ' ' ∉ name.data)
    (hhead : ∀ c, name.data.head? = some c → isSpace c = false) (hv : v ≠ "") :
    GtfParser.parseAttr (stringTrim ⟨GtfWriter.pairText isParY name v⟩) acc =
      GtfParser.storeValue name
        (GtfParser.readValue name (GtfWriter.emittedValue isParY name v)) acc := by
  have hnd : name.data ≠ [] := (String.data_ne_nil_iff name).mpr hname
  have hvd : v.data ≠ [] := (String.data_ne_nil_iff v).mpr hv
  -- the quoted or unquoted value text
  obtain ⟨q, hq, hqlast, hqstrip⟩ : ∃ q : List Char,
      GtfWriter.pairText isParY name v = name.data ++ ' ' :: q ∧
      (∀ c, (' ' :: q).getLast? = some c → isSpace c = false) ∧
      stripQuotes ⟨q⟩ = GtfWriter.emittedValue isParY name v := by
    unfold GtfWriter.pairText
    cases hnum : isNumeric v
    · refine ⟨'"' :: (GtfWriter.emittedValue isParY name v).data ++ ['"'], by simp, ?_, ?_⟩
      · intro c hc
        have : (' ' :: ('"' :: (GtfWriter.emittedValue isParY name v).data ++ ['"'])).getLast?
            = some '"' := by
          rw [show ' ' :: ('"' :: (GtfWriter.emittedValue isParY name v).data ++ ['"']) =
            (' ' :: '"' :: (GtfWriter.emittedValue isParY name v).data) ++ ['"'] from rfl,
            List.getLast?_append]
          rfl
        rw [this] at hc
        cases hc
        decide
      · exact stripQuotes_quoted _
    · refine ⟨(GtfWriter.emittedValue isParY name v).data, by simp, ?_, ?_⟩
      · intro c hc
        cases he : (GtfWriter.emittedValue isParY name v).data with
        | nil =>
          have := GtfWriter.emittedValue_head isParY name v hv
          rw [he] at this
          cases hv' : v.data with
          | nil => exact absurd hv' hvd
          | cons x xs => rw [hv'] at this; cases this
        | cons x xs =>
          rw [he, List.getLast?_cons_cons] at hc
          exact GtfWriter.emittedValue_last isParY name v hnum c (by rw [he]; exact hc)
      · apply stripQuotes_of_head
        rw [GtfWriter.emittedValue_head isParY name v hv]
        intro hh
        have hmem : '"' ∈ v.data := by
          cases hv' : v.data with
          | nil => exact absurd hv' hvd
          | cons x xs =>
            rw [hv'] at hh
            simp at hh
            rw [hh]; exact List.mem_cons_self _ _
        exact (numericChar_props '"' (isNumeric_chars v hnum '"' hmem)).2 rfl
  have htrim : stringTrim ⟨GtfWriter.pairText isParY name v⟩ = ⟨name.data ++ ' ' :: q⟩ := by
    rw [hq]
    apply stringTrim_of_trimmed
    · intro c hc
      apply hhead c
      cases hd : name.data with
      | nil => exact absurd hd hnd
      | cons x rest => rw [hd] at hc; simpa using hc
    · intro c hc
      rw [getLast?_append_cons] at hc
      exact hqlast c hc
  rw [htrim]
  unfold GtfParser.parseAttr
  rw [stringFind_append_cons ' ' _ _ hsp]
  have hsub : stringSubstr ⟨name.data ++ ' ' :: q⟩ 0 name.data.length = name :=
    String.ext (take_append_cons _ _ _)
  have hfrom : stringSubstrFrom ⟨name.data ++ ' ' :: q⟩ (name.data.length + 1) = ⟨q⟩ :=
    String.ext (drop_append_cons _ _ _)
  simp only [hsub, hfrom, hqstrip]
  rfl

theorem GtfParser.storeValue_new (name value : String) (acc : AttrVals)
    (hname : name ≠ "") (hvalue : value ≠ "") (hacc : ∀ a ∈ acc, a.fName ≠ name) :
    GtfParser.storeValue name value acc = .ok (acc ++ [⟨name, [value], false⟩]) := by
  unfold GtfParser.storeValue
  simp only [AttrVals.findIdx_none acc name hacc]
  rw [if_neg (by decide), AttrVal.new_of_ne name value false hname hvalue]

theorem GtfParser.storeValue_add (name value : String) (acc : AttrVals) (done : List String)
    (hvalue : value ≠ "") (hacc : ∀ a ∈ acc, a.fName ≠ name) :
    GtfParser.storeValue name value (acc ++ [⟨name, done, false⟩]) =
      .ok (acc ++ [⟨name, done ++ [value], false⟩]) := by
  unfold GtfParser.storeValue
  have hidx : AttrVals.findIdx (acc ++ [⟨name, done, false⟩]) name = acc.length :=
    AttrVals.findIdx_first name acc ⟨name, done, false⟩ [] hacc rfl
  simp only [hidx]
  rw [if_pos (by omega)]
  simp only [Int.toNat_ofNat]
  rw [List.get?_eq_getElem?, List.getElem?_append_right (le_refl _)]
  simp only [Nat.sub_self, List.getElem?_cons_zero]
  rw [AttrVal.addVal_of_ne _ value hvalue]
  simp

theorem GtfParser.parseParts_values (isParY : Bool) (name : String) (acc : AttrVals)
    (hname : name ≠ "") (hsp : ' ' ∉ name.data)
    (hhead : ∀ c, name.data.head? = some c → isSpace c = false)
    (hacc : ∀ a ∈ acc, a.fName ≠ name) (vs : List String)
    (hvs : ∀ v ∈ vs, v ≠ "" ∧
      GtfParser.readValue name (GtfWriter.emittedValue isParY name v) = v)
    (done : List String) :
    GtfParser.parseParts ((vs.map (GtfWriter.pairText isParY name)).map String.mk)
        (acc ++ [⟨name, done, false⟩]) = .ok (acc ++ [⟨name, done ++ vs, false⟩]) := by
  induction vs generalizing done with
  | nil => simp [GtfParser.parseParts]
  | cons v rest ih =>
    obtain ⟨hv, hread⟩ := hvs v (List.mem_cons_self _ _)
    simp only [List.map_cons]
    rw [GtfParser.parseParts, GtfParser.parseAttr_pairText isParY name v _ hname hsp hhead hv,
      hread, GtfParser.storeValue_add name v acc done hv hacc]
    simp only
    rw [ih (fun x hx => hvs x (List.mem_cons_of_mem _ hx))]
    simp

theorem GtfParser.parseParts_attr (isParY : Bool) (a : AttrVal) (acc : AttrVals)
    (hp : GtfParser.Parsed a) (hacc : ∀ b ∈ acc, b.fName ≠ a.fName)
    (hread : ∀ v ∈ a.fVals,
      GtfParser.readValue a.fName (GtfWriter.emittedValue isParY a.fName v) = v) :
    GtfParser.parseParts ((a.fVals.map (GtfWriter.pairText isParY a.fName)).map String.mk) acc
      = .ok (acc ++ [a]) := by
  obtain ⟨hq, hname, hsp, _, hhead, hvals, hval⟩ := hp
  cases hv : a.fVals with
  | nil => exact absurd hv hvals
  | cons v0 rest =>
    have h0 := hval v0 (by rw [hv]; exact List.mem_cons_self _ _)
    simp only [List.map_cons]
    rw [GtfParser.parseParts,
      GtfParser.parseAttr_pairText isParY a.fName v0 acc hname hsp hhead h0.1,
      hread v0 (by rw [hv]; exact List.mem_cons_self _ _),
      GtfParser.storeValue_new a.fName v0 acc hname h0.1 hacc]
    simp only
    rw [GtfParser.parseParts_values isParY a.fName acc hname hsp hhead hacc rest
      (fun x hx => ⟨(hval x (by rw [hv]; exact List.mem_cons_of_mem _ hx)).1,
        hread x (by rw [hv]; exact List.mem_cons_of_mem _ hx)⟩)]
    cases a with
    | mk n vs q =>
      simp only at hq hv
      subst hq hv
      rfl

theorem GtfParser.parseParts_pairTexts (isParY : Bool) (attrs : List AttrVal) (acc : AttrVals)
    (hp : ∀ a ∈ attrs, GtfParser.Parsed a)
    (hnodup : (attrs.map AttrVal.fName).Nodup)
    (hacc : ∀ b ∈ acc, ∀ a ∈ attrs, b.fName ≠ a.fName)
    (hread : ∀ a ∈ attrs, ∀ v ∈ a.fVals,
      GtfParser.readValue a.fName (GtfWriter.emittedValue isParY a.fName v) = v) :
    GtfParser.parseParts ((GtfWriter.pairTexts isParY attrs).map String.mk) acc =
      .ok (acc ++ attrs) := by
  induction attrs generalizing acc with
  | nil => simp [GtfWriter.pairTexts, GtfParser.parseParts]
  | cons a rest ih =>
    rw [GtfWriter.pairTexts, List.map_append, GtfParser.parseParts_append,
      GtfParser.parseParts_attr isParY a acc (hp a (List.mem_cons_self _ _))
        (fun b hb => hacc b hb a (List.mem_cons_self _ _))
        (hread a (List.mem_cons_self _ _))]
    simp only
    have hnd := List.nodup_cons.mp hnodup
    rw [ih (acc ++ [a]) (fun x hx => hp x (List.mem_cons_of_mem _ hx)) hnd.2 ?_
      (fun x hx => hread x (List.mem_cons_of_mem _ hx))]
    · simp
    · intro b hb x hx
      rcases List.mem_append.mp hb with h | h
      · exact hacc b h x (List.mem_cons_of_mem _ hx)
      · simp at h
        rw [h]
        intro he
        exact hnd.1 (by rw [he]; exact List.mem_map_of_mem _ hx)

theorem GtfParser.removeParUniqHack_mem (x : String) :
    ∀ c ∈ (GtfParser.removeParUniqHack x).data, c ∈ x.data ∨ c = '0' := by
  intro c hc
  unfold GtfParser.removeParUniqHack at hc
  split at hc
  · simp only [String.data_append, stringSubstr, stringSubstrFrom, List.mem_append] at hc
    rcases hc with (h | h) | h
    · exact Or.inl (List.mem_of_mem_drop (List.mem_of_mem_take h))
    · right
      have : c ∈ ['0'] := h
      simpa using this
    · exact Or.inl (List.mem_of_mem_drop h)
  · split at hc
    · exact Or.inl (List.mem_of_mem_drop (List.mem_of_mem_take hc))
    · exact Or.inl hc

theorem startsWith_take (x pre : String) (n : Nat)
    (h : stringStartsWith x pre = false) :
    stringStartsWith (stringSubstr x 0 n) pre = false := by
  unfold stringStartsWith at h ⊢
  cases hp : pre.data.isPrefixOf (stringSubstr x 0 n).data
  · rfl
  · have h1 : pre.data <+: (stringSubstr x 0 n).data := List.isPrefixOf_iff_prefix.mp hp
    have h2 : (stringSubstr x 0 n).data <+: x.data := by
      unfold stringSubstr
      exact List.take_prefix _ _
    have := List.isPrefixOf_iff_prefix.mpr (h1.trans h2)
    rw [this] at h
    cases h

theorem GtfParser.removeParUniqHack_not_hacked (x : String) :
    stringStartsWith (GtfParser.removeParUniqHack x) "ENSGR" = false ∧
    stringStartsWith (GtfParser.removeParUniqHack x) "ENSTR" = false := by
  unfold GtfParser.removeParUniqHack
  by_cases h1 : (stringStartsWith x "ENSGR" || stringStartsWith x "ENSTR") = true
  · rw [if_pos h1]
    simp only [Bool.or_eq_true] at h1
    have hx : ∃ t, x.data = 'E' :: 'N' :: 'S' :: 'G' :: 'R' :: t ∨
        x.data = 'E' :: 'N' :: 'S' :: 'T' :: 'R' :: t := by
      rcases h1 with h | h
      · obtain ⟨t, ht⟩ := List.isPrefixOf_iff_prefix.mp h
        exact ⟨t, Or.inl ht.symm⟩
      · obtain ⟨t, ht⟩ := List.isPrefixOf_iff_prefix.mp h
        exact ⟨t, Or.inr ht.symm⟩
    obtain ⟨t, ht⟩ := hx
    unfold stringStartsWith stringSubstr stringSubstrFrom
    simp only [String.data_append, List.drop_zero]
    rcases ht with ht | ht <;> (rw [ht]; constructor <;> rfl)
  · rw [if_neg h1]
    simp only [Bool.or_eq_true, not_or, Bool.not_eq_true] at h1
    split
    · exact ⟨startsWith_take x _ _ h1.1, startsWith_take x _ _ h1.2⟩
    · exact h1

theorem GtfParser.storeValue_parsed (name value : String) (acc attrs : AttrVals)
    (h : GtfParser.storeValue name value acc = .ok attrs)
    (hsp : ' ' ∉ name.data) (hsemi : ';' ∉ name.data)
    (hhead : ∀ c, name.data.head? = some c → isSpace c = false)
    (hvsemi : ';' ∉ value.data)
    (hvpar : isParIdNonUniqAttr name = true →
      stringStartsWith value "ENSGR" = false ∧ stringStartsWith value "ENSTR" = false)
    (hacc : ∀ a ∈ acc, GtfParser.Parsed a) (hnodup : (acc.map AttrVal.fName).Nodup) :
    (∀ a ∈ attrs, GtfParser.Parsed a) ∧ (attrs.map AttrVal.fName).Nodup := by
  unfold GtfParser.storeValue at h
  rcases AttrVals.first_named name acc with hnone | ⟨pre, x, post, hdec, hpre, hx⟩
  · simp only [AttrVals.findIdx_none acc name hnone] at h
    rw [if_neg (by decide)] at h
    cases hnew : AttrVal.new name value false with
    | error e => simp [hnew] at h
    | ok b =>
      simp only [hnew] at h
      cases h
      obtain ⟨hn, hv, hb⟩ := AttrVal.new_ok _ _ _ _ hnew
      subst hb
      constructor
      · intro a ha
        rcases List.mem_append.mp ha with h' | h'
        · exact hacc a h'
        · simp at h'
          subst h'
          refine ⟨rfl, hn, hsp, hsemi, hhead, by simp, ?_⟩
          intro v hv'
          simp at hv'
          subst hv'
          exact ⟨hv, hvsemi, hvpar⟩
      · rw [List.map_append, List.nodup_append]
        refine ⟨hnodup, by simp, ?_⟩
        intro n hn1 hn2
        simp at hn2
        obtain ⟨a, ha, han⟩ := List.mem_map.mp hn1
        exact hnone a ha (by rw [han, hn2])
  · subst hdec
    have hidx : AttrVals.findIdx (pre ++ x :: post) name = pre.length :=
      AttrVals.findIdx_first name pre x post hpre hx
    simp only [hidx] at h
    rw [if_pos (by omega)] at h
    simp only [Int.toNat_ofNat] at h
    rw [List.get?_eq_getElem?, List.getElem?_append_right (le_refl _)] at h
    simp only [Nat.sub_self, List.getElem?_cons_zero] at h
    cases hadd : x.addVal value with
    | error e => simp [hadd] at h
    | ok x' =>
      simp only [hadd] at h
      cases h
      obtain ⟨hv, hx'⟩ := AttrVal.addVal_ok x x' value hadd
      have hset : (pre ++ x :: post).set pre.length x' = pre ++ x' :: post := by
        simp
      rw [hset]
      have hxp := hacc x (by simp)
      constructor
      · intro a ha
        rcases List.mem_append.mp ha with h' | h'
        · exact hacc a (List.mem_append_left _ h')
        · rcases List.mem_cons.mp h' with h'' | h''
          · subst h''
            subst hx'
            obtain ⟨q1, q2, q3, q4, q5, q6, q7⟩ := hxp
            refine ⟨q1, q2, q3, q4, q5, by simp, ?_⟩
            intro v hv'
            rcases List.mem_append.mp hv' with hv'' | hv''
            · exact q7 v hv''
            · simp at hv''
              subst hv''
              refine ⟨hv, hvsemi, ?_⟩
              intro hpar
              apply hvpar
              rw [← hx]
              exact hpar
          · exact hacc a (List.mem_append_right _ (List.mem_cons_of_mem _ h''))
      · have : (pre ++ x' :: post).map AttrVal.fName = (pre ++ x :: post).map AttrVal.fName := by
          subst hx'
          simp
        rw [this]
        exact hnodup

theorem GtfParser.parseAttr_parsed_gtf (attrStr : String) (acc attrs : AttrVals)
    (h : GtfParser.parseAttr attrStr acc = .ok attrs) (hsemi : ';' ∉ attrStr.data)
    (hhead : ∀ c, attrStr.data.head? = some c → isSpace c = false)
    (hacc : ∀ a ∈ acc, GtfParser.Parsed a) (hnodup : (acc.map AttrVal.fName).Nodup) :
    (∀ a ∈ attrs, GtfParser.Parsed a) ∧ (attrs.map AttrVal.fName).Nodup := by
  unfold GtfParser.parseAttr at h
  by_cases hmem : ' ' ∈ attrStr.data
  · obtain ⟨pre, post, hdata, hpre⟩ := mem_split_first ' ' attrStr.data hmem
    have hstr : attrStr = ⟨pre ++ ' ' :: post⟩ := String.ext hdata
    rw [hstr, stringFind_append_cons ' ' pre post hpre] at h
    have hsub : stringSubstr ⟨pre ++ ' ' :: post⟩ 0 pre.length = ⟨pre⟩ :=
      String.ext (take_append_cons _ _ _)
    have hfrom : stringSubstrFrom ⟨pre ++ ' ' :: post⟩ (pre.length + 1) = ⟨post⟩ :=
      String.ext (drop_append_cons _ _ _)
    simp only [hsub, hfrom] at h
    have hpresub : ∀ c ∈ pre, c ∈ attrStr.data := by
      intro c hc; rw [hdata]; exact List.mem_append_left _ hc
    have hpostsub : ∀ c ∈ post, c ∈ attrStr.data := by
      intro c hc; rw [hdata]
      exact List.mem_append_right _ (List.mem_cons_of_mem _ hc)
    refine GtfParser.storeValue_parsed _ _ acc attrs h hpre (fun hc => hsemi (hpresub _ hc)) ?_ ?_
      ?_ hacc hnodup
    · intro c hc
      apply hhead c
      rw [hdata]
      cases pre with
      | nil => cases hc
      | cons x xs => simpa using hc
    · intro hc
      split at hc
      · rcases GtfParser.removeParUniqHack_mem _ _ hc with h' | h'
        · exact hsemi (hpostsub _ (stripQuotes_mem ⟨post⟩ _ h'))
        · cases h'
      · exact hsemi (hpostsub _ (stripQuotes_mem ⟨post⟩ _ hc))
    · intro hpar
      rw [if_pos hpar]
      exact GtfParser.removeParUniqHack_not_hacked _
  · unfold stringFind at h
    simp [hmem] at h

theorem GtfParser.parseParts_parsed_gtf (parts : List String) (acc attrs : AttrVals)
    (h : GtfParser.parseParts parts acc = .ok attrs)
    (hsemi : ∀ p ∈ parts, ';' ∉ p.data)
    (hacc : ∀ a ∈ acc, GtfParser.Parsed a) (hnodup : (acc.map AttrVal.fName).Nodup) :
    (∀ a ∈ attrs, GtfParser.Parsed a) ∧ (attrs.map AttrVal.fName).Nodup := by
  induction parts generalizing acc with
  | nil =>
    simp [GtfParser.parseParts] at h
    subst h
    exact ⟨hacc, hnodup⟩
  | cons p rest ih =>
    rw [GtfParser.parseParts] at h
    cases hp : GtfParser.parseAttr (stringTrim p) acc with
    | error e => simp [hp] at h
    | ok acc' =>
      simp only [hp] at h
      obtain ⟨h1, h2⟩ := GtfParser.parseAttr_parsed_gtf (stringTrim p) acc acc' hp
        (fun hc => hsemi p (List.mem_cons_self _ _) (stringTrim_mem p _ hc))
        (stringTrim_head p) hacc hnodup
      exact ih acc' h (fun q hq => hsemi q (List.mem_cons_of_mem _ hq)) h1 h2

theorem GtfParser.parseAttrs_parsed_gtf (s : String) (attrs : AttrVals)
    (h : GtfParser.parseAttrs s = .ok attrs) :
    (∀ a ∈ attrs, GtfParser.Parsed a) ∧ (attrs.map AttrVal.fName).Nodup := by
  unfold GtfParser.parseAttrs at h
  exact GtfParser.parseParts_parsed_gtf _ [] attrs h
    (fun p hp => (stringSplit_parts s ';' p (List.mem_of_mem_dropLast hp)).1)
    (by simp) (by simp)

theorem startsWith_append_PAR_Y (v : String) (c1 c2 c3 c4 c5 : Char)
    (h2 : c2 ≠ '_') (h3 : c3 ≠ '_') (h4 : c4 ≠ '_') (h5 : c5 ≠ '_') (hv : v ≠ "")
    (h : stringStartsWith v ⟨[c1, c2, c3, c4, c5]⟩ = false) :
    stringStartsWith (v ++ "_PAR_Y") ⟨[c1, c2, c3, c4, c5]⟩ = false := by
  have hd : v.data ≠ [] := (String.data_ne_nil_iff v).mpr hv
  unfold stringStartsWith at h ⊢
  rw [String.data_append]
  rcases hl : v.data with _ | ⟨a, _ | ⟨b, _ | ⟨c, _ | ⟨d, _ | ⟨e, t⟩⟩⟩⟩⟩
  · exact absurd hl hd
  · simp [List.isPrefixOf, show "_PAR_Y".data = ['_', 'P', 'A', 'R', '_', 'Y'] from rfl, h2]
  · simp [List.isPrefixOf, show "_PAR_Y".data = ['_', 'P', 'A', 'R', '_', 'Y'] from rfl, h3]
  · simp [List.isPrefixOf, show "_PAR_Y".data = ['_', 'P', 'A', 'R', '_', 'Y'] from rfl, h4]
  · simp [List.isPrefixOf, show "_PAR_Y".data = ['_', 'P', 'A', 'R', '_', 'Y'] from rfl, h5]
  · rw [hl] at h
    simpa [List.isPrefixOf] using h

theorem GtfParser.removeParUniqHack_append_PAR_Y (v : String) (hv : v ≠ "")
    (h1 : stringStartsWith v "ENSGR" = false) (h2 : stringStartsWith v "ENSTR" = false) :
    GtfParser.removeParUniqHack (v ++ "_PAR_Y") = v := by
  unfold GtfParser.removeParUniqHack
  have e1 : stringStartsWith (v ++ "_PAR_Y") "ENSGR" = false :=
    startsWith_append_PAR_Y v 'E' 'N' 'S' 'G' 'R' (by decide) (by decide) (by decide)
      (by decide) hv h1
  have e2 : stringStartsWith (v ++ "_PAR_Y") "ENSTR" = false :=
    startsWith_append_PAR_Y v 'E' 'N' 'S' 'T' 'R' (by decide) (by decide) (by decide)
      (by decide) hv h2
  have e3 : stringEndsWith (v ++ "_PAR_Y") "_PAR_Y" = true := by
    unfold stringEndsWith
    rw [String.data_append, List.isSuffixOf_iff_suffix]
    exact List.suffix_append _ _
  rw [e1, e2, e3]
  simp only [Bool.or_self, Bool.false_eq_true, if_false, if_true]
  unfold stringSubstr
  apply String.ext
  simp only [String.data_append, List.drop_zero, List.length_append]
  exact List.take_left' (by simp [show "_PAR_Y".data.length = 6 from rfl])

theorem GtfParser.removeParUniqHack_plain (v : String)
    (h1 : stringStartsWith v "ENSGR" = false) (h2 : stringStartsWith v "ENSTR" = false)
    (h3 : stringEndsWith v "_PAR_Y" = false) : GtfParser.removeParUniqHack v = v := by
  unfold GtfParser.removeParUniqHack
  rw [h1, h2, h3]
  simp

theorem GtfParser.readValue_emitted_par (name v : String) (hv : v ≠ "")
    (hpar : isParIdNonUniqAttr name = true →
      stringStartsWith v "ENSGR" = false ∧ stringStartsWith v "ENSTR" = false) :
    GtfParser.readValue name (GtfWriter.emittedValue true name v) = v := by
  unfold GtfParser.readValue GtfWriter.emittedValue
  cases hp : isParIdNonUniqAttr name
  · simp
  · simp only [Bool.and_self, if_true]
    exact GtfParser.removeParUniqHack_append_PAR_Y v hv (hpar hp).1 (hpar hp).2

theorem GtfParser.readValue_emitted_plain (name v : String)
    (hpar : isParIdNonUniqAttr name = true →
      stringStartsWith v "ENSGR" = false ∧ stringStartsWith v "ENSTR" = false ∧
      stringEndsWith v "_PAR_Y" = false) :
    GtfParser.readValue name (GtfWriter.emittedValue false name v) = v := by
  unfold GtfParser.readValue GtfWriter.emittedValue
  cases hp : isParIdNonUniqAttr name
  · simp
  · simp only [Bool.false_and, Bool.false_eq_true, if_false, if_true]
    exact GtfParser.removeParUniqHack_plain v (hpar hp).1 (hpar hp).2.1 (hpar hp).2.2

theorem GtfWriter.pairText_semi (isParY : Bool) (name v : String)
    (hn : ';' ∉ name.data) (hv : ';' ∉ v.data) : ';' ∉ GtfWriter.pairText isParY name v := by
  have he : ';' ∉ (GtfWriter.emittedValue isParY name v).data := by
    rcases GtfWriter.emittedValue_cases isParY name v with h | h
    · rw [h]; exact hv
    · rw [h, String.data_append]
      intro hm
      rcases List.mem_append.mp hm with h' | h'
      · exact hv h'
      · exact absurd h' (by decide)
  unfold GtfWriter.pairText
  intro hm
  rcases List.mem_append.mp hm with h | h
  · exact hn h
  · rcases List.mem_cons.mp h with h' | h'
    · cases h'
    · split at h'
      · exact he h'
      · rcases List.mem_cons.mp h' with h'' | h''
        · cases h''
        · rcases List.mem_append.mp h'' with h3 | h3
          · exact he h3
          · simp at h3

theorem GtfWriter.pairTexts_semi (isParY : Bool) (attrs : List AttrVal)
    (hp : ∀ a ∈ attrs, GtfParser.Parsed a) :
    ∀ b ∈ GtfWriter.pairTexts isParY attrs, ';' ∉ b := by
  induction attrs with
  | nil => simp [GtfWriter.pairTexts]
  | cons a rest ih =>
    intro b hb
    rw [GtfWriter.pairTexts] at hb
    rcases List.mem_append.mp hb with h | h
    · obtain ⟨v, hv, rfl⟩ := List.mem_map.mp h
      obtain ⟨_, _, _, hsemi, _, _, hval⟩ := hp a (List.mem_cons_self _ _)
      exact GtfWriter.pairText_semi isParY a.fName v hsemi (hval v hv).2.1
    · exact ih (fun x hx => hp x (List.mem_cons_of_mem _ hx)) b h

theorem GtfParser.parseAttrs_formatted (isParY : Bool) (attrs : List AttrVal)
    (hp : ∀ a ∈ attrs, GtfParser.Parsed a) (hnodup : (attrs.map AttrVal.fName).Nodup)
    (hread : ∀ a ∈ attrs, ∀ v ∈ a.fVals,
      GtfParser.readValue a.fName (GtfWriter.emittedValue isParY a.fName v) = v) :
    GtfParser.parseAttrs
      ⟨separatedBy [' '] ((GtfWriter.pairTexts isParY attrs).map (· ++ [';']))⟩ = .ok attrs := by
  unfold GtfParser.parseAttrs stringSplit
  simp only
  rw [splitOn_separatedBy_terminated _ (GtfWriter.pairTexts_semi isParY attrs hp),
    List.map_append, List.map_cons, List.map_nil, List.dropLast_concat,
    GtfParser.parseParts_congr _ _ [] (GtfWriter.spacedParts_trim _),
    GtfParser.parseParts_pairTexts isParY attrs [] hp hnodup (by simp) hread]
  simp

/-- C18 fails as stated: the column `ID "x"; level 2;` is accepted and yields
the attributes `ID` and `level`; the writer leaves `ID` out and emits
`level 2;`, which is read back without `ID`.  The column
`gene_id "ENSG01_PAR_Y_PAR_Y";` yields the value `ENSG01_PAR_Y`; the writer
emits it as it is and it is read back as `ENSG01`. -/
theorem gtf_roundtrip_counterexample :
    GtfParser.parseAttrs "ID \"x\"; level 2;" =
      .ok [⟨"ID", ["x"], false⟩, ⟨"level", ["2"], false⟩] ∧
    GtfWriter.formatAttrs .PAR_ID_HACK_NEW [⟨"ID", ["x"], false⟩, ⟨"level", ["2"], false⟩] =
      .ok "level 2;" ∧
    GtfParser.parseAttrs "level 2;" = .ok [⟨"level", ["2"], false⟩] ∧
    AttrVals.find [⟨"level", ["2"], false⟩] "ID" ≠
      AttrVals.find [⟨"ID", ["x"], false⟩, ⟨"level", ["2"], false⟩] "ID" ∧
    GtfParser.parseAttrs "gene_id \"ENSG01_PAR_Y_PAR_Y\";" =
      .ok [⟨"gene_id", ["ENSG01_PAR_Y"], false⟩] ∧
    GtfWriter.formatAttrs .PAR_ID_HACK_NEW [⟨"gene_id", ["ENSG01_PAR_Y"], false⟩] =
      .ok "gene_id \"ENSG01_PAR_Y\";" ∧
    GtfParser.parseAttrs "gene_id \"ENSG01_PAR_Y\";" = .ok [⟨"gene_id", ["ENSG01"], false⟩] ∧
    AttrVals.find [⟨"gene_id", ["ENSG01"], false⟩] "gene_id" ≠
      AttrVals.find [⟨"gene_id", ["ENSG01_PAR_Y"], false⟩] "gene_id" :=
  ⟨rfl, rfl, rfl, by decide, rfl, rfl, rfl, by decide⟩

/-- C18, amended: for every GTF attribute column that `GtfParser::parseAttrs`
accepts, yielding the list `A`, if either the record has the tag `PAR` and
the writer uses the `_PAR_Y` method, or the record has no tag `PAR` and no
gene or transcript id value of `A` ends with `_PAR_Y`, then
`GtfWriter::formatAttrs(A)` returns a text that is accepted again and yields
`A` without its `ID`, `Parent` and `remap_original_id` attributes, names and
ordered values; so it yields `A` itself when `A` has none of these three. -/
theorem gtf_roundtrip (m : ParIdHackMethod) (s : String) (attrs : AttrVals)
    (h : GtfParser.parseAttrs s = .ok attrs)
    (hcase : (GtfWriter.hasParYTag attrs = true ∧ m = .PAR_ID_HACK_NEW) ∨
      (GtfWriter.hasParYTag attrs = false ∧
        ∀ a ∈ attrs, isParIdNonUniqAttr a.fName = true →
          ∀ v ∈ a.fVals, stringEndsWith v "_PAR_Y" = false)) :
    ∃ text, GtfWriter.formatAttrs m attrs = .ok text ∧
      GtfParser.parseAttrs text = .ok (attrs.filter GtfWriter.includeAttr) ∧
      ((∀ a ∈ attrs, a.fName ≠ GxfFeature.ID_ATTR ∧ a.fName ≠ GxfFeature.PARENT_ATTR ∧
          a.fName ≠ "remap_original_id") →
        GtfParser.parseAttrs text = .ok attrs) := by
  obtain ⟨hp, hnodup⟩ := GtfParser.parseAttrs_parsed_gtf s attrs h
  have hm : GtfWriter.hasParYTag attrs = false ∨ m = .PAR_ID_HACK_NEW := by
    rcases hcase with h' | h'
    · exact Or.inr h'.2
    · exact Or.inl h'.1
  have hfmt := GtfWriter.formatAttrs_eq m attrs hm (fun a ha => (hp a ha).2.2.2.2.2.1)
  have hpf : ∀ a ∈ attrs.filter GtfWriter.includeAttr, GtfParser.Parsed a :=
    fun a ha => hp a (List.mem_of_mem_filter ha)
  have hnf : ((attrs.filter GtfWriter.includeAttr).map AttrVal.fName).Nodup :=
    hnodup.sublist ((List.filter_sublist attrs).map _)
  have hread : ∀ a ∈ attrs.filter GtfWriter.includeAttr, ∀ v ∈ a.fVals,
      GtfParser.readValue a.fName
        (GtfWriter.emittedValue (GtfWriter.hasParYTag attrs) a.fName v) = v := by
    intro a ha v hv
    have ha' := List.mem_of_mem_filter ha
    obtain ⟨_, _, _, _, _, _, hval⟩ := hp a ha'
    rcases hcase with h' | h'
    · rw [h'.1]
      exact GtfParser.readValue_emitted_par a.fName v (hval v hv).1 (hval v hv).2.2
    · rw [h'.1]
      exact GtfParser.readValue_emitted_plain a.fName v
        (fun hpar => ⟨((hval v hv).2.2 hpar).1, ((hval v hv).2.2 hpar).2, h'.2 a ha' hpar v hv⟩)
  have hparse := GtfParser.parseAttrs_formatted (GtfWriter.hasParYTag attrs)
    (attrs.filter GtfWriter.includeAttr) hpf hnf hread
  refine ⟨_, hfmt, hparse, ?_⟩
  intro hall
  rw [hparse]
  congr 1
  rw [List.filter_eq_self]
  intro a ha
  obtain ⟨h1, h2, h3⟩ := hall a ha
  unfold GtfWriter.includeAttr AttrVal.getName
  simp [h1, h2, h3]

/-- C18 amended, evaluated on a column of a record tagged `PAR` whose gene id
carries the old hack: the writer with the `_PAR_Y` method emits
`gene_id "ENSG00000223972.5_PAR_Y"; level 2; tag "basic"; tag "PAR";`, which
is read back as the parsed list. -/
theorem gtf_roundtrip_witness :
    GtfParser.parseAttrs
        "gene_id \"ENSGR0000223972.5\"; level 2; tag \"basic\"; tag \"PAR\";" =
      .ok [⟨"gene_id", ["ENSG00000223972.5"], false⟩, ⟨"level", ["2"], false⟩,
           ⟨"tag", ["basic", "PAR"], false⟩] ∧
    ∃ text, GtfWriter.formatAttrs .PAR_ID_HACK_NEW
        [⟨"gene_id", ["ENSG00000223972.5"], false⟩, ⟨"level", ["2"], false⟩,
         ⟨"tag", ["basic", "PAR"], false⟩] = .ok text ∧
      GtfParser.parseAttrs text =
        .ok [⟨"gene_id", ["ENSG00000223972.5"], false⟩, ⟨"level", ["2"], false⟩,
             ⟨"tag", ["basic", "PAR"], false⟩] := by
  refine ⟨rfl, ?_⟩
  obtain ⟨text, h1, _, h3⟩ := gtf_roundtrip .PAR_ID_HACK_NEW
    "gene_id \"ENSGR0000223972.5\"; level 2; tag \"basic\"; tag \"PAR\";" _ rfl
    (Or.inl ⟨by decide, rfl⟩)
  exact ⟨text, h1, h3 (by decide)⟩

/-! ## Non-feature lines and the pending queue -/

theorem GxfParser.read_line (parseFeature : List String → Except GxfError GxfFeature)
    (line : String) (h : line = "" ∨ line.data.head? = some '#') :
    GxfParser.read parseFeature (some line) = .ok (some (.line line)) := by
  unfold GxfParser.read
  have hc : ¬ (line.data.length > 0 ∧ line.data.head? ≠ some '#') := by
    rintro ⟨h1, h2⟩
    rcases h with h | h
    · subst h
      simp at h1
    · exact h2 h
  simp only [if_neg hc]

theorem GxfParser.read_feature (parseFeature : List String → Except GxfError GxfFeature)
    (line : String) (h : ¬ (line = "" ∨ line.data.head? = some '#')) :
    GxfParser.read parseFeature (some line) =
      match parseFeature (stringSplit line '\t') with
      | .error e => .error e
      | .ok f => .ok (some (.feature f)) := by
  unfold GxfParser.read
  have hc : line.data.length > 0 ∧ line.data.head? ≠ some '#' := by
    constructor
    · rcases hl : line.data with _ | ⟨c, rest⟩
      · exact absurd (Or.inl (String.ext hl)) h
      · simp
    · exact fun h2 => h (Or.inr h2)
  simp only [if_pos hc, GxfParser.splitFeatureLine]

/-- C21: `read` returns a non-feature line record exactly for a line that is
empty or starts with `#`; the record is then the line itself, its string
form is the line and the writer emits the line, followed by the end of line;
every other line is split and handed to the dialect's feature parser, whose
result or error is returned. -/
theorem read_line_or_feature (parseFeature : List String → Except GxfError GxfFeature)
    (line : String) :
    ((∃ l, GxfParser.read parseFeature (some line) = .ok (some (.line l))) ↔
      (line = "" ∨ line.data.head? = some '#')) ∧
    ((line = "" ∨ line.data.head? = some '#') →
      GxfParser.read parseFeature (some line) = .ok (some (.line line)) ∧
      GxfLine.toString line = line ∧
      ∀ (formatFeature : GxfFeature → Except GxfError String) (fOut : String),
        GxfWriter.write formatFeature fOut (.line line) = .ok (fOut ++ line ++ "\n")) ∧
    (¬ (line = "" ∨ line.data.head? = some '#') →
      GxfParser.read parseFeature (some line) =
        match parseFeature (stringSplit line '\t') with
        | .error e => .error e
        | .ok f => .ok (some (.feature f))) := by
  refine ⟨⟨?_, ?_⟩, ?_, ?_⟩
  · rintro ⟨l, hl⟩
    by_contra hc
    rw [GxfParser.read_feature parseFeature line hc] at hl
    cases hp : parseFeature (stringSplit line '\t') with
    | error e => rw [hp] at hl; cases hl
    | ok f => rw [hp] at hl; cases hl
  · intro h
    exact ⟨line, GxfParser.read_line parseFeature line h⟩
  · intro h
    exact ⟨GxfParser.read_line parseFeature line h, rfl, fun _ _ => rfl⟩
  · exact GxfParser.read_feature parseFeature line

/-- C21, evaluated on the comment line `##gff-version 3` and on a feature
line of three columns. -/
theorem read_line_or_feature_witness :
    GxfParser.read exampleParseFeature (some "##gff-version 3") =
      .ok (some (.line "##gff-version 3")) ∧
    GxfWriter.write (fun _ => .ok "") "" (.line "##gff-version 3") =
      .ok "##gff-version 3\n" ∧
    GxfParser.read exampleParseFeature (some "chr1\tHAVANA\tgene") =
      .ok (some (.feature ⟨"chr1", "HAVANA", "gene", 1, 1, ".", "+", ".", []⟩)) :=
  ⟨((read_line_or_feature exampleParseFeature "##gff-version 3").2.1
      (Or.inr (by decide))).1,
    ((read_line_or_feature exampleParseFeature "##gff-version 3").2.1
      (Or.inr (by decide))).2.2 (fun _ => .ok "") "",
    ((read_line_or_feature exampleParseFeature "chr1\tHAVANA\tgene").2.2
      (by decide)).trans rfl⟩

theorem GxfParser.pushAll_eq (p : GxfParser) (rs : List GxfRecord) :
    p.pushAll rs = ⟨p.fIn, p.fPending ++ rs⟩ := by
  induction rs generalizing p with
  | nil => simp [GxfParser.pushAll]
  | cons r rest ih => simp [GxfParser.pushAll, ih, GxfParser.push]

theorem GxfParser.nextN_pending (parseFeature : List String → Except GxfError GxfFeature)
    (fIn : List String) (q : List GxfRecord) :
    GxfParser.nextN parseFeature q.length ⟨fIn, q⟩ = .ok (q.map some, ⟨fIn, []⟩) := by
  induction q with
  | nil => rfl
  | cons r rest ih =>
    simp only [List.length_cons, GxfParser.nextN, GxfParser.next, ih, List.map_cons]

/-- C22 fails as stated: in the state whose queue holds the line `a`, after
`push` of the line `b` the next call of `next` returns `a`, not `b`. -/
theorem next_fifo_counterexample :
    GxfParser.next exampleParseFeature
        ((GxfParser.mk ["#c"] [.line "a"]).pushAll [.line "b"]) =
      .ok (some (.line "a"), ⟨["#c"], [.line "b"]⟩) ∧
    GxfParser.nextN exampleParseFeature 1
        ((GxfParser.mk ["#c"] [.line "a"]).pushAll [.line "b"]) =
      .ok ([some (.line "a")], ⟨["#c"], [.line "b"]⟩) ∧
    [some (GxfRecord.line "a")] ≠ [some (GxfRecord.line "b")] :=
  ⟨rfl, rfl, by decide⟩

/-- C22, amended: for every parser state whose pending queue holds `q1..qm`
and every sequence of records `r1..rn` pushed with `push`, the queue is then
`q1..qm, r1..rn` and the next `m + n` calls of `next` return these records in
this order without reading the file, leaving the queue empty; so for a state
with an empty queue the next `n` calls return `r1..rn` in the order pushed.
A call of `next` on a non-empty queue returns its front and removes it, and
only a call on an empty queue reads from the file stream. -/
theorem next_fifo (parseFeature : List String → Except GxfError GxfFeature)
    (p : GxfParser) (rs : List GxfRecord) :
    p.pushAll rs = ⟨p.fIn, p.fPending ++ rs⟩ ∧
    GxfParser.nextN parseFeature (p.fPending.length + rs.length) (p.pushAll rs) =
      .ok ((p.fPending ++ rs).map some, ⟨p.fIn, []⟩) ∧
    (p.fPending = [] →
      GxfParser.nextN parseFeature rs.length (p.pushAll rs) =
        .ok (rs.map some, ⟨p.fIn, []⟩)) ∧
    (∀ r rest, p.fPending = r :: rest →
      GxfParser.next parseFeature p = .ok (some r, ⟨p.fIn, rest⟩)) ∧
    (p.fPending = [] →
      GxfParser.next parseFeature p =
        match GxfParser.read parseFeature p.readLine.1 with
        | .error e => .error e
        | .ok rec => .ok (rec, p.readLine.2)) := by
  have hpush := GxfParser.pushAll_eq p rs
  refine ⟨hpush, ?_, ?_, ?_, ?_⟩
  · rw [hpush, ← List.length_append]
    exact GxfParser.nextN_pending parseFeature p.fIn (p.fPending ++ rs)
  · intro hq
    rw [hpush, hq, List.nil_append]
    exact GxfParser.nextN_pending parseFeature p.fIn rs
  · intro r rest hq
    unfold GxfParser.next
    rw [hq]
  · intro hq
    unfold GxfParser.next
    rw [hq]

/-- C22 amended, evaluated: two lines pushed on a parser with an empty queue
come back in the order pushed, the file is read only by the third call. -/
theorem next_fifo_witness :
    GxfParser.nextN exampleParseFeature 2
        ((GxfParser.mk ["#c"] []).pushAll [.line "a", .line "b"]) =
      .ok ([some (.line "a"), some (.line "b")], ⟨["#c"], []⟩) ∧
    GxfParser.nextN exampleParseFeature 3
        ((GxfParser.mk ["#c"] []).pushAll [.line "a", .line "b"]) =
      .ok ([some (.line "a"), some (.line "b"), some (.line "#c")], ⟨[], []⟩) :=
  ⟨(next_fifo exampleParseFeature ⟨["#c"], []⟩ [.line "a", .line "b"]).2.2.1 rfl, rfl⟩

/-! ## The PAR identifier hack -/

/-- C23, the code at the failing input: the id `ENSG01000223972.5` starts with
`ENSG0` and carries no hack, and `addParUniqHack` with the old method fails
on it, since the assertion tests the character at index 5 while the
character replaced by `R` is the one at index 4.  With `0` at both indexes
the hack is added and removed again; with `0` at index 5 only, the assertion
passes and `removeParUniqHack` returns another id. -/
theorem addParUniqHack_old_asserts_index_5 :
    stringStartsWith "ENSG01000223972.5" "ENSG0" = true ∧
    stringStartsWith "ENSG01000223972.5" "ENSGR" = false ∧
    stringStartsWith "ENSG01000223972.5" "ENSTR" = false ∧
    stringEndsWith "ENSG01000223972.5" "_PAR_Y" = false ∧
    GtfWriter.addParUniqHack .PAR_ID_HACK_OLD "ENSG01000223972.5" =
      .error (.assertion "id[5] == '0'") ∧
    GtfWriter.addParUniqHack .PAR_ID_HACK_OLD "ENSG00000223972.5" =
      .ok "ENSGR0000223972.5" ∧
    GtfParser.removeParUniqHack "ENSGR0000223972.5" = "ENSG00000223972.5" ∧
    GtfWriter.addParUniqHack .PAR_ID_HACK_OLD "ENSG10000223972.5" =
      .ok "ENSGR0000223972.5" ∧
    GtfParser.removeParUniqHack "ENSGR0000223972.5" ≠ "ENSG10000223972.5" :=
  ⟨by decide, by decide, by decide, by decide, rfl, rfl, by decide, rfl, by decide⟩

/-! ## Base identifiers -/

theorem stringFindLastOf_append_cons (c : Char) (pre post : List Char) (h : c ∉ post) :
    stringFindLastOf ⟨pre ++ c :: post⟩ c = some pre.length := by
  unfold stringFindLastOf
  have hm : c ∈ pre ++ c :: post := by simp
  have hr : (pre ++ c :: post).reverse = post.reverse ++ c :: pre.reverse := by simp
  have hi : (post.reverse ++ c :: pre.reverse).indexOf c = post.reverse.length :=
    indexOf_append_cons c _ _ (by simpa using h)
  simp only [hm, if_true, hr, hi, List.length_append, List.length_cons, List.length_reverse]
  congr 1
  omega

theorem stringFindLastOf_none (c : Char) (s : String) (h : c ∉ s.data) :
    stringFindLastOf s c = none := by
  unfold stringFindLastOf
  rw [if_neg h]

theorem getBaseId_versioned (a v : String) (hv : '.' ∉ v.data) :
    getBaseId (a ++ "." ++ v) =
      if stringStartsWith a "ENSGR" || stringStartsWith a "ENSTR" then ⟨a.data.set 4 '0'⟩
      else a := by
  have hd : a ++ "." ++ v = ⟨a.data ++ '.' :: v.data⟩ := by
    apply String.ext
    simp [String.data_append, show ".".data = ['.'] from rfl]
  have hs : stringSubstr ⟨a.data ++ '.' :: v.data⟩ 0 a.data.length = a := by
    apply String.ext
    simp [stringSubstr, take_append_cons]
  unfold getBaseId
  rw [hd, stringFindLastOf_append_cons '.' a.data v.data hv]
  simp only [hs]

theorem getBaseId_unversioned (id : String) (h : '.' ∉ id.data) :
    getBaseId id =
      if stringStartsWith id "ENSGR" || stringStartsWith id "ENSTR" then ⟨id.data.set 4 '0'⟩
      else id := by
  unfold getBaseId
  rw [stringFindLastOf_none '.' id h]

theorem startsWith_five (c1 c2 c3 c4 c5 d1 d2 d3 d4 d5 : Char) (r : String) :
    stringStartsWith (⟨[c1, c2, c3, c4, c5]⟩ ++ r) ⟨[d1, d2, d3, d4, d5]⟩ =
      (d1 == c1 && (d2 == c2 && (d3 == c3 && (d4 == c4 && d5 == c5)))) := by
  unfold stringStartsWith
  rw [String.data_append]
  simp [List.isPrefixOf]

theorem set_four_five (c1 c2 c3 c4 c5 c : Char) (r : String) :
    (⟨(⟨[c1, c2, c3, c4, c5]⟩ ++ r : String).data.set 4 c⟩ : String) =
      ⟨[c1, c2, c3, c4, c]⟩ ++ r := by
  apply String.ext
  simp [String.data_append]

/-- C24: `getBaseId` of a hacked or plain id with a version `v` without `.` is
the plain id without the version, `getBaseId("ENSTR" + r + "." + v) =
getBaseId("ENST0" + r + "." + v) = "ENST0" + r` and likewise for `ENSGR` and
`ENSG0`; an id without `.` is returned as it is, but for a leading `ENSGR`
or `ENSTR`, which becomes `ENSG0` or `ENST0`; and of an id that does not
start with `ENSGR` or `ENSTR` only the text from the last `.` on is removed. -/
theorem getBaseId_version_and_hack :
    (∀ r v : String, '.' ∉ v.data →
      getBaseId ("ENSTR" ++ r ++ "." ++ v) = "ENST0" ++ r ∧
      getBaseId ("ENST0" ++ r ++ "." ++ v) = "ENST0" ++ r ∧
      getBaseId ("ENSGR" ++ r ++ "." ++ v) = "ENSG0" ++ r ∧
      getBaseId ("ENSG0" ++ r ++ "." ++ v) = "ENSG0" ++ r) ∧
    (∀ id : String, '.' ∉ id.data →
      stringStartsWith id "ENSGR" = false → stringStartsWith id "ENSTR" = false →
      getBaseId id = id) ∧
    (∀ r : String, '.' ∉ r.data → '.' ∉ ("ENSGR" ++ r).data ∧ '.' ∉ ("ENSTR" ++ r).data ∧
      getBaseId ("ENSGR" ++ r) = "ENSG0" ++ r ∧ getBaseId ("ENSTR" ++ r) = "ENST0" ++ r) ∧
    (∀ a v : String, '.' ∉ v.data →
      stringStartsWith a "ENSGR" = false → stringStartsWith a "ENSTR" = false →
      getBaseId (a ++ "." ++ v) = a) := by
  have hTR := fun r => startsWith_five 'E' 'N' 'S' 'T' 'R' 'E' 'N' 'S' 'T' 'R' r
  have hGR := fun r => startsWith_five 'E' 'N' 'S' 'G' 'R' 'E' 'N' 'S' 'G' 'R' r
  have hT0G := fun r => startsWith_five 'E' 'N' 'S' 'T' '0' 'E' 'N' 'S' 'G' 'R' r
  have hT0T := fun r => startsWith_five 'E' 'N' 'S' 'T' '0' 'E' 'N' 'S' 'T' 'R' r
  have hG0G := fun r => startsWith_five 'E' 'N' 'S' 'G' '0' 'E' 'N' 'S' 'G' 'R' r
  have hG0T := fun r => startsWith_five 'E' 'N' 'S' 'G' '0' 'E' 'N' 'S' 'T' 'R' r
  have sT := fun r => set_four_five 'E' 'N' 'S' 'T' 'R' '0' r
  have sG := fun r => set_four_five 'E' 'N' 'S' 'G' 'R' '0' r
  refine ⟨?_, ?_, ?_, ?_⟩
  · intro r v hv
    refine ⟨?_, ?_, ?_, ?_⟩
    · rw [getBaseId_versioned _ v hv]
      have h := hTR r
      have e : stringStartsWith ("ENSTR" ++ r) "ENSTR" = true := h.trans (by decide)
      rw [e, Bool.or_true, if_pos rfl]
      exact sT r
    · rw [getBaseId_versioned _ v hv]
      have e1 : stringStartsWith ("ENST0" ++ r) "ENSGR" = false := (hT0G r).trans (by decide)
      have e2 : stringStartsWith ("ENST0" ++ r) "ENSTR" = false := (hT0T r).trans (by decide)
      rw [e1, e2]
      rfl
    · rw [getBaseId_versioned _ v hv]
      have e : stringStartsWith ("ENSGR" ++ r) "ENSGR" = true := (hGR r).trans (by decide)
      rw [e, Bool.true_or, if_pos rfl]
      exact sG r
    · rw [getBaseId_versioned _ v hv]
      have e1 : stringStartsWith ("ENSG0" ++ r) "ENSGR" = false := (hG0G r).trans (by decide)
      have e2 : stringStartsWith ("ENSG0" ++ r) "ENSTR" = false := (hG0T r).trans (by decide)
      rw [e1, e2]
      rfl
  · intro id hid h1 h2
    rw [getBaseId_unversioned id hid, h1, h2]
    rfl
  · intro r hr
    have d1 : '.' ∉ ("ENSGR" ++ r).data := by
      rw [String.data_append]
      intro hm
      rcases List.mem_append.mp hm with h | h
      · exact absurd h (by decide)
      · exact hr h
    have d2 : '.' ∉ ("ENSTR" ++ r).data := by
      rw [String.data_append]
      intro hm
      rcases List.mem_append.mp hm with h | h
      · exact absurd h (by decide)
      · exact hr h
    refine ⟨d1, d2, ?_, ?_⟩
    · rw [getBaseId_unversioned _ d1]
      have e : stringStartsWith ("ENSGR" ++ r) "ENSGR" = true := (hGR r).trans (by decide)
      rw [e, Bool.true_or, if_pos rfl]
      exact sG r
    · rw [getBaseId_unversioned _ d2]
      have e : stringStartsWith ("ENSTR" ++ r) "ENSTR" = true := (hTR r).trans (by decide)
      rw [e, Bool.or_true, if_pos rfl]
      exact sT r
  · intro a v hv h1 h2
    rw [getBaseId_versioned a v hv, h1, h2]
    rfl

/-- C24, evaluated on the transcript id `ENSTR0000431238.7` of the PAR and on
its plain form. -/
theorem getBaseId_version_and_hack_witness :
    getBaseId "ENSTR0000431238.7" = "ENST00000431238" ∧
    getBaseId "ENST00000431238.7" = "ENST00000431238" :=
  ⟨(getBaseId_version_and_hack.1 "0000431238" "7" (by decide)).1,
   (getBaseId_version_and_hack.1 "0000431238" "7" (by decide)).2.1⟩

/-! ## Names of the remap status values -/

/-- C25: `remapStatusToStr` maps each of the twelve status values to its
documented name; it is injective and returns the empty string for none of
them. -/
theorem remapStatusToStr_names :
    remapStatusToStr REMAP_STATUS_NONE = "none" ∧
    remapStatusToStr REMAP_STATUS_FULL_CONTIG = "full_contig" ∧
    remapStatusToStr REMAP_STATUS_FULL_FRAGMENT = "full_fragment" ∧
    remapStatusToStr REMAP_STATUS_PARTIAL = "partial" ∧
    remapStatusToStr REMAP_STATUS_DELETED = "deleted" ∧
    remapStatusToStr REMAP_STATUS_NO_SEQ_MAP = "no_seq_map" ∧
    remapStatusToStr REMAP_STATUS_GENE_CONFLICT = "gene_conflict" ∧
    remapStatusToStr REMAP_STATUS_GENE_SIZE_CHANGE = "gene_size_change" ∧
    remapStatusToStr REMAP_STATUS_AUTO_SMALL_NCRNA = "automatic_small_ncrna_gene" ∧
    remapStatusToStr REMAP_STATUS_AUTOMATIC_GENE = "automatic_gene" ∧
    remapStatusToStr REMAP_STATUS_PSEUDOGENE = "pseudogene" ∧
    remapStatusToStr REMAP_STATUS_INELIGIBLE = "ineligible" ∧
    (∀ a b : RemapStatus, remapStatusToStr a = remapStatusToStr b → a = b) ∧
    (∀ a : RemapStatus, remapStatusToStr a ≠ "") := by
  refine ⟨rfl, rfl, rfl, rfl, rfl, rfl, rfl, rfl, rfl, rfl, rfl, rfl, ?_, ?_⟩
  · intro a b h
    cases a <;> cases b <;> first | rfl | exact absurd h (by decide)
  · intro a
    cases a <;> decide

/-- C25, injectivity applied: two status values with the name `deleted` are
the same value. -/
theorem remapStatusToStr_names_witness :
    remapStatusToStr REMAP_STATUS_DELETED = remapStatusToStr REMAP_STATUS_DELETED ∧
    REMAP_STATUS_DELETED = REMAP_STATUS_DELETED :=
  ⟨rfl, remapStatusToStr_names.2.2.2.2.2.2.2.2.2.2.2.2.1
    REMAP_STATUS_DELETED REMAP_STATUS_DELETED rfl⟩

/-! ## The attributes that the GTF writer emits -/

theorem GtfWriter.attrText_eq_nil (isParY : Bool) (a : AttrVal) :
    GtfWriter.attrText isParY a = [] ↔ a.fVals = [] := by
  unfold GtfWriter.attrText
  cases a.fVals with
  | nil => simp [separatedBy]
  | cons v vs => simp [separatedBy, GtfWriter.pairText]

theorem GtfWriter.formatAttrs_loop_texts (m : ParIdHackMethod) (isParY : Bool)
    (hm : isParY = false ∨ m = .PAR_ID_HACK_NEW) (attrs : List AttrVal) (acc : String) :
    GtfWriter.formatAttrs.loop m isParY attrs acc =
      .ok ⟨if acc.data = [] then
          separatedBy [' '] (((attrs.filter GtfWriter.includeAttr).map
            (GtfWriter.attrText isParY)).dropWhile List.isEmpty)
        else acc.data ++ precededBy [' '] ((attrs.filter GtfWriter.includeAttr).map
            (GtfWriter.attrText isParY))⟩ := by
  induction attrs generalizing acc with
  | nil =>
    simp only [GtfWriter.formatAttrs.loop, List.filter_nil, List.map_nil, List.dropWhile_nil,
      separatedBy, precededBy, List.append_nil]
    congr 1
    apply String.ext
    by_cases h : acc.data = [] <;> simp [h]
  | cons a rest ih =>
    rw [GtfWriter.formatAttrs.loop]
    by_cases hinc : GtfWriter.includeAttr a = true
    · simp only [hinc, if_true, List.filter_cons_of_pos, List.map_cons]
      rw [GtfWriter.formatAttr_eq m a isParY hm]
      simp only
      rw [ih]
      congr 1
      apply String.ext
      have hT : separatedBy [' ']
          (a.fVals.map (fun v => GtfWriter.pairText isParY a.fName v ++ [';'])) =
          GtfWriter.attrText isParY a := rfl
      by_cases hacc : acc.data = []
      · simp only [hacc, List.length_nil, gt_iff_lt, lt_self_iff_false, if_false, if_true,
          String.data_append, List.nil_append, hT]
        by_cases ht : GtfWriter.attrText isParY a = []
        · simp [ht]
        · have he : (GtfWriter.attrText isParY a).isEmpty = false := by
            cases hc : GtfWriter.attrText isParY a with
            | nil => exact absurd hc ht
            | cons c cs => rfl
          simp only [ht, if_false, List.dropWhile_cons, he, Bool.false_eq_true, separatedBy]
      · have hpos : acc.data.length > 0 := List.length_pos.mpr hacc
        have hne : ¬ (acc.data ++ ([' '] ++ GtfWriter.attrText isParY a) = []) := by
          simp [hacc]
        simp only [hpos, if_true, hacc, if_false, String.data_append, hT, precededBy,
          List.append_assoc]
        exact if_neg hne
    · have hinc' : GtfWriter.includeAttr a = false := by simpa using hinc
      simp only [hinc', Bool.false_eq_true, if_false]
      rw [List.filter_cons_of_neg (by simp [hinc'])]
      exact ih acc

theorem GtfWriter.formatAttrs_texts (m : ParIdHackMethod) (attrs : AttrVals)
    (hm : GtfWriter.hasParYTag attrs = false ∨ m = .PAR_ID_HACK_NEW) :
    GtfWriter.formatAttrs m attrs =
      .ok ⟨separatedBy [' '] (((attrs.filter GtfWriter.includeAttr).map
        (GtfWriter.attrText (GtfWriter.hasParYTag attrs))).dropWhile List.isEmpty)⟩ := by
  unfold GtfWriter.formatAttrs
  rw [GtfWriter.formatAttrs_loop_texts m _ hm attrs]
  rfl

theorem GtfWriter.includeAttr_iff (a : AttrVal) :
    GtfWriter.includeAttr a = true ↔
      a.fName ≠ "ID" ∧ a.fName ≠ "Parent" ∧ a.fName ≠ "remap_original_id" := by
  unfold GtfWriter.includeAttr AttrVal.getName GxfFeature.ID_ATTR GxfFeature.PARENT_ATTR
  simp [not_or, and_assoc]

theorem GtfWriter.hasParYTag_first (pre : List AttrVal) (a : AttrVal) (post : List AttrVal)
    (hpre : ∀ y ∈ pre, y.fName ≠ "tag") (ha : a.fName = "tag") :
    GtfWriter.hasParYTag (pre ++ a :: post) = true ↔ "PAR" ∈ a.fVals := by
  unfold GtfWriter.hasParYTag GxfFeature.TAG_ATTR
  rw [AttrVals.find_first "tag" pre a post hpre ha]
  simp [List.any_eq_true]

theorem GtfWriter.hasParYTag_none (attrs : AttrVals) (h : ∀ a ∈ attrs, a.fName ≠ "tag") :
    GtfWriter.hasParYTag attrs = false := by
  unfold GtfWriter.hasParYTag GxfFeature.TAG_ATTR
  rw [AttrVals.find_none attrs "tag" h]

/-- C26 fails as stated: for the list of `gene_id` with the value `ENSG01` and
`tag` with the value `PAR` the writer emits `gene_id "ENSG01_PAR_Y"; tag
"PAR";`, so the attribute `gene_id` does not appear with its value: the text
of the pairs of names and values is `gene_id "ENSG01"; tag "PAR";`. -/
theorem formatAttrs_emits_counterexample :
    GtfWriter.formatAttrs .PAR_ID_HACK_NEW
        [⟨"gene_id", ["ENSG01"], false⟩, ⟨"tag", ["PAR"], false⟩] =
      .ok "gene_id \"ENSG01_PAR_Y\"; tag \"PAR\";" ∧
    (⟨separatedBy [' '] (([⟨"gene_id", ["ENSG01"], false⟩, ⟨"tag", ["PAR"], false⟩].map
      (GtfWriter.attrText false)).dropWhile List.isEmpty)⟩ : String) =
      "gene_id \"ENSG01\"; tag \"PAR\";" ∧
    ("gene_id \"ENSG01_PAR_Y\"; tag \"PAR\";" : String) ≠ "gene_id \"ENSG01\"; tag \"PAR\";" :=
  ⟨rfl, by decide, by decide⟩

/-- C26, amended: for every attribute list whose first attribute named `tag`
has no value `PAR` (or that has no attribute named `tag`), and for every
attribute list under the `_PAR_Y` method, `GtfWriter::formatAttrs` emits, in
list order and with one space between them, the texts of exactly the
attributes whose name is not `ID`, `Parent` or `remap_original_id` (nothing
for an attribute without values); the text of an attribute is a pair for each
of its values, in order, with one space between them and each terminated by
`;`: the name, a space and the value, in double quotes unless the value is
numeric; in a list whose first attribute named `tag` has the value `PAR` the
values of `gene_id` and `transcript_id` are written followed by `_PAR_Y`; a
value `PAR` of a later attribute named `tag` has no such effect. -/
theorem formatAttrs_emits (m : ParIdHackMethod) (attrs : AttrVals)
    (hm : GtfWriter.hasParYTag attrs = false ∨ m = .PAR_ID_HACK_NEW) :
    GtfWriter.formatAttrs m attrs =
      .ok ⟨separatedBy [' '] (((attrs.filter GtfWriter.includeAttr).map
        (GtfWriter.attrText (GtfWriter.hasParYTag attrs))).dropWhile List.isEmpty)⟩ ∧
    ((∀ a ∈ attrs, a.fVals ≠ []) →
      GtfWriter.formatAttrs m attrs =
        .ok ⟨separatedBy [' '] ((GtfWriter.pairTexts (GtfWriter.hasParYTag attrs)
          (attrs.filter GtfWriter.includeAttr)).map (· ++ [';']))⟩) ∧
    (∀ a : AttrVal, GtfWriter.includeAttr a = true ↔
      a.fName ≠ "ID" ∧ a.fName ≠ "Parent" ∧ a.fName ≠ "remap_original_id") ∧
    (∀ (isParY : Bool) (a : AttrVal), GtfWriter.attrText isParY a =
      separatedBy [' '] (a.fVals.map (fun v => GtfWriter.pairText isParY a.fName v ++ [';']))) ∧
    (∀ (isParY : Bool) (name v : String),
      isParY = false ∨ (name ≠ "gene_id" ∧ name ≠ "transcript_id") →
      GtfWriter.pairText isParY name v =
        name.data ++ ' ' :: (if isNumeric v then v.data else '"' :: v.data ++ ['"'])) ∧
    (∀ name v : String, name = "gene_id" ∨ name = "transcript_id" →
      GtfWriter.pairText true name v =
        name.data ++ ' ' :: (if isNumeric v then (v ++ "_PAR_Y").data
          else '"' :: (v ++ "_PAR_Y").data ++ ['"'])) ∧
    (∀ (pre : List AttrVal) (a : AttrVal) (post : List AttrVal), attrs = pre ++ a :: post →
      (∀ y ∈ pre, y.fName ≠ "tag") → a.fName = "tag" →
      (GtfWriter.hasParYTag attrs = true ↔ "PAR" ∈ a.fVals)) ∧
    ((∀ a ∈ attrs, a.fName ≠ "tag") → GtfWriter.hasParYTag attrs = false) := by
  refine ⟨GtfWriter.formatAttrs_texts m attrs hm,
    GtfWriter.formatAttrs_eq m attrs hm, GtfWriter.includeAttr_iff, fun _ _ => rfl, ?_, ?_,
    fun pre a post hdec hpre ha => by
      rw [hdec]
      exact GtfWriter.hasParYTag_first pre a post hpre ha,
    GtfWriter.hasParYTag_none attrs⟩
  · intro isParY name v h
    unfold GtfWriter.pairText GtfWriter.emittedValue isParIdNonUniqAttr
      GxfFeature.GENE_ID_ATTR GxfFeature.TRANSCRIPT_ID_ATTR
    rcases h with h | ⟨h1, h2⟩
    · subst h
      simp
    · simp [h1, h2]
  · intro name v h
    unfold GtfWriter.pairText GtfWriter.emittedValue isParIdNonUniqAttr
      GxfFeature.GENE_ID_ATTR GxfFeature.TRANSCRIPT_ID_ATTR
    rcases h with h | h <;> subst h <;> simp

/-- C26 amended, evaluated on a list with the three omitted attributes, a
numeric value and an attribute of two values, and on a list with two
attributes named `tag`, `basic` and then `PAR`, for which no `_PAR_Y` is
written. -/
theorem formatAttrs_emits_witness :
    GtfWriter.formatAttrs .PAR_ID_HACK_OLD
        [⟨"ID", ["x"], false⟩, ⟨"gene_id", ["ENSG01.1"], false⟩, ⟨"Parent", ["p"], false⟩,
         ⟨"level", ["2"], false⟩, ⟨"remap_original_id", ["y"], false⟩,
         ⟨"tag", ["basic", "CCDS"], false⟩] =
      .ok "gene_id \"ENSG01.1\"; level 2; tag \"basic\"; tag \"CCDS\";" ∧
    GtfWriter.hasParYTag
        [⟨"gene_id", ["ENSG01"], false⟩, ⟨"tag", ["basic"], false⟩, ⟨"tag", ["PAR"], false⟩] =
      false ∧
    GtfWriter.formatAttrs .PAR_ID_HACK_NEW
        [⟨"gene_id", ["ENSG01"], false⟩, ⟨"tag", ["basic"], false⟩, ⟨"tag", ["PAR"], false⟩] =
      .ok "gene_id \"ENSG01\"; tag \"basic\"; tag \"PAR\";" :=
  ⟨((formatAttrs_emits .PAR_ID_HACK_OLD
      [⟨"ID", ["x"], false⟩, ⟨"gene_id", ["ENSG01.1"], false⟩, ⟨"Parent", ["p"], false⟩,
       ⟨"level", ["2"], false⟩, ⟨"remap_original_id", ["y"], false⟩,
       ⟨"tag", ["basic", "CCDS"], false⟩] (Or.inl (by decide))).1).trans rfl,
   by decide,
   ((formatAttrs_emits .PAR_ID_HACK_NEW
      [⟨"gene_id", ["ENSG01"], false⟩, ⟨"tag", ["basic"], false⟩, ⟨"tag", ["PAR"], false⟩]
      (Or.inr rfl)).1).trans rfl⟩

/-! ## Repeated names in an attribute column -/

theorem GtfParser.parseAttr_readPair (attrStr : String) (acc : AttrVals) :
    GtfParser.parseAttr attrStr acc =
      match GtfParser.readPair attrStr with
      | none => .error (.invalid_argument ("Invalid GTF attribute \"" ++ attrStr ++ "\""))
      | some p => GtfParser.storeValue p.1 p.2 acc := by
  unfold GtfParser.parseAttr GtfParser.readPair
  cases stringFind attrStr ' ' <;> rfl

theorem GtfParser.storeValue_cases (name value : String) (acc attrs : AttrVals)
    (h : GtfParser.storeValue name value acc = .ok attrs) :
    ((∀ a ∈ acc, a.fName ≠ name) ∧ attrs = acc ++ [⟨name, [value], false⟩]) ∨
    (∃ pre x post, acc = pre ++ x :: post ∧ (∀ y ∈ pre, y.fName ≠ name) ∧ x.fName = name ∧
      attrs = pre ++ ⟨x.fName, x.fVals ++ [value], x.fQuoted⟩ :: post) := by
  unfold GtfParser.storeValue at h
  rcases AttrVals.first_named name acc with hnone | ⟨pre, x, post, hdec, hpre, hx⟩
  · left
    simp only [AttrVals.findIdx_none acc name hnone] at h
    rw [if_neg (by decide)] at h
    cases hnew : AttrVal.new name value false with
    | error e => simp [hnew] at h
    | ok b =>
      simp only [hnew] at h
      cases h
      obtain ⟨_, _, hb⟩ := AttrVal.new_ok _ _ _ _ hnew
      subst hb
      exact ⟨hnone, rfl⟩
  · right
    subst hdec
    have hidx : AttrVals.findIdx (pre ++ x :: post) name = pre.length :=
      AttrVals.findIdx_first name pre x post hpre hx
    simp only [hidx] at h
    rw [if_pos (by omega)] at h
    simp only [Int.toNat_ofNat] at h
    rw [List.get?_eq_getElem?, List.getElem?_append_right (le_refl _)] at h
    simp only [Nat.sub_self, List.getElem?_cons_zero] at h
    cases hadd : x.addVal value with
    | error e => simp [hadd] at h
    | ok x' =>
      simp only [hadd] at h
      cases h
      obtain ⟨_, hx'⟩ := AttrVal.addVal_ok x x' value hadd
      subst hx'
      exact ⟨pre, x, post, rfl, hpre, hx, by simp⟩

theorem firstOccurrences_append_singleton (acc l : List String) (n : String) :
    firstOccurrences acc (l ++ [n]) =
      if n ∈ firstOccurrences acc l then firstOccurrences acc l
      else firstOccurrences acc l ++ [n] := by
  induction l generalizing acc with
  | nil => simp [firstOccurrences]
  | cons m rest ih =>
    simp only [List.cons_append, firstOccurrences]
    exact ih _

theorem GtfParser.storeValue_merged (name value : String) (acc attrs : AttrVals)
    (done : List (String × String))
    (h : GtfParser.storeValue name value acc = .ok attrs)
    (hinv : GtfParser.Merged done acc) :
    GtfParser.Merged (done ++ [(name, value)]) attrs := by
  obtain ⟨hnodup, hnames, hvals, hall⟩ := hinv
  rcases GtfParser.storeValue_cases name value acc attrs h with
    ⟨hnone, hattrs⟩ | ⟨pre, x, post, hacc, hpre, hx, hattrs⟩
  · subst hattrs
    have hnot : name ∉ acc.map AttrVal.fName := by
      intro hm
      obtain ⟨a, ha, han⟩ := List.mem_map.mp hm
      exact hnone a ha han
    have hdone : done.filter (fun p => p.1 = name) = [] := by
      rw [List.filter_eq_nil_iff]
      intro p hp hpn
      obtain ⟨a, ha, han⟩ := hall p hp
      exact hnone a ha (han.trans (by simpa using hpn))
    refine ⟨?_, ?_, ?_, ?_⟩
    · rw [List.map_append, List.nodup_append]
      refine ⟨hnodup, by simp, ?_⟩
      intro n hn1 hn2
      simp at hn2
      exact hnot (by rw [← hn2]; exact hn1)
    · have e : (done ++ [(name, value)]).map Prod.fst = done.map Prod.fst ++ [name] := by simp
      rw [e, firstOccurrences_append_singleton, ← hnames, if_neg hnot]
      simp
    · intro a ha
      rcases List.mem_append.mp ha with h' | h'
      · have hne : a.fName ≠ name := hnone a h'
        rw [List.filter_append, hvals a h']
        have : [(name, value)].filter (fun p => p.1 = a.fName) = [] := by
          simp [List.filter_cons, Ne.symm hne]
        rw [this, List.append_nil]
      · simp only [List.mem_singleton] at h'
        subst h'
        rw [List.filter_append, hdone]
        simp
    · intro p hp
      rcases List.mem_append.mp hp with h' | h'
      · obtain ⟨a, ha, han⟩ := hall p h'
        exact ⟨a, List.mem_append_left _ ha, han⟩
      · simp only [List.mem_singleton] at h'
        subst h'
        exact ⟨⟨name, [value], false⟩, by simp, rfl⟩
  · subst hacc
    subst hattrs
    have hnm : (pre ++ (⟨x.fName, x.fVals ++ [value], x.fQuoted⟩ : AttrVal) :: post).map
        AttrVal.fName = (pre ++ x :: post).map AttrVal.fName := by simp
    have hin : name ∈ (pre ++ x :: post).map AttrVal.fName :=
      List.mem_map.mpr ⟨x, by simp, hx⟩
    have hpost : ∀ y ∈ post, y.fName ≠ name := by
      intro y hy hyn
      rw [List.map_append, List.map_cons, List.nodup_append] at hnodup
      obtain ⟨_, h2, _⟩ := hnodup
      rw [List.nodup_cons] at h2
      exact h2.1 (List.mem_map.mpr ⟨y, hy, hyn.trans hx.symm⟩)
    refine ⟨?_, ?_, ?_, ?_⟩
    · rw [hnm]
      exact hnodup
    · have e : (done ++ [(name, value)]).map Prod.fst = done.map Prod.fst ++ [name] := by simp
      rw [hnm, e, firstOccurrences_append_singleton, ← hnames, if_pos hin]
    · intro a ha
      rcases List.mem_append.mp ha with h' | h'
      · have hne : a.fName ≠ name := hpre a h'
        rw [List.filter_append, hvals a (List.mem_append_left _ h')]
        have : [(name, value)].filter (fun p => p.1 = a.fName) = [] := by
          simp [List.filter_cons, Ne.symm hne]
        rw [this, List.append_nil]
      · rcases List.mem_cons.mp h' with h'' | h''
        · subst h''
          simp only
          rw [List.filter_append, List.map_append, ← hvals x (by simp)]
          simp [List.filter_cons, hx]
        · have hne : a.fName ≠ name := hpost a h''
          rw [List.filter_append,
            hvals a (List.mem_append_right _ (List.mem_cons_of_mem _ h''))]
          have : [(name, value)].filter (fun p => p.1 = a.fName) = [] := by
            simp [List.filter_cons, Ne.symm hne]
          rw [this, List.append_nil]
    · intro p hp
      rcases List.mem_append.mp hp with h' | h'
      · obtain ⟨a, ha, han⟩ := hall p h'
        rcases List.mem_append.mp ha with h1 | h1
        · exact ⟨a, List.mem_append_left _ h1, han⟩
        · rcases List.mem_cons.mp h1 with h2 | h2
          · subst h2
            exact ⟨_, List.mem_append_right _ (List.mem_cons_self _ _), han⟩
          · exact ⟨a, List.mem_append_right _ (List.mem_cons_of_mem _ h2), han⟩
      · simp only [List.mem_singleton] at h'
        subst h'
        exact ⟨_, List.mem_append_right _ (List.mem_cons_self _ _), hx⟩

theorem GtfParser.parseParts_merged (parts : List String) (acc attrs : AttrVals)
    (done : List (String × String))
    (h : GtfParser.parseParts parts acc = .ok attrs) (hinv : GtfParser.Merged done acc) :
    ∃ pairs : List (String × String),
      parts.map (fun part => GtfParser.readPair (stringTrim part)) = pairs.map some ∧
      GtfParser.Merged (done ++ pairs) attrs := by
  induction parts generalizing acc done with
  | nil =>
    simp [GtfParser.parseParts] at h
    subst h
    exact ⟨[], rfl, by simpa using hinv⟩
  | cons p rest ih =>
    rw [GtfParser.parseParts] at h
    cases hp : GtfParser.parseAttr (stringTrim p) acc with
    | error e => simp [hp] at h
    | ok acc' =>
      simp only [hp] at h
      rw [GtfParser.parseAttr_readPair] at hp
      cases hr : GtfParser.readPair (stringTrim p) with
      | none => simp [hr] at hp
      | some pr =>
        simp only [hr] at hp
        have hm := GtfParser.storeValue_merged pr.1 pr.2 acc acc' done hp hinv
        obtain ⟨pairs, hpairs, hmerged⟩ := ih acc' (done ++ [(pr.1, pr.2)]) h hm
        refine ⟨pr :: pairs, ?_, ?_⟩
        · simp only [List.map_cons, hr, hpairs]
        · simpa using hmerged

/-- C27: the attribute list that `GtfParser::parseAttrs` returns for an
accepted column has pairwise distinct names: with the name and value pairs
read from the parts of the column, the list has one entry for each name, in
the order of the first occurrences of the names, and the values of an entry
are the values read with its name, in the order of occurrence.
`Gff3Parser::parseAttrs` returns one entry for each part between `;`, so for
`tag=basic;tag=CCDS` two entries with the name `tag`. -/
theorem parseAttrs_distinct_names (s : String) (attrs : AttrVals)
    (h : GtfParser.parseAttrs s = .ok attrs) :
    (attrs.map AttrVal.fName).Nodup ∧
    (∃ pairs : List (String × String),
      (stringSplit s ';').dropLast.map (fun part => GtfParser.readPair (stringTrim part)) =
        pairs.map some ∧
      attrs.map AttrVal.fName = firstOccurrences [] (pairs.map Prod.fst) ∧
      (∀ a ∈ attrs, a.fVals = (pairs.filter (fun p => p.1 = a.fName)).map Prod.snd) ∧
      (∀ p ∈ pairs, ∃ a ∈ attrs, a.fName = p.1)) ∧
    (∀ (t : String) (entries : AttrVals), Gff3Parser.parseAttrs t = .ok entries →
      entries.length = (stringSplit t ';').length) ∧
    Gff3Parser.parseAttrs "tag=basic;tag=CCDS" =
      .ok [⟨"tag", ["basic"], false⟩, ⟨"tag", ["CCDS"], false⟩] := by
  unfold GtfParser.parseAttrs at h
  obtain ⟨pairs, hpairs, hm⟩ := GtfParser.parseParts_merged _ [] attrs [] h
    ⟨by simp, rfl, by simp, by simp⟩
  rw [List.nil_append] at hm
  refine ⟨hm.1, ⟨pairs, hpairs, hm.2.1, hm.2.2.1, hm.2.2.2⟩, ?_, rfl⟩
  intro t entries ht
  unfold Gff3Parser.parseAttrs at ht
  have := (Gff3Parser.parseParts_parsed _ [] entries ht
    (fun p hp => (stringSplit_parts t ';' p hp).1) (by simp)).2
  simpa using this

/-- C27, evaluated on a column in which the name `tag` occurs twice, around
the name `level`. -/
theorem parseAttrs_distinct_names_witness :
    GtfParser.parseAttrs "tag \"basic\"; level 2; tag \"CCDS\";" =
      .ok [⟨"tag", ["basic", "CCDS"], false⟩, ⟨"level", ["2"], false⟩] ∧
    (([⟨"tag", ["basic", "CCDS"], false⟩, ⟨"level", ["2"], false⟩] : AttrVals).map
      AttrVal.fName).Nodup ∧
    firstOccurrences [] ["tag", "level", "tag"] = ["tag", "level"] :=
  ⟨rfl, (parseAttrs_distinct_names "tag \"basic\"; level 2; tag \"CCDS\";" _ rfl).1,
    by decide⟩

/-! ## Rejected and ignored parts of an attribute column -/

theorem splitOn_append_cons (sep : Char) (a b : List Char) :
    (a ++ sep :: b).splitOn sep = a.splitOn sep ++ b.splitOn sep := by
  generalize hn : a.length = n
  induction n using Nat.strong_induction_on generalizing a with
  | _ n ih =>
    by_cases hm : sep ∈ a
    · obtain ⟨pre, post, hdec, hpre⟩ := mem_split_first sep a hm
      subst hdec
      rw [List.append_assoc, List.cons_append, splitOn_append_sep sep pre _ hpre,
        splitOn_append_sep sep pre post hpre,
        ih post.length (by subst hn; simp; omega) post rfl]
      rfl
    · rw [splitOn_append_sep sep a b hm, splitOn_of_not_mem sep a hm]
      rfl

theorem mem_split_last (c : Char) (l : List Char) (h : c ∈ l) :
    ∃ pre post, l = pre ++ c :: post ∧ c ∉ post := by
  obtain ⟨pre, post, hdec, hpre⟩ := mem_split_first c l.reverse (List.mem_reverse.mpr h)
  refine ⟨post.reverse, pre.reverse, ?_, by simpa using hpre⟩
  have := congrArg List.reverse hdec
  simpa using this

theorem AttrVal.new_error (name val : String) (quoted : Bool) (e : GxfError)
    (h : AttrVal.new name val quoted = .error e) : ∃ msg, e = .invalid_argument msg := by
  unfold AttrVal.new AttrVal.checkName AttrVal.checkVal at h
  by_cases h1 : stringEmpty name = true
  · simp [h1] at h
    exact ⟨_, h.symm⟩
  · by_cases h2 : stringEmpty val = true
    · simp [h1, h2] at h
      exact ⟨_, h.symm⟩
    · simp [h1, h2] at h

theorem Gff3Parser.addVals_error (b : AttrVal) (vals : List String) (e : GxfError)
    (h : Gff3Parser.addVals b vals = .error e) : ∃ msg, e = .invalid_argument msg := by
  induction vals generalizing b with
  | nil => simp [Gff3Parser.addVals] at h
  | cons v rest ih =>
    rw [Gff3Parser.addVals] at h
    cases hv : b.addVal v with
    | error e' =>
      simp only [hv] at h
      cases h
      unfold AttrVal.addVal at hv
      cases hc : AttrVal.checkVal v with
      | error e2 =>
        simp only [hc] at hv
        cases hv
        exact ⟨_, (AttrVal.checkVal_error v _ hc).2⟩
      | ok u => simp [hc] at hv
    | ok b' =>
      simp only [hv] at h
      exact ih b' h

theorem Gff3Parser.parseAttr_error (attrStr : String) (acc : AttrVals) (e : GxfError)
    (h : Gff3Parser.parseAttr attrStr acc = .error e) : ∃ msg, e = .invalid_argument msg := by
  unfold Gff3Parser.parseAttr at h
  cases hf : stringFind attrStr '=' with
  | none =>
    simp only [hf] at h
    cases h
    exact ⟨_, rfl⟩
  | some i =>
    simp only [hf] at h
    cases hs : stringSplit (stripQuotes (stringSubstrFrom attrStr (i + 1))) ',' with
    | nil => exact absurd hs (stringSplit_ne_nil _ _)
    | cons v0 rest =>
      simp only [hs] at h
      cases hn : AttrVal.new (stringSubstr attrStr 0 i) v0 false with
      | error e' =>
        simp only [hn] at h
        cases h
        exact AttrVal.new_error _ _ _ _ hn
      | ok a =>
        simp only [hn] at h
        cases ha : Gff3Parser.addVals a rest with
        | error e' =>
          simp only [ha] at h
          cases h
          exact Gff3Parser.addVals_error _ _ _ ha
        | ok a' => simp [ha] at h

theorem Gff3Parser.parseAttr_ok_iff (attrStr : String) (acc : AttrVals) :
    (∃ attrs, Gff3Parser.parseAttr attrStr acc = .ok attrs) ↔
      Gff3Parser.badPart attrStr = false := by
  unfold Gff3Parser.parseAttr Gff3Parser.badPart
  cases hf : stringFind attrStr '=' with
  | none => simp
  | some i =>
    simp only
    cases hs : stringSplit (stripQuotes (stringSubstrFrom attrStr (i + 1))) ',' with
    | nil => exact absurd hs (stringSplit_ne_nil _ _)
    | cons v0 rest =>
      simp only
      constructor
      · rintro ⟨attrs, h⟩
        cases hn : AttrVal.new (stringSubstr attrStr 0 i) v0 false with
        | error e' => simp [hn] at h
        | ok a =>
          simp only [hn] at h
          cases ha : Gff3Parser.addVals a rest with
          | error e' => simp [ha] at h
          | ok a' =>
            obtain ⟨h1, h2, _⟩ := AttrVal.new_ok _ _ _ _ hn
            obtain ⟨_, h3⟩ := Gff3Parser.addVals_result _ _ _ ha
            simp only [Bool.or_eq_false_iff, beq_eq_false_iff_ne, ne_eq, decide_eq_false_iff_not,
              List.mem_cons, not_or]
            exact ⟨h1, fun hc => h2 hc.symm, fun hm => h3 "" hm rfl⟩
      · intro h
        simp only [Bool.or_eq_false_iff, beq_eq_false_iff_ne, ne_eq, decide_eq_false_iff_not,
          List.mem_cons, not_or] at h
        obtain ⟨h1, h2, h3⟩ := h
        have hv0 : v0 ≠ "" := fun hc => h2 hc.symm
        have hrest : ∀ v ∈ rest, v ≠ "" := by
          intro v hv hc
          subst hc
          exact h3 hv
        rw [AttrVal.new_of_ne _ _ _ h1 hv0]
        simp only
        rw [Gff3Parser.addVals_ok _ _ hrest]
        exact ⟨_, rfl⟩

theorem Gff3Parser.parseParts_error (parts : List String) (acc : AttrVals) (e : GxfError)
    (h : Gff3Parser.parseParts parts acc = .error e) : ∃ msg, e = .invalid_argument msg := by
  induction parts generalizing acc with
  | nil => simp [Gff3Parser.parseParts] at h
  | cons p rest ih =>
    rw [Gff3Parser.parseParts] at h
    cases hp : Gff3Parser.parseAttr (stringTrim p) acc with
    | error e1 =>
      simp only [hp] at h
      cases h
      exact Gff3Parser.parseAttr_error _ _ _ hp
    | ok acc1 =>
      simp only [hp] at h
      exact ih acc1 h

theorem Gff3Parser.parseParts_ok_iff (parts : List String) (acc : AttrVals) :
    (∃ attrs, Gff3Parser.parseParts parts acc = .ok attrs) ↔
      ∀ p ∈ parts, Gff3Parser.badPart (stringTrim p) = false := by
  induction parts generalizing acc with
  | nil => simp [Gff3Parser.parseParts]
  | cons p rest ih =>
    rw [Gff3Parser.parseParts]
    cases hp : Gff3Parser.parseAttr (stringTrim p) acc with
    | error e1 =>
      simp only [List.mem_cons, forall_eq_or_imp]
      constructor
      · rintro ⟨attrs, h⟩
        cases h
      · rintro ⟨h1, _⟩
        obtain ⟨attrs, h⟩ := (Gff3Parser.parseAttr_ok_iff (stringTrim p) acc).mpr h1
        rw [hp] at h
        cases h
    | ok acc1 =>
      simp only [List.mem_cons, forall_eq_or_imp]
      rw [ih acc1]
      have := (Gff3Parser.parseAttr_ok_iff (stringTrim p) acc).mp ⟨acc1, hp⟩
      exact ⟨fun h => ⟨this, h⟩, fun h => h.2⟩

theorem Gff3Parser.badPart_iff (t : String) :
    Gff3Parser.badPart t = true ↔
      ('=' ∉ t.data ∨ ∃ name rest, t.data = name ++ '=' :: rest ∧ '=' ∉ name ∧
        (name = [] ∨ "" ∈ stringSplit (stripQuotes ⟨rest⟩) ',')) := by
  have key : ∀ name rest : List Char, '=' ∉ name →
      (Gff3Parser.badPart ⟨name ++ '=' :: rest⟩ = true ↔
        (name = [] ∨ "" ∈ stringSplit (stripQuotes ⟨rest⟩) ',')) := by
    intro name rest hname
    unfold Gff3Parser.badPart
    rw [stringFind_append_cons '=' name rest hname]
    have hsub : stringSubstr ⟨name ++ '=' :: rest⟩ 0 name.length = ⟨name⟩ :=
      String.ext (take_append_cons _ _ _)
    have hfrom : stringSubstrFrom ⟨name ++ '=' :: rest⟩ (name.length + 1) = ⟨rest⟩ :=
      String.ext (drop_append_cons _ _ _)
    simp only [hsub, hfrom, Bool.or_eq_true, beq_iff_eq, decide_eq_true_eq]
    constructor
    · rintro (h | h)
      · exact Or.inl (congrArg String.data h)
      · exact Or.inr h
    · rintro (h | h)
      · exact Or.inl (String.ext h)
      · exact Or.inr h
  by_cases hm : '=' ∈ t.data
  · obtain ⟨pre, post, hdec, hpre⟩ := mem_split_first '=' t.data hm
    have ht : t = ⟨pre ++ '=' :: post⟩ := String.ext hdec
    constructor
    · intro h
      rw [ht] at h
      exact Or.inr ⟨pre, post, hdec, hpre, (key pre post hpre).mp h⟩
    · rintro (h | ⟨name, rest, hd, hname, h⟩)
      · exact absurd hm h
      · have ht2 : t = ⟨name ++ '=' :: rest⟩ := String.ext hd
        rw [ht2]
        exact (key name rest hname).mpr h
  · constructor
    · exact fun _ => Or.inl hm
    · intro _
      unfold Gff3Parser.badPart stringFind
      rw [if_neg hm]

/-- C28: `Gff3Parser::parseAttrs` fails with an invalid-argument error exactly
when some part of the column between `;`, after trimming, has no `=`, has
nothing before its first `=`, or has an empty value among the values that
the text after the first `=`, without its quotes, has between `,`; it fails
with no other error; so every column that ends with `;` is rejected. -/
theorem gff3_parseAttrs_rejects (s : String) :
    ((∃ msg, Gff3Parser.parseAttrs s = .error (.invalid_argument msg)) ↔
      ∃ part ∈ stringSplit s ';', Gff3Parser.badPart (stringTrim part) = true) ∧
    (∀ e, Gff3Parser.parseAttrs s = .error e → ∃ msg, e = .invalid_argument msg) ∧
    (∀ t : String, Gff3Parser.badPart t = true ↔
      ('=' ∉ t.data ∨ ∃ name rest, t.data = name ++ '=' :: rest ∧ '=' ∉ name ∧
        (name = [] ∨ "" ∈ stringSplit (stripQuotes ⟨rest⟩) ','))) ∧
    (stringEndsWith s ";" = true →
      ∃ msg, Gff3Parser.parseAttrs s = .error (.invalid_argument msg)) := by
  have hiff : (∃ msg, Gff3Parser.parseAttrs s = .error (.invalid_argument msg)) ↔
      ∃ part ∈ stringSplit s ';', Gff3Parser.badPart (stringTrim part) = true := by
    unfold Gff3Parser.parseAttrs
    have hok := Gff3Parser.parseParts_ok_iff (stringSplit s ';') []
    constructor
    · rintro ⟨msg, h⟩
      by_contra hc
      have hall : ∀ p ∈ stringSplit s ';', Gff3Parser.badPart (stringTrim p) = false := by
        intro p hp
        cases hb : Gff3Parser.badPart (stringTrim p) with
        | false => rfl
        | true => exact absurd ⟨p, hp, hb⟩ hc
      obtain ⟨attrs, h2⟩ := hok.mpr hall
      rw [h] at h2
      cases h2
    · rintro ⟨part, hp, hb⟩
      cases hr : Gff3Parser.parseParts (stringSplit s ';') [] with
      | error e =>
        obtain ⟨msg, hmsg⟩ := Gff3Parser.parseParts_error _ _ _ hr
        exact ⟨msg, by rw [hmsg]⟩
      | ok attrs =>
        have := hok.mp ⟨attrs, hr⟩ part hp
        rw [hb] at this
        cases this
  refine ⟨hiff, ?_, Gff3Parser.badPart_iff, ?_⟩
  · intro e h
    exact Gff3Parser.parseParts_error _ _ _ h
  · intro hend
    apply hiff.mpr
    unfold stringEndsWith at hend
    rw [List.isSuffixOf_iff_suffix] at hend
    obtain ⟨a, ha⟩ := hend
    refine ⟨"", ?_, by decide⟩
    unfold stringSplit
    rw [← ha, show ";".data = [';'] from rfl, splitOn_append_cons]
    simp only [List.map_append, List.mem_append]
    right
    exact List.mem_map.mpr ⟨[], by decide, rfl⟩

/-- C28, evaluated on a column that ends with `;`. -/
theorem gff3_parseAttrs_rejects_witness :
    ∃ msg, Gff3Parser.parseAttrs "ID=ENSG01.1;tag=basic;" = .error (.invalid_argument msg) :=
  (gff3_parseAttrs_rejects "ID=ENSG01.1;tag=basic;").2.2.2 (by decide)

/-- C29: `GtfParser::parseAttrs` parses the parts before the last `;` of the
column only: for a column `s;t` with no `;` in `t` the result is that of
parsing the parts of `s`, whatever `t` is, so the same as for `s;`; every
column with a `;` is of this form; and a column without `;` yields the empty
attribute list. -/
theorem gtf_parseAttrs_ignores_tail (s t : String) (ht : ';' ∉ t.data) :
    GtfParser.parseAttrs (s ++ ";" ++ t) = GtfParser.parseParts (stringSplit s ';') [] ∧
    GtfParser.parseAttrs (s ++ ";" ++ t) = GtfParser.parseAttrs (s ++ ";") ∧
    GtfParser.parseAttrs t = .ok [] ∧
    (∀ c : String, ';' ∈ c.data → ∃ s1 t1 : String, c = s1 ++ ";" ++ t1 ∧ ';' ∉ t1.data) := by
  have key : ∀ u : String, ';' ∉ u.data →
      GtfParser.parseAttrs (s ++ ";" ++ u) = GtfParser.parseParts (stringSplit s ';') [] := by
    intro u hu
    unfold GtfParser.parseAttrs stringSplit
    have hd : (s ++ ";" ++ u).data = s.data ++ ';' :: u.data := by
      simp [String.data_append, show ";".data = [';'] from rfl]
    rw [hd, splitOn_append_cons, splitOn_of_not_mem ';' u.data hu, List.map_append,
      List.map_cons, List.map_nil, List.dropLast_concat]
  refine ⟨key t ht, ?_, ?_, ?_⟩
  · rw [key t ht]
    have := key "" (by decide)
    rw [String.append_empty] at this
    exact this.symm
  · unfold GtfParser.parseAttrs stringSplit
    rw [splitOn_of_not_mem ';' t.data ht]
    rfl
  · intro c hc
    obtain ⟨pre, post, hdec, hpost⟩ := mem_split_last ';' c.data hc
    refine ⟨⟨pre⟩, ⟨post⟩, ?_, hpost⟩
    apply String.ext
    simp [String.data_append, show ";".data = [';'] from rfl, hdec]

/-- C29, evaluated on a column whose last attribute is not terminated by `;`
and on a column without `;`. -/
theorem gtf_parseAttrs_ignores_tail_witness :
    GtfParser.parseAttrs "gene_id \"ENSG01.1\"; level 2" =
      .ok [⟨"gene_id", ["ENSG01.1"], false⟩] ∧
    GtfParser.parseAttrs "level 2" = .ok [] :=
  ⟨((gtf_parseAttrs_ignores_tail "gene_id \"ENSG01.1\"" " level 2" (by decide)).1).trans rfl,
   (gtf_parseAttrs_ignores_tail "" "level 2" (by decide)).2.2.1⟩

/-! ## The first value of an attribute -/

/-- C30 fails as stated: the constructor `AttrVal(name, vals)` succeeds for the
name `tag` and an empty vector of values; the attribute has no value, and
`getVal`, which reads the value at index 0, is not defined for it.  After
`addVal` the attribute has a value, one that was not supplied at
construction. -/
theorem getVal_counterexample :
    AttrVal.newVals "tag" [] false = .ok ⟨"tag", [], false⟩ ∧
    AttrVal.Constructed ⟨"tag", [], false⟩ ∧
    (⟨"tag", [], false⟩ : AttrVal).fVals = [] ∧
    (⟨"tag", [], false⟩ : AttrVal).getVal = none ∧
    (⟨"tag", [], false⟩ : AttrVal).addVal "basic" = .ok ⟨"tag", ["basic"], false⟩ :=
  ⟨rfl, AttrVal.Constructed.newVals "tag" [] false _ rfl, rfl, rfl, rfl⟩

/-- C30, amended: every attribute successfully constructed by the constructor
from one value, or by the constructor from a vector of values that is not
empty, has after any number of `addVal` calls at least one value, and
`getVal` is defined and returns the first value supplied at construction. -/
theorem getVal_first (first : String) (a : AttrVal) (h : AttrVal.ConstructedFrom first a) :
    a.fVals ≠ [] ∧ a.getVal = some first ∧ ∃ rest, a.fVals = first :: rest := by
  have key : ∃ rest, a.fVals = first :: rest := by
    induction h with
    | new name quoted a h =>
      obtain ⟨_, _, ha⟩ := AttrVal.new_ok _ _ _ _ h
      exact ⟨[], by rw [ha]⟩
    | newVals name rest quoted a h =>
      obtain ⟨_, _, ha⟩ := AttrVal.newVals_ok _ _ _ _ h
      exact ⟨rest, by rw [ha]⟩
    | addVal a b val _ hadd ih =>
      obtain ⟨rest, hrest⟩ := ih
      obtain ⟨_, hb⟩ := AttrVal.addVal_ok a b val hadd
      exact ⟨rest ++ [val], by rw [hb]; simp [hrest]⟩
  obtain ⟨rest, hrest⟩ := key
  refine ⟨by rw [hrest]; simp, ?_, rest, hrest⟩
  unfold AttrVal.getVal
  rw [hrest]
  rfl

/-- C30 amended, evaluated on the attribute `tag` made from the value `basic`,
to which the value `CCDS` is added. -/
theorem getVal_first_witness :
    AttrVal.new "tag" "basic" false = .ok ⟨"tag", ["basic"], false⟩ ∧
    (⟨"tag", ["basic"], false⟩ : AttrVal).addVal "CCDS" =
      .ok ⟨"tag", ["basic", "CCDS"], false⟩ ∧
    (⟨"tag", ["basic", "CCDS"], false⟩ : AttrVal).getVal = some "basic" :=
  ⟨rfl, rfl, (getVal_first "basic" ⟨"tag", ["basic", "CCDS"], false⟩
    (AttrVal.ConstructedFrom.addVal ⟨"tag", ["basic"], false⟩ _ "CCDS"
      (AttrVal.ConstructedFrom.new "tag" false _ rfl) rfl)).2.1⟩

/-! ## Sorting a vector of features -/

theorem GxfFeatureVector.sortLess_plus (a b : GxfFeature) (h : a.fStrand = "+") :
    GxfFeatureVector.sortLess a b = decide (a.fStart > b.fStart) := by
  unfold GxfFeatureVector.sortLess
  rw [if_pos h]

theorem GxfFeatureVector.sortLess_other (a b : GxfFeature) (h : a.fStrand ≠ "+") :
    GxfFeatureVector.sortLess a b = decide (a.fStart < b.fStart) := by
  unfold GxfFeatureVector.sortLess
  rw [if_neg h]

theorem GxfFeatureVector.sortLess_irrefl (a : GxfFeature) :
    GxfFeatureVector.sortLess a a = false := by
  unfold GxfFeatureVector.sortLess
  split <;> simp

theorem GxfFeatureVector.strictWeakOrderOn_plus (v : List GxfFeature)
    (h : ∀ f ∈ v, f.fStrand = "+") :
    StrictWeakOrderOn GxfFeatureVector.sortLess v := by
  refine ⟨fun a _ => GxfFeatureVector.sortLess_irrefl a, ?_, ?_⟩
  · intro a ha b hb c _ h1 h2
    rw [GxfFeatureVector.sortLess_plus _ _ (h a ha)] at h1 ⊢
    rw [GxfFeatureVector.sortLess_plus _ _ (h b hb)] at h2
    simp only [decide_eq_true_eq] at h1 h2 ⊢
    omega
  · intro a ha b hb c hc h1 h2 h3 h4
    rw [GxfFeatureVector.sortLess_plus _ _ (h a ha)] at h1 ⊢
    rw [GxfFeatureVector.sortLess_plus _ _ (h b hb)] at h2 h3
    rw [GxfFeatureVector.sortLess_plus _ _ (h c hc)] at h4 ⊢
    simp only [decide_eq_false_iff_not] at h1 h2 h3 h4 ⊢
    omega

theorem GxfFeatureVector.strictWeakOrderOn_other (v : List GxfFeature)
    (h : ∀ f ∈ v, f.fStrand ≠ "+") :
    StrictWeakOrderOn GxfFeatureVector.sortLess v := by
  refine ⟨fun a _ => GxfFeatureVector.sortLess_irrefl a, ?_, ?_⟩
  · intro a ha b hb c _ h1 h2
    rw [GxfFeatureVector.sortLess_other _ _ (h a ha)] at h1 ⊢
    rw [GxfFeatureVector.sortLess_other _ _ (h b hb)] at h2
    simp only [decide_eq_true_eq] at h1 h2 ⊢
    omega
  · intro a ha b hb c hc h1 h2 h3 h4
    rw [GxfFeatureVector.sortLess_other _ _ (h a ha)] at h1 ⊢
    rw [GxfFeatureVector.sortLess_other _ _ (h b hb)] at h2 h3
    rw [GxfFeatureVector.sortLess_other _ _ (h c hc)] at h4 ⊢
    simp only [decide_eq_false_iff_not] at h1 h2 h3 h4 ⊢
    omega

theorem orderedInsert_congr {α : Type} (r s : α → α → Prop) [DecidableRel r] [DecidableRel s]
    (a : α) (l : List α) (h : ∀ b ∈ l, (r a b ↔ s a b)) :
    l.orderedInsert r a = l.orderedInsert s a := by
  induction l with
  | nil => rfl
  | cons b rest ih =>
    have hb := h b (List.mem_cons_self _ _)
    have hrest := ih (fun c hc => h c (List.mem_cons_of_mem _ hc))
    by_cases hr : r a b
    · simp [List.orderedInsert, hr, hb.mp hr]
    · have hs : ¬ s a b := fun hc => hr (hb.mpr hc)
      simp [List.orderedInsert, hr, hs, hrest]

theorem insertionSort_congr {α : Type} (r s : α → α → Prop) [DecidableRel r] [DecidableRel s]
    (l : List α) (h : ∀ a ∈ l, ∀ b ∈ l, (r a b ↔ s a b)) :
    l.insertionSort r = l.insertionSort s := by
  induction l with
  | nil => rfl
  | cons a rest ih =>
    have hrest := ih (fun x hx y hy =>
      h x (List.mem_cons_of_mem _ hx) y (List.mem_cons_of_mem _ hy))
    simp only [List.insertionSort]
    rw [hrest]
    apply orderedInsert_congr
    intro b hb
    exact h a (List.mem_cons_self _ _) b
      (List.mem_cons_of_mem _ ((List.mem_insertionSort s).mp hb))

theorem GxfFeatureVector.sorted_of_plus (v out : List GxfFeature)
    (h : ∀ f ∈ v, f.fStrand = "+") (hperm : out.Perm v)
    (hsorted : out.Pairwise (fun x y => GxfFeatureVector.sortLess y x = false)) :
    out.Pairwise (fun x y => y.fStart ≤ x.fStart) := by
  refine List.Pairwise.imp_of_mem ?_ hsorted
  intro x y _ hy hxy
  rw [GxfFeatureVector.sortLess_plus _ _ (h y (hperm.mem_iff.mp hy))] at hxy
  simp only [decide_eq_false_iff_not] at hxy
  omega

theorem GxfFeatureVector.sorted_of_other (v out : List GxfFeature)
    (h : ∀ f ∈ v, f.fStrand ≠ "+") (hperm : out.Perm v)
    (hsorted : out.Pairwise (fun x y => GxfFeatureVector.sortLess y x = false)) :
    out.Pairwise (fun x y => x.fStart ≤ y.fStart) := by
  refine List.Pairwise.imp_of_mem ?_ hsorted
  intro x y _ hy hxy
  rw [GxfFeatureVector.sortLess_other _ _ (h y (hperm.mem_iff.mp hy))] at hxy
  simp only [decide_eq_false_iff_not] at hxy
  omega

theorem GxfFeatureVector.sort_plus (v : List GxfFeature) (h : ∀ f ∈ v, f.fStrand = "+") :
    ∃ out, GxfFeatureVector.sort v = some out ∧ out.Perm v ∧
      out.Pairwise (fun x y => GxfFeatureVector.sortLess y x = false) := by
  unfold GxfFeatureVector.sort
  rw [if_pos (GxfFeatureVector.strictWeakOrderOn_plus v h)]
  refine ⟨_, rfl, List.perm_insertionSort _ v, ?_⟩
  have hc := insertionSort_congr (fun a b => GxfFeatureVector.sortLess b a = false)
    (fun a b : GxfFeature => b.fStart ≤ a.fStart) v (by
      intro a _ b hb
      show GxfFeatureVector.sortLess b a = false ↔ b.fStart ≤ a.fStart
      rw [GxfFeatureVector.sortLess_plus _ _ (h b hb)]
      simp only [decide_eq_false_iff_not]
      omega)
  rw [hc]
  haveI : IsTotal GxfFeature (fun a b : GxfFeature => b.fStart ≤ a.fStart) :=
    ⟨fun a b => le_total b.fStart a.fStart⟩
  haveI : IsTrans GxfFeature (fun a b : GxfFeature => b.fStart ≤ a.fStart) :=
    ⟨fun a b c hab hbc => le_trans hbc hab⟩
  have hs := List.sorted_insertionSort (fun a b : GxfFeature => b.fStart ≤ a.fStart) v
  refine List.Pairwise.imp_of_mem ?_ hs
  intro x y _ hy hxy
  rw [GxfFeatureVector.sortLess_plus _ _
    (h y ((List.mem_insertionSort _).mp hy))]
  simp only [decide_eq_false_iff_not]
  omega

theorem GxfFeatureVector.sort_other (v : List GxfFeature) (h : ∀ f ∈ v, f.fStrand ≠ "+") :
    ∃ out, GxfFeatureVector.sort v = some out ∧ out.Perm v ∧
      out.Pairwise (fun x y => GxfFeatureVector.sortLess y x = false) := by
  unfold GxfFeatureVector.sort
  rw [if_pos (GxfFeatureVector.strictWeakOrderOn_other v h)]
  refine ⟨_, rfl, List.perm_insertionSort _ v, ?_⟩
  have hc := insertionSort_congr (fun a b => GxfFeatureVector.sortLess b a = false)
    (fun a b : GxfFeature => a.fStart ≤ b.fStart) v (by
      intro a _ b hb
      show GxfFeatureVector.sortLess b a = false ↔ a.fStart ≤ b.fStart
      rw [GxfFeatureVector.sortLess_other _ _ (h b hb)]
      simp only [decide_eq_false_iff_not]
      omega)
  rw [hc]
  haveI : IsTotal GxfFeature (fun a b : GxfFeature => a.fStart ≤ b.fStart) :=
    ⟨fun a b => le_total a.fStart b.fStart⟩
  haveI : IsTrans GxfFeature (fun a b : GxfFeature => a.fStart ≤ b.fStart) :=
    ⟨fun a b c hab hbc => le_trans hab hbc⟩
  have hs := List.sorted_insertionSort (fun a b : GxfFeature => a.fStart ≤ b.fStart) v
  refine List.Pairwise.imp_of_mem ?_ hs
  intro x y _ hy hxy
  rw [GxfFeatureVector.sortLess_other _ _
    (h y ((List.mem_insertionSort _).mp hy))]
  simp only [decide_eq_false_iff_not]
  omega

/-- C31 fails as stated: for the feature `a` on strand `+` with start 5 and the
feature `b` on strand `-` with start 3 the comparison holds in both
directions, `a` before `b` and `b` before `a`, so it is not asymmetric and no
strict weak ordering on the collection of `a` and `b`, and the sort of this
vector is not defined. -/
theorem sort_counterexample :
    GxfFeatureVector.sortLess ⟨"chr1", "HAVANA", "exon", 5, 9, ".", "+", ".", []⟩
      ⟨"chr1", "HAVANA", "exon", 3, 4, ".", "-", ".", []⟩ = true ∧
    GxfFeatureVector.sortLess ⟨"chr1", "HAVANA", "exon", 3, 4, ".", "-", ".", []⟩
      ⟨"chr1", "HAVANA", "exon", 5, 9, ".", "+", ".", []⟩ = true ∧
    ¬ StrictWeakOrderOn GxfFeatureVector.sortLess
      [⟨"chr1", "HAVANA", "exon", 5, 9, ".", "+", ".", []⟩,
       ⟨"chr1", "HAVANA", "exon", 3, 4, ".", "-", ".", []⟩] ∧
    GxfFeatureVector.sort
      [⟨"chr1", "HAVANA", "exon", 5, 9, ".", "+", ".", []⟩,
       ⟨"chr1", "HAVANA", "exon", 3, 4, ".", "-", ".", []⟩] = none := by
  have hnot : ¬ StrictWeakOrderOn GxfFeatureVector.sortLess
      [⟨"chr1", "HAVANA", "exon", 5, 9, ".", "+", ".", []⟩,
       ⟨"chr1", "HAVANA", "exon", 3, 4, ".", "-", ".", []⟩] := by
    rintro ⟨hirr, htrans, _⟩
    have h := htrans ⟨"chr1", "HAVANA", "exon", 5, 9, ".", "+", ".", []⟩ (by simp)
      ⟨"chr1", "HAVANA", "exon", 3, 4, ".", "-", ".", []⟩ (by simp)
      ⟨"chr1", "HAVANA", "exon", 5, 9, ".", "+", ".", []⟩ (by simp) (by decide) (by decide)
    rw [GxfFeatureVector.sortLess_irrefl] at h
    cases h
  refine ⟨by decide, by decide, hnot, ?_⟩
  unfold GxfFeatureVector.sort
  rw [if_neg hnot]

/-- C31, amended: the comparison used by `GxfFeatureVector::sort` is irreflexive
on all features, and on every collection of features that all have strand
`+`, or that all have another strand, it is a strict weak ordering
(irreflexive, asymmetric, transitive, with transitive incomparability), so
the sort is defined there; on a vector whose features all have strand `+`
the result is ordered by non-increasing start, on a vector whose features all
have another strand it is ordered by non-decreasing start, and the result is
a permutation of the input; the same order holds for every permutation of the
input that is sorted by the comparison. -/
theorem sort_strictWeakOrdering (v : List GxfFeature) :
    (∀ a : GxfFeature, GxfFeatureVector.sortLess a a = false) ∧
    ((∀ f ∈ v, f.fStrand = "+") ∨ (∀ f ∈ v, f.fStrand ≠ "+") →
      StrictWeakOrderOn GxfFeatureVector.sortLess v ∧
      (∀ a ∈ v, ∀ b ∈ v, GxfFeatureVector.sortLess a b = true →
        GxfFeatureVector.sortLess b a = false)) ∧
    ((∀ f ∈ v, f.fStrand = "+") →
      (∃ out, GxfFeatureVector.sort v = some out ∧ out.Perm v ∧
        out.Pairwise (fun x y => y.fStart ≤ x.fStart)) ∧
      (∀ out : List GxfFeature, out.Perm v →
        out.Pairwise (fun x y => GxfFeatureVector.sortLess y x = false) →
        out.Pairwise (fun x y => y.fStart ≤ x.fStart))) ∧
    ((∀ f ∈ v, f.fStrand ≠ "+") →
      (∃ out, GxfFeatureVector.sort v = some out ∧ out.Perm v ∧
        out.Pairwise (fun x y => x.fStart ≤ y.fStart)) ∧
      (∀ out : List GxfFeature, out.Perm v →
        out.Pairwise (fun x y => GxfFeatureVector.sortLess y x = false) →
        out.Pairwise (fun x y => x.fStart ≤ y.fStart))) := by
  refine ⟨GxfFeatureVector.sortLess_irrefl, ?_, ?_, ?_⟩
  · intro h
    have hswo : StrictWeakOrderOn GxfFeatureVector.sortLess v := by
      rcases h with h | h
      · exact GxfFeatureVector.strictWeakOrderOn_plus v h
      · exact GxfFeatureVector.strictWeakOrderOn_other v h
    refine ⟨hswo, ?_⟩
    intro a ha b hb hab
    cases hba : GxfFeatureVector.sortLess b a with
    | false => rfl
    | true =>
      have := hswo.2.1 a ha b hb a ha hab hba
      rw [GxfFeatureVector.sortLess_irrefl] at this
      cases this
  · intro h
    constructor
    · obtain ⟨out, hout, hperm, hsorted⟩ := GxfFeatureVector.sort_plus v h
      exact ⟨out, hout, hperm, GxfFeatureVector.sorted_of_plus v out h hperm hsorted⟩
    · exact fun out hperm hsorted => GxfFeatureVector.sorted_of_plus v out h hperm hsorted
  · intro h
    constructor
    · obtain ⟨out, hout, hperm, hsorted⟩ := GxfFeatureVector.sort_other v h
      exact ⟨out, hout, hperm, GxfFeatureVector.sorted_of_other v out h hperm hsorted⟩
    · exact fun out hperm hsorted => GxfFeatureVector.sorted_of_other v out h hperm hsorted

/-- C31 amended, evaluated on three exons of strand `+` with the starts 3, 7
and 5, which the sort returns with the starts 7, 5 and 3. -/
theorem sort_strictWeakOrdering_witness :
    GxfFeatureVector.sort [exampleFeature "exon" 3 4 [], exampleFeature "exon" 7 8 [],
        exampleFeature "exon" 5 6 []] =
      some [exampleFeature "exon" 7 8 [], exampleFeature "exon" 5 6 [],
        exampleFeature "exon" 3 4 []] ∧
    ∃ out, GxfFeatureVector.sort [exampleFeature "exon" 3 4 [], exampleFeature "exon" 7 8 [],
        exampleFeature "exon" 5 6 []] = some out ∧
      out.Perm [exampleFeature "exon" 3 4 [], exampleFeature "exon" 7 8 [],
        exampleFeature "exon" 5 6 []] ∧
      out.Pairwise (fun x y => y.fStart ≤ x.fStart) :=
  ⟨by decide, ((sort_strictWeakOrdering [exampleFeature "exon" 3 4 [],
    exampleFeature "exon" 7 8 [], exampleFeature "exon" 5 6 []]).2.2.1 (by decide)).1⟩

end GencodeBackmap
